import Mathlib

/-!
The package `quoinex` (v2) of quoinex-go-client: request signing and dispatch.

A shallow embedding of `v2/client.go` and `v2/order.go`.

* Go strings are byte sequences (`GoString`); `str` gives the bytes of a literal.
* Go `error` values are the inductive `GoError`; the package-level value
  `LiquidAlreadyExistError` is its own constructor, so that comparing against it is
  comparing identities, as `==` on Go errors does.
* A Go call that returns `(value, error)` or stops with a run-time panic is a `Result`.
* The parts of the standard library the client calls (`net/url`, `net/http`,
  `encoding/json`, `jwt-go`) are embedded as far as the client depends on them; what is
  outside (clock, runtime version, HMAC, the network) is a field of `Platform`.
-/

namespace Quoinex

/-! ## Strings and errors -/

/-- A Go string: an immutable sequence of bytes. -/
abbrev GoString := List UInt8

/-- The bytes (UTF-8) of a source literal. -/
def str (s : String) : GoString := s.toUTF8.data.toList

/-- The byte of an ASCII character literal, Go's `'c'`. -/
def ch (c : Char) : UInt8 := c.toNat.toUInt8

/-- Go's `strings.Contains(set, c)` for one byte, used for `switch c { case ... }` lists. -/
def oneOf (set : GoString) (c : UInt8) : Bool := set.contains c

/-- The text of the recognised conflict payload, line 35 and line 206 of client.go. -/
def conflictPayload : GoString :=
  str "\x7b\x22errors\x22:\x7b\x22client_order_id\x22:[\x22exists\x22]\x7d\x7d"

/-- Go `error` values that reach this package.
`LiquidAlreadyExistError` is the package variable of that name; `errorString` is a value
freshly made by `errors.New` or `fmt.Errorf`; `invalidMethod` is the value
`fmt.Errorf("net/http: invalid method %q", method)` of `http.NewRequest`; `EOF` and
`ErrUnexpectedEOF` are the variables of package `io`; `SyntaxError` and `UnmarshalTypeError`
(with its field `Value`) are the errors of `encoding/json`; `foreign` is any error made
elsewhere (transport, body reader), identified by its message. -/
inductive GoError where
  | LiquidAlreadyExistError
  | errorString (text : GoString)
  | invalidMethod (method : GoString)
  | EOF
  | ErrUnexpectedEOF
  | SyntaxError
  | UnmarshalTypeError (Value : GoString)
  | foreign (text : GoString)
deriving DecidableEq, Repr

/-- The method `Error()` of an error value, where its text is fixed by this package or by
package `io`; the messages of `encoding/json` and the quoting of a method by the verb `%q`
are not embedded. -/
def GoError.Error : GoError → Option GoString
  | .LiquidAlreadyExistError => some conflictPayload
  | .errorString text => some text
  | .EOF => some (str "EOF")
  | .ErrUnexpectedEOF => some (str "unexpected EOF")
  | .foreign text => some text
  | _ => none

/-- What a call returning `(*T, error)` can do: return `(v, nil)`, return `(nil, e)` with
`e` non-nil, or not return because it dereferenced a nil pointer. -/
inductive Result (α : Type) where
  | ok (v : α)
  | err (e : GoError)
  | nilDeref
deriving DecidableEq, Repr

/-! ## net/url -/

/-- The escaping modes of `net/url` that this client reaches. -/
inductive encoding where
  | encodePath
  | encodeHost
  | encodeQueryComponent
deriving DecidableEq, Repr

/-- The first `if` of `shouldEscape`: ASCII letters and digits. -/
def isAlnum (c : UInt8) : Bool :=
  (ch 'a' ≤ c && c ≤ ch 'z') || (ch 'A' ≤ c && c ≤ ch 'Z') || (ch '0' ≤ c && c ≤ ch '9')

/-- Bytes that `shouldEscape` lets through in a host: `! $ & ' ( ) * + , ; = : [ ] < > "`. -/
def hostSubDelims : GoString := str "!$&\x27()*+,;=:[]<>\x22"

/-- Go's `net/url.shouldEscape`. -/
def shouldEscape (c : UInt8) (mode : encoding) : Bool :=
  if isAlnum c then false
  else if mode == .encodeHost && oneOf hostSubDelims c then false
  else if oneOf (str "-_.~") c then false
  else if oneOf (str "$&+,/:;=?@") c then
    match mode with
    | .encodePath => c == ch '?'
    | .encodeQueryComponent => true
    | .encodeHost => true
  else true

/-- The table `upperhex` of `net/url`, indexed. -/
def upperhex (i : UInt8) : UInt8 := (str "0123456789ABCDEF").getD i.toNat 0

/-- Go's `net/url.escape`: a space becomes `+` in a query component, a byte that
`shouldEscape` becomes `%XX`, every other byte is kept. -/
def escape : GoString → encoding → GoString
  | [], _ => []
  | c :: s, mode =>
    (if c == ch ' ' && mode == .encodeQueryComponent then [ch '+']
     else if shouldEscape c mode then [ch '%', upperhex (c >>> 4), upperhex (c &&& 15)]
     else [c]) ++ escape s mode

/-- Go's `net/url.QueryEscape`. -/
def QueryEscape (s : GoString) : GoString := escape s .encodeQueryComponent

/-- Go's `net/url.ishex`. -/
def ishex (c : UInt8) : Bool :=
  (ch '0' ≤ c && c ≤ ch '9') || (ch 'a' ≤ c && c ≤ ch 'f') || (ch 'A' ≤ c && c ≤ ch 'F')

/-- Go's `net/url.unhex`. -/
def unhex (c : UInt8) : UInt8 :=
  if ch '0' ≤ c && c ≤ ch '9' then c - ch '0'
  else if ch 'a' ≤ c && c ≤ ch 'f' then c - ch 'a' + 10
  else if ch 'A' ≤ c && c ≤ ch 'F' then c - ch 'A' + 10
  else 0

/-- Go's `net/url.unescape`, with `none` for its `EscapeError` and `InvalidHostError`. -/
def unescape : GoString → encoding → Option GoString
  | [], _ => some []
  | c :: s, mode =>
    if c == ch '%' then
      match s with
      | h1 :: h2 :: rest =>
        if ishex h1 && ishex h2 then
          if mode == .encodeHost && unhex h1 < 8 && !(h1 == ch '2' && h2 == ch '5') then none
          else (unescape rest mode).map (fun t => (unhex h1 <<< 4 ||| unhex h2) :: t)
        else none
      | _ => none
    else if c == ch '+' then
      (unescape s mode).map
        (fun t => (if mode == .encodeQueryComponent then ch ' ' else ch '+') :: t)
    else if mode == .encodeHost && c < 0x80 && shouldEscape c .encodeHost then none
    else (unescape s mode).map (fun t => c :: t)

/-- Go's `net/url.validEncoded`. -/
def validEncoded (s : GoString) (mode : encoding) : Bool :=
  s.all (fun c => oneOf (str "!$&\x27()*+,;=:@[]%") c || !shouldEscape c mode)

/-- The fields of `url.URL` that are set in a URL parsed from `scheme://host[:port]path?query`.
The client only ever holds URLs parsed from `baseUrl` or from the address of an
`httptest.Server`; `Opaque`, `User`, `ForceQuery` and `Fragment` are zero in those. -/
structure URL where
  Scheme : GoString
  Host : GoString
  Path : GoString
  RawPath : GoString
  RawQuery : GoString
deriving DecidableEq, Repr

/-- Go's `(*URL).EscapedPath`. -/
def URL.EscapedPath (u : URL) : GoString :=
  if u.RawPath ≠ [] && validEncoded u.RawPath .encodePath
      && unescape u.RawPath .encodePath == some u.Path then u.RawPath
  else if u.Path == str "*" then str "*"
  else escape u.Path .encodePath

/-- The segment of `path` before its first `/` contains a colon
(`strings.Cut(path, "/")` followed by `strings.Contains(segment, ":")`). -/
def firstSegmentHasColon (path : GoString) : Bool :=
  (path.takeWhile (fun c => c != ch '/')).contains (ch ':')

/-- Go's `(*URL).String`, for a URL whose `Opaque`, `User`, `ForceQuery` and `Fragment` are zero. -/
def URL.String (u : URL) : GoString :=
  let buf : GoString := if u.Scheme ≠ [] then u.Scheme ++ str ":" else []
  let buf : GoString :=
    if u.Scheme ≠ [] || u.Host ≠ [] then
      let buf := if u.Host ≠ [] || u.Path ≠ [] then buf ++ str "//" else buf
      if u.Host ≠ [] then buf ++ escape u.Host .encodeHost else buf
    else buf
  let path := u.EscapedPath
  let buf : GoString :=
    if path ≠ [] && path.head? != some (ch '/') && u.Host ≠ [] then buf ++ str "/" else buf
  let buf : GoString :=
    if buf.length == 0 && firstSegmentHasColon path then buf ++ str "./" else buf
  let buf := buf ++ path
  if u.RawQuery ≠ [] then buf ++ str "?" ++ u.RawQuery else buf

/-- Go's `<=` on strings: byte-wise lexicographic order. -/
def strLe : GoString → GoString → Bool
  | [], _ => true
  | _ :: _, [] => false
  | a :: as, b :: bs => if a < b then true else if b < a then false else strLe as bs

/-- Go's `sort.Strings` / `slices.Sort` on a slice of strings. -/
def sortStrings (keys : List GoString) : List GoString :=
  keys.insertionSort (fun a b => strLe a b = true)

/-- Go's `url.Values`, a `map[string][]string`: one entry per key. -/
abbrev Values := List (GoString × List GoString)

/-- The map read `v[key]`; a missing key reads as the nil slice. -/
def Values.index (v : Values) (key : GoString) : List GoString :=
  match v with
  | [] => []
  | (k, vs) :: rest => if k = key then vs else Values.index rest key

/-- The map write `v[key] = vs`. -/
def Values.put (v : Values) (key : GoString) (vs : List GoString) : Values :=
  match v with
  | [] => [(key, vs)]
  | (k, old) :: rest => if k = key then (key, vs) :: rest else (k, old) :: Values.put rest key vs

/-- Go's `Values.Set`: `v[key] = []string{value}`. -/
def Values.Set (v : Values) (key value : GoString) : Values := v.put key [value]

/-- Go's `Values.Add`: `v[key] = append(v[key], value)`. -/
def Values.Add (v : Values) (key value : GoString) : Values := v.put key (v.index key ++ [value])

/-- The inner loop of `Values.Encode` over the values of one key. -/
def encodeValues (keyEscaped : GoString) (buf : GoString) : List GoString → GoString
  | [] => buf
  | v :: vs =>
    let buf := if buf.length > 0 then buf ++ str "&" else buf
    encodeValues keyEscaped (buf ++ keyEscaped ++ str "=" ++ QueryEscape v) vs

/-- The outer loop of `Values.Encode` over the sorted keys. -/
def encodeKeys (v : Values) (buf : GoString) : List GoString → GoString
  | [] => buf
  | k :: ks => encodeKeys v (encodeValues (QueryEscape k) buf (v.index k)) ks

/-- Go's `Values.Encode`: the URL-encoded form, sorted by key. -/
def Values.Encode (v : Values) : GoString :=
  if v.length == 0 then [] else encodeKeys v [] (sortStrings (v.map Prod.fst))

/-- Go's `strings.Cut(s, sep)` for a one-byte separator: `(before, after, found)`. -/
def cut (s : GoString) (sep : UInt8) : GoString × GoString × Bool :=
  match s with
  | [] => ([], [], false)
  | c :: t =>
    if c == sep then ([], t, true)
    else let r := cut t sep; (c :: r.1, r.2.1, r.2.2)

/-- The loop of `net/url.parseQuery`; its error result is dropped, as `(*URL).Query` drops it.
Every round removes at least one byte of a non-empty `query`, so `fuel = len(query)` rounds
are enough. -/
def parseQueryLoop : Nat → Values → GoString → Values
  | 0, m, _ => m
  | fuel + 1, m, query =>
    if query == [] then m
    else
      let (key, query, _) := cut query (ch '&')
      if key.contains (ch ';') then parseQueryLoop fuel m query
      else if key == [] then parseQueryLoop fuel m query
      else
        let (key, value, _) := cut key (ch '=')
        match unescape key .encodeQueryComponent with
        | none => parseQueryLoop fuel m query
        | some key =>
          match unescape value .encodeQueryComponent with
          | none => parseQueryLoop fuel m query
          | some value => parseQueryLoop fuel (m.Add key value) query

/-- Go's `(*URL).Query`: `ParseQuery(u.RawQuery)` with the error ignored. -/
def URL.Query (u : URL) : Values := parseQueryLoop u.RawQuery.length [] u.RawQuery

/-! ## net/http -/

/-- Go's `httpguts.IsTokenRune` / `textproto.validHeaderFieldByte` on a byte. -/
def isTokenByte (c : UInt8) : Bool := isAlnum c || oneOf (str "!#$%&\x27*+-.^_\x60|~") c

/-- Go's `net/http.validMethod`. -/
def validMethod (method : GoString) : Bool := method.length > 0 && method.all isTokenByte

/-- The rewriting loop of `textproto.canonicalMIMEHeaderKey`: upper case at the start and
after each dash, lower case elsewhere. -/
def canonicalLoop (upper : Bool) : GoString → GoString
  | [] => []
  | c :: s =>
    let c :=
      if upper && ch 'a' ≤ c && c ≤ ch 'z' then c - 32
      else if !upper && ch 'A' ≤ c && c ≤ ch 'Z' then c + 32
      else c
    c :: canonicalLoop (c == ch '-') s

/-- Go's `textproto.CanonicalMIMEHeaderKey`: a key with a byte that is not a header field byte
is returned unchanged. -/
def CanonicalMIMEHeaderKey (s : GoString) : GoString :=
  if s.all isTokenByte then canonicalLoop true s else s

/-- Go's `http.Header`, a `map[string][]string`. -/
abbrev Header := List (GoString × List GoString)

/-- Go's `Header.Set`. -/
def Header.Set (h : Header) (key value : GoString) : Header :=
  Values.put h (CanonicalMIMEHeaderKey key) [value]

/-- Go's `Header.Get`: the first value of the key, or the empty string. -/
def Header.Get (h : Header) (key : GoString) : GoString :=
  (Values.index h (CanonicalMIMEHeaderKey key)).headD []

/-- An `*http.Request` as `http.NewRequest` builds it. `URL` is the text given to
`http.NewRequest`, which the request keeps in parsed form; `Body` is the reader's content,
`none` for a nil reader. -/
structure Request where
  Method : GoString
  URL : GoString
  Header : Header
  Body : Option GoString
deriving DecidableEq, Repr

/-- Go's `http.NewRequest(method, url, body)`: an empty method means GET, a method that is not a
token is refused. The parse of `url` is not embedded: the text that `newRequest` passes is
written by `(*URL).String` from a parsed URL, with the path and the query in escaped form. -/
def NewRequest (method url : GoString) (body : Option GoString) : Except GoError Request :=
  let method := if method == [] then str "GET" else method
  if !validMethod method then .error (.invalidMethod method)
  else .ok { Method := method, URL := url, Header := [], Body := body }

/-- A response body, an `io.ReadCloser`: `data` are the bytes not yet read, and after them
the reader reports `io.EOF` (`fail = none`) or, on every further read, the error `fail`. -/
structure Body where
  data : GoString
  fail : Option GoError
deriving DecidableEq, Repr

/-- Go's `ioutil.ReadAll(body)`: the result, and the reader afterwards. -/
def ReadAll (b : Body) : Except GoError GoString × Body :=
  match b.fail with
  | none => (.ok b.data, { data := [], fail := none })
  | some e => (.error e, { data := [], fail := some e })

/-- An `*http.Response`, as far as this package reads it. -/
structure Response where
  StatusCode : Int
  Body : Body
deriving DecidableEq, Repr

/-- After `httputil.DumpResponse(resp, true)`: a body that reads to EOF has been drained
into a buffer and replaced by a reader over the same bytes; when the drain fails the
response keeps its reader, now past its data. -/
def drainBody (b : Body) : Body :=
  match b.fail with
  | none => b
  | some e => { data := [], fail := some e }

/-- Go's `httpResponseLog(resp)`, lines 221-224: `httputil.DumpResponse` reads `resp.Body` in its
first statement, so a nil `resp` is a nil dereference; otherwise the text is built (its
layout is not embedded) and the response is left with the drained body. -/
def httpResponseLog (resp : Option Response) : Result Response :=
  match resp with
  | none => .nilDeref
  | some r => .ok { r with Body := drainBody r.Body }

/-- Go's `httpRequestLog(req)`, lines 225-228: `httputil.DumpRequest` reads `req.Body` in its
first statement, so a nil `req` is a nil dereference; a request body is a `strings.Reader`
or nil and is restored after the dump. -/
def httpRequestLog (req : Option Request) : Result Request :=
  match req with
  | none => .nilDeref
  | some r => .ok r

/-! ## encoding/json -/

mutual
/-- A JSON value as the scanner of `encoding/json` delimits it. A number keeps its literal,
a string the bytes between its quotes. -/
inductive JSON where
  | null
  | bool (b : Bool)
  | number (lit : GoString)
  | string (raw : GoString)
  | array (elems : JSONList)
  | object (members : JSONMembers)
/-- The elements of a JSON array. -/
inductive JSONList where
  | nil
  | cons (x : JSON) (xs : JSONList)
/-- The members of a JSON object, each a key (the bytes between its quotes) and a value. -/
inductive JSONMembers where
  | nil
  | cons (key : GoString) (value : JSON) (rest : JSONMembers)
end

/-- How the scanner stops short of a complete value: the input ended (`short`), or a byte
cannot continue the value (`invalid`, a `*json.SyntaxError`); `fuel` marks a scan cut off
by its step bound. -/
inductive ScanError where
  | short
  | invalid
  | fuel
deriving DecidableEq, Repr

/-- Go's `encoding/json.isSpace`. -/
def isSpace (c : UInt8) : Bool := c == ch ' ' || c == 9 || c == 13 || c == 10

/-- Leading white space removed. -/
def skipSpace : GoString → GoString
  | [] => []
  | c :: s => if isSpace c then skipSpace s else c :: s

/-- The bytes of a literal such as `true` after its first byte: `want` must follow. -/
def scanLiteral : GoString → GoString → Except ScanError GoString
  | [], s => .ok s
  | _ :: _, [] => .error .short
  | w :: ws, c :: s => if c == w then scanLiteral ws s else .error .invalid

/-- The scanner states `stateInString`, `stateInStringEsc` and `stateInStringEscU*`, from
after the opening quote: the bytes up to the closing quote, and what follows it. -/
def scanString : GoString → Except ScanError (GoString × GoString)
  | [] => .error .short
  | c :: s =>
    if c == ch '\x22' then .ok ([], s)
    else if c == ch '\\' then
      match s with
      | [] => .error .short
      | e :: s1 =>
        if oneOf (str "bfnrt\\/\x22") e then
          (scanString s1).map (fun r => (c :: e :: r.1, r.2))
        else if e == ch 'u' then
          match s1 with
          | h1 :: h2 :: h3 :: h4 :: s2 =>
            if ishex h1 && ishex h2 && ishex h3 && ishex h4 then
              (scanString s2).map (fun r => (c :: e :: h1 :: h2 :: h3 :: h4 :: r.1, r.2))
            else .error .invalid
          | h1 :: h2 :: h3 :: [] =>
            if ishex h1 && ishex h2 && ishex h3 then .error .short else .error .invalid
          | h1 :: h2 :: [] => if ishex h1 && ishex h2 then .error .short else .error .invalid
          | h1 :: [] => if ishex h1 then .error .short else .error .invalid
          | [] => .error .short
        else .error .invalid
    else if c < 0x20 then .error .invalid
    else (scanString s).map (fun r => (c :: r.1, r.2))

/-- A maximal run of decimal digits. -/
def spanDigits : GoString → GoString × GoString
  | [] => ([], [])
  | c :: s =>
    if ch '0' ≤ c && c ≤ ch '9' then let r := spanDigits s; (c :: r.1, r.2) else ([], c :: s)

/-- The scanner states `stateE`, `stateESign` and `stateE0`, after `e` or `E`. -/
def scanExponent (s : GoString) : Except ScanError (GoString × GoString) :=
  let (sign, s) : GoString × GoString :=
    match s with
    | c :: t => if c == ch '+' || c == ch '-' then ([c], t) else ([], s)
    | [] => ([], [])
  match spanDigits s with
  | ([], []) => .error .short
  | ([], _ :: _) => .error .invalid
  | (ds, rest) => .ok (sign ++ ds, rest)

/-- The scanner states `state1`/`state0`, `stateDot`, `stateDot0`, after the integer part:
an optional fraction and an optional exponent. -/
def scanFraction (s : GoString) : Except ScanError (GoString × GoString) :=
  match s with
  | c :: t =>
    if c == ch '.' then
      match spanDigits t with
      | ([], []) => .error .short
      | ([], _ :: _) => .error .invalid
      | (ds, rest) =>
        match rest with
        | e :: u =>
          if e == ch 'e' || e == ch 'E' then
            (scanExponent u).map (fun r => (c :: ds ++ e :: r.1, r.2))
          else .ok (c :: ds, rest)
        | [] => .ok (c :: ds, [])
    else if c == ch 'e' || c == ch 'E' then
      (scanExponent t).map (fun r => (c :: r.1, r.2))
    else .ok ([], s)
  | [] => .ok ([], [])

/-- A number from its first digit `c` (the states `stateBeginValue`, `stateNeg`): a leading
zero ends the integer part. -/
def scanNumber (c : UInt8) (s : GoString) : Except ScanError (GoString × GoString) :=
  if c == ch '0' then (scanFraction s).map (fun r => (c :: r.1, r.2))
  else if ch '1' ≤ c && c ≤ ch '9' then
    let (ds, rest) := spanDigits s
    (scanFraction rest).map (fun r => (c :: ds ++ r.1, r.2))
  else .error .invalid

/-- Go's `maxNestingDepth` of the scanner. -/
def maxNestingDepth : Nat := 10000

mutual
/-- One JSON value at the head of `s`, after optional white space, and the rest of `s`.
`depth` is the number of open arrays and objects. -/
def scanValue : Nat → Nat → GoString → Except ScanError (JSON × GoString)
  | 0, _, _ => .error .fuel
  | fuel + 1, depth, s =>
    match skipSpace s with
    | [] => .error .short
    | c :: t =>
      if c == ch '\x7b' then
        if depth + 1 > maxNestingDepth then .error .invalid
        else
          match skipSpace t with
          | [] => .error .short
          | d :: u =>
            if d == ch '\x7d' then .ok (.object .nil, u)
            else (scanMembers fuel (depth + 1) (d :: u)).map (fun r => (.object r.1, r.2))
      else if c == ch '[' then
        if depth + 1 > maxNestingDepth then .error .invalid
        else
          match skipSpace t with
          | [] => .error .short
          | d :: u =>
            if d == ch ']' then .ok (.array .nil, u)
            else (scanElements fuel (depth + 1) (d :: u)).map (fun r => (.array r.1, r.2))
      else if c == ch '\x22' then (scanString t).map (fun r => (.string r.1, r.2))
      else if c == ch '-' then
        match t with
        | [] => .error .short
        | d :: u => (scanNumber d u).map (fun r => (.number (c :: r.1), r.2))
      else if ch '0' ≤ c && c ≤ ch '9' then (scanNumber c t).map (fun r => (.number r.1, r.2))
      else if c == ch 't' then (scanLiteral (str "rue") t).map (fun r => (.bool true, r))
      else if c == ch 'f' then (scanLiteral (str "alse") t).map (fun r => (.bool false, r))
      else if c == ch 'n' then (scanLiteral (str "ull") t).map (fun r => (.null, r))
      else .error .invalid
/-- The elements of an array from the first byte of an element, through the closing `]`. -/
def scanElements : Nat → Nat → GoString → Except ScanError (JSONList × GoString)
  | 0, _, _ => .error .fuel
  | fuel + 1, depth, s =>
    match scanValue fuel depth s with
    | .error e => .error e
    | .ok (x, rest) =>
      match skipSpace rest with
      | [] => .error .short
      | c :: t =>
        if c == ch ',' then (scanElements fuel depth t).map (fun r => (.cons x r.1, r.2))
        else if c == ch ']' then .ok (.cons x .nil, t)
        else .error .invalid
/-- The members of an object from the opening quote of a key, through the closing brace. -/
def scanMembers : Nat → Nat → GoString → Except ScanError (JSONMembers × GoString)
  | 0, _, _ => .error .fuel
  | fuel + 1, depth, s =>
    match skipSpace s with
    | [] => .error .short
    | q :: s1 =>
      if q != ch '\x22' then .error .invalid
      else
        match scanString s1 with
        | .error e => .error e
        | .ok (key, s2) =>
          match skipSpace s2 with
          | [] => .error .short
          | colon :: s3 =>
            if colon != ch ':' then .error .invalid
            else
              match scanValue fuel depth s3 with
              | .error e => .error e
              | .ok (v, s4) =>
                match skipSpace s4 with
                | [] => .error .short
                | c :: t =>
                  if c == ch ',' then
                    (scanMembers fuel depth t).map (fun r => (.cons key v r.1, r.2))
                  else if c == ch '\x7d' then .ok (.cons key v .nil, t)
                  else .error .invalid
end

/-- Go's `json.Valid`: the text is one JSON value, with nothing but white space before and
after it, by the scanner of the package. -/
def Valid (data : GoString) : Bool :=
  match scanValue (2 * data.length + 1) 0 data with
  | .ok (_, rest) => skipSpace rest == []
  | .error _ => false

/-- The length of the UTF-8 sequence at the head of `s` when it is a valid encoding of more
than one byte (`utf8.DecodeRune`), else 0. -/
def multiByteLen : GoString → Nat
  | b0 :: b1 :: rest =>
    let cont (b : UInt8) : Bool := 0x80 ≤ b && b ≤ 0xBF
    if 0xC2 ≤ b0 && b0 ≤ 0xDF then (if cont b1 then 2 else 0)
    else
      match rest with
      | [] => 0
      | b2 :: rest =>
        let lo : UInt8 := if b0 == 0xE0 then 0xA0 else if b0 == 0xF0 then 0x90 else 0x80
        let hi : UInt8 := if b0 == 0xED then 0x9F else if b0 == 0xF4 then 0x8F else 0xBF
        if 0xE0 ≤ b0 && b0 ≤ 0xEF then (if lo ≤ b1 && b1 ≤ hi && cont b2 then 3 else 0)
        else if 0xF0 ≤ b0 && b0 ≤ 0xF4 then
          match rest with
          | [] => 0
          | b3 :: _ => if lo ≤ b1 && b1 ≤ hi && cont b2 && cont b3 then 4 else 0
        else 0
  | _ => 0

/-- Go's `utf8.AppendRune` for a rune that is not a surrogate and at most U+10FFFF. -/
def encodeRune (r : Nat) : GoString :=
  if r < 0x80 then [r.toUInt8]
  else if r < 0x800 then [(0xC0 + r / 64).toUInt8, (0x80 + r % 64).toUInt8]
  else if r < 0x10000 then
    [(0xE0 + r / 4096).toUInt8, (0x80 + r / 64 % 64).toUInt8, (0x80 + r % 64).toUInt8]
  else
    [(0xF0 + r / 262144).toUInt8, (0x80 + r / 4096 % 64).toUInt8,
     (0x80 + r / 64 % 64).toUInt8, (0x80 + r % 64).toUInt8]

/-- Go's `encoding/json.getu4`: the code unit of a `\uXXXX` escape at the head of `s`. -/
def getu4 : GoString → Option Nat
  | b :: u :: h1 :: h2 :: h3 :: h4 :: _ =>
    if b == ch '\\' && u == ch 'u' && ishex h1 && ishex h2 && ishex h3 && ishex h4 then
      some (((unhex h1).toNat * 16 + (unhex h2).toNat) * 256
            + (unhex h3).toNat * 16 + (unhex h4).toNat)
    else none
  | _ => none

/-- The replacement character U+FFFD. -/
def replacementChar : Nat := 0xFFFD

/-- Go's `encoding/json.unquoteBytes` on the inside of a string literal that the scanner
accepted: escapes are resolved, a surrogate pair becomes one rune, a lone surrogate and a
byte that is not valid UTF-8 become U+FFFD. At most `len(s)` rounds. -/
def unquoteLoop : Nat → GoString → GoString
  | 0, _ => []
  | _ + 1, [] => []
  | fuel + 1, c :: s =>
    if c == ch '\\' then
      match s with
      | [] => []
      | e :: s1 =>
        if e == ch 'u' then
          match getu4 (c :: e :: s1) with
          | none => []
          | some rr =>
            let s2 := s1.drop 4
            if 0xD800 ≤ rr && rr < 0xE000 then
              match getu4 s2 with
              | some rr1 =>
                if rr < 0xDC00 && 0xDC00 ≤ rr1 && rr1 < 0xE000 then
                  encodeRune ((rr - 0xD800) * 1024 + (rr1 - 0xDC00) + 0x10000)
                    ++ unquoteLoop fuel (s2.drop 6)
                else encodeRune replacementChar ++ unquoteLoop fuel s2
              | none => encodeRune replacementChar ++ unquoteLoop fuel s2
            else encodeRune rr ++ unquoteLoop fuel s2
        else
          let d : UInt8 :=
            if e == ch 'b' then 8 else if e == ch 'f' then 12 else if e == ch 'n' then 10
            else if e == ch 'r' then 13 else if e == ch 't' then 9 else e
          d :: unquoteLoop fuel s1
    else if c < 0x80 then c :: unquoteLoop fuel s
    else
      match multiByteLen (c :: s) with
      | 0 => encodeRune replacementChar ++ unquoteLoop fuel s
      | n => (c :: s).take n ++ unquoteLoop fuel ((c :: s).drop n)

/-- The Go string of a JSON string literal, from the bytes between its quotes. -/
def unquote (raw : GoString) : GoString := unquoteLoop raw.length raw

/-- Go's `encoding/json.foldName`, as far as it matters for comparing with an ASCII field name:
ASCII letters upper-cased, and the two runes outside ASCII that fold to an ASCII letter,
U+017F to `S` and U+212A to `K`. -/
def foldName : GoString → GoString
  | [] => []
  | c :: s =>
    let up : UInt8 := if ch 'a' ≤ c && c ≤ ch 'z' then c - 32 else c
    match s with
    | [] => [up]
    | d :: t =>
      if c == 0xC5 && d == 0xBF then ch 'S' :: foldName t
      else
        match t with
        | [] => up :: foldName [d]
        | e :: u =>
          if c == 0xE2 && d == 0x84 && e == 0xAA then ch 'K' :: foldName u
          else up :: foldName (d :: e :: u)

/-- Go's `encoding/json.isValidNumber`. -/
def isValidNumber (s : GoString) : Bool :=
  let digit (c : UInt8) : Bool := ch '0' ≤ c && c ≤ ch '9'
  if s == [] then false
  else
    let s := if s.head? == some (ch '-') then s.drop 1 else s
    if s == [] then false
    else
      match (if s.head? == some (ch '0') then some (s.drop 1)
             else if s.head?.any (fun c => ch '1' ≤ c && c ≤ ch '9') then
               some ((s.drop 1).dropWhile digit)
             else none) with
      | none => false
      | some s =>
        let s :=
          if s.length ≥ 2 && s.head? == some (ch '.') && (s.drop 1).head?.any digit then
            (s.drop 2).dropWhile digit
          else s
        if s.length ≥ 2 && (s.head? == some (ch 'e') || s.head? == some (ch 'E')) then
          let s := s.drop 1
          if s.head? == some (ch '+') || s.head? == some (ch '-') then
            let s := s.drop 1
            if s == [] then false else (s.dropWhile digit) == []
          else (s.dropWhile digit) == []
        else s == []

/-- Go's `strconv.ParseInt(s, 10, 64)` on a JSON number literal: an optional minus sign and
digits only, within the range of `int64`. -/
def ParseInt (s : GoString) : Option Int :=
  let digit (c : UInt8) : Bool := ch '0' ≤ c && c ≤ ch '9'
  let (neg, ds) : Bool × GoString :=
    match s with
    | c :: t => if c == ch '-' then (true, t) else (false, s)
    | [] => (false, [])
  if ds == [] || !ds.all digit then none
  else
    let n : Nat := ds.foldl (fun acc c => acc * 10 + (c - ch '0').toNat) 0
    if neg then (if n ≤ 2 ^ 63 then some (-(n : Int)) else none)
    else (if n < 2 ^ 63 then some (n : Int) else none)

/-- The state of a `decodeState` after a value has been stored: the target, and the first
type error saved with `saveError`, if any. `Except.error` is an error that stops decoding. -/
abbrev Decoded (T : Type) := Except GoError (T × Option GoError)

/-- Go's `(*decodeState).saveError`: the first error is kept. -/
def saveError (saved : Option GoError) (err : GoError) : Option GoError :=
  match saved with
  | some e => some e
  | none => some err

/-- The field `Value` of the `UnmarshalTypeError` for a JSON value of the wrong kind. -/
def describe : JSON → GoString
  | .null => str "null"
  | .bool _ => str "bool"
  | .number _ => str "number"
  | .string _ => str "string"
  | .array _ => str "array"
  | .object _ => str "object"

/-- A JSON value stored into a Go `int` (64 bits wide). -/
def storeInt (j : JSON) (old : Int) (saved : Option GoError) : Decoded Int :=
  match j with
  | .null => .ok (old, saved)
  | .number lit =>
    match ParseInt lit with
    | some n => .ok (n, saved)
    | none => .ok (old, saveError saved (.UnmarshalTypeError (str "number " ++ lit)))
  | other => .ok (old, saveError saved (.UnmarshalTypeError (describe other)))

/-- A JSON value stored into a Go `string`. -/
def storeString (j : JSON) (old : GoString) (saved : Option GoError) : Decoded GoString :=
  match j with
  | .null => .ok (old, saved)
  | .string raw => .ok (unquote raw, saved)
  | other => .ok (old, saveError saved (.UnmarshalTypeError (describe other)))

/-- A JSON value stored into a `json.Number`: a number keeps its literal, a string must
hold a valid number. A string that does not is a type error whose `Value` is the word
`string` and the literal, as in `string "abc"` (earlier releases of Go return the error
`json: invalid number literal, trying to unmarshal "abc" into Number` at once instead). -/
def storeNumber (j : JSON) (old : GoString) (saved : Option GoError) : Decoded GoString :=
  match j with
  | .null => .ok (old, saved)
  | .number lit => .ok (lit, saved)
  | .string raw =>
    if isValidNumber (unquote raw) then .ok (unquote raw, saved)
    else
      .ok (old, saveError saved
        (.UnmarshalTypeError (str "string \x22" ++ raw ++ str "\x22")))
  | other => .ok (old, saveError saved (.UnmarshalTypeError (describe other)))

/-- A field of a struct type `T` for the decoder: its JSON name, and how a value is stored
into it. -/
structure Field (T : Type) where
  name : GoString
  store : JSON → T → Option GoError → Decoded T

/-- The field an object key selects: the one of that exact name, else the first whose
name is equal under case folding. -/
def findField {T : Type} (fields : List (Field T)) (key : GoString) : Option (Field T) :=
  match fields.find? (fun f => f.name == key) with
  | some f => some f
  | none => fields.find? (fun f => foldName f.name == foldName key)

/-- The loop of `(*decodeState).object` over the members, for a struct target; a key that
selects no field is skipped. -/
def storeMembers {T : Type} (fields : List (Field T)) :
    JSONMembers → T → Option GoError → Decoded T
  | .nil, v, saved => .ok (v, saved)
  | .cons key value rest, v, saved =>
    match findField fields (unquote key) with
    | none => storeMembers fields rest v saved
    | some f =>
      match f.store value v saved with
      | .error e => .error e
      | .ok (v, saved) => storeMembers fields rest v saved

/-- A JSON value stored into a struct. -/
def storeStruct {T : Type} (fields : List (Field T)) (j : JSON) (old : T)
    (saved : Option GoError) : Decoded T :=
  match j with
  | .null => .ok (old, saved)
  | .object members => storeMembers fields members old saved
  | other => .ok (old, saveError saved (.UnmarshalTypeError (describe other)))

/-- A Go slice: its elements, and after them the slots of its backing array that held
elements before the slice was shortened. The capacity beyond those slots is not embedded:
it holds zero values, and the decoder grows a slice with zero values. -/
structure Slice (T : Type) where
  elems : List T
  spare : List T
deriving DecidableEq, Repr

/-- The loop of `(*decodeState).array` over the elements, for a slice target whose backing
array holds `slots` from the current index on: element `i` is decoded into the slot `i`
that is there (`v.SetLen(i + 1)`, `v.Index(i)`), and into a zero value when the array has
to grow. The result is the elements, and the slots left over. -/
def storeElements {T : Type} (zero : T) (store : JSON → T → Option GoError → Decoded T) :
    JSONList → List T → Option GoError → Decoded (List T × List T)
  | .nil, slots, saved => .ok (([], slots), saved)
  | .cons x xs, slots, saved =>
    match store x (slots.headD zero) saved with
    | .error e => .error e
    | .ok (v, saved) =>
      match storeElements zero store xs slots.tail saved with
      | .error e => .error e
      | .ok ((vs, left), saved) => .ok ((v :: vs, left), saved)

/-- A JSON value stored into a slice (`none` is the nil slice): `null` makes it nil; an
array is decoded element by element into the slots of the backing array and the slice is
cut to the number of elements, an empty array giving a new empty slice
(`reflect.MakeSlice(v.Type(), 0, 0)`). -/
def storeSlice {T : Type} (zero : T) (store : JSON → T → Option GoError → Decoded T)
    (j : JSON) (old : Option (Slice T)) (saved : Option GoError) :
    Decoded (Option (Slice T)) :=
  match j with
  | .null => .ok (none, saved)
  | .array elems =>
    let slots : List T :=
      match old with
      | none => []
      | some s => s.elems ++ s.spare
    match storeElements zero store elems slots saved with
    | .error e => .error e
    | .ok (([], _), saved) => .ok (some { elems := [], spare := [] }, saved)
    | .ok ((v :: vs, left), saved) => .ok (some { elems := v :: vs, spare := left }, saved)
  | other => .ok (old, saveError saved (.UnmarshalTypeError (describe other)))

/-- A struct type for the decoder: its zero value and its fields. -/
structure Shape (T : Type) where
  zero : T
  fields : List (Field T)

/-- Go's `(*Decoder).readValue`: the first JSON value of the stream. When the bytes end inside
the value the reader's error is returned, which for `io.EOF` becomes `io.EOF` if only white
space was read and `io.ErrUnexpectedEOF` otherwise. What follows the value is not looked at. -/
def readValue (b : Body) : Except GoError JSON :=
  match scanValue (2 * b.data.length + 1) 0 b.data with
  | .ok (v, _) => .ok v
  | .error .invalid => .error .SyntaxError
  | .error .fuel => .error .SyntaxError
  | .error .short =>
    match b.fail with
    | some e => .error e
    | none => if b.data.all isSpace then .error .EOF else .error .ErrUnexpectedEOF

/-- Go's `json.NewDecoder(body).Decode(&v)` for a zero struct `v`: the value left in `v`, or the
error returned. -/
def Decode {T : Type} (shape : Shape T) (b : Body) : Except GoError T :=
  match readValue b with
  | .error e => .error e
  | .ok j =>
    match storeStruct shape.fields j shape.zero none with
    | .error e => .error e
    | .ok (_, some e) => .error e
    | .ok (v, none) => .ok v

/-! ## models/order.go -/

/-- The element type of `OrderExecutions`, lines 39-46. -/
structure OrderExecution where
  ID : Int
  Quantity : GoString
  Price : GoString
  TakerSide : GoString
  MySide : GoString
  CreatedAt : Int
deriving DecidableEq, Repr

/-- Go's `Order`, lines 11-32. A nil `Executions` is `none`. -/
structure Order where
  ID : Int
  OrderType : GoString
  Quantity : GoString
  DiscQuantity : GoString
  IcebergTotalQuantity : GoString
  Side : GoString
  FilledQuantity : GoString
  Price : GoString
  CreatedAt : Int
  UpdatedAt : Int
  Status : GoString
  LeverageLevel : Int
  SourceExchange : GoString
  ProductID : Int
  ProductCode : GoString
  FundingCurrency : GoString
  CurrencyPairCode : GoString
  OrderFee : GoString
  Executions : Option (Slice OrderExecution)
  ClientOrderID : GoString
deriving DecidableEq, Repr

/-- A decoder field from a getter, a setter and the store of the field's type. -/
def field {T F : Type} (name : String) (get : T → F) (set : T → F → T)
    (store : JSON → F → Option GoError → Decoded F) : Field T :=
  { name := str name
    store := fun j v saved =>
      match store j (get v) saved with
      | .error e => .error e
      | .ok (x, saved) => .ok (set v x, saved) }

/-- The element struct of `OrderExecutions` with its `json` tags. -/
def orderExecutionShape : Shape OrderExecution where
  zero := { ID := 0, Quantity := [], Price := [], TakerSide := [], MySide := [], CreatedAt := 0 }
  fields :=
    [ field "id" (·.ID) (fun v x => { v with ID := x }) storeInt,
      field "quantity" (·.Quantity) (fun v x => { v with Quantity := x }) storeString,
      field "price" (·.Price) (fun v x => { v with Price := x }) storeString,
      field "taker_side" (·.TakerSide) (fun v x => { v with TakerSide := x }) storeString,
      field "my_side" (·.MySide) (fun v x => { v with MySide := x }) storeString,
      field "created_at" (·.CreatedAt) (fun v x => { v with CreatedAt := x }) storeInt ]

/-- The struct `Order` with its `json` tags. -/
def orderShape : Shape Order where
  zero :=
    { ID := 0, OrderType := [], Quantity := [], DiscQuantity := [], IcebergTotalQuantity := [],
      Side := [], FilledQuantity := [], Price := [], CreatedAt := 0, UpdatedAt := 0,
      Status := [], LeverageLevel := 0, SourceExchange := [], ProductID := 0,
      ProductCode := [], FundingCurrency := [], CurrencyPairCode := [], OrderFee := [],
      Executions := none, ClientOrderID := [] }
  fields :=
    [ field "id" (·.ID) (fun v x => { v with ID := x }) storeInt,
      field "order_type" (·.OrderType) (fun v x => { v with OrderType := x }) storeString,
      field "quantity" (·.Quantity) (fun v x => { v with Quantity := x }) storeString,
      field "disc_quantity" (·.DiscQuantity) (fun v x => { v with DiscQuantity := x })
        storeString,
      field "iceberg_total_quantity" (·.IcebergTotalQuantity)
        (fun v x => { v with IcebergTotalQuantity := x }) storeString,
      field "side" (·.Side) (fun v x => { v with Side := x }) storeString,
      field "filled_quantity" (·.FilledQuantity) (fun v x => { v with FilledQuantity := x })
        storeString,
      field "price" (·.Price) (fun v x => { v with Price := x }) storeNumber,
      field "created_at" (·.CreatedAt) (fun v x => { v with CreatedAt := x }) storeInt,
      field "updated_at" (·.UpdatedAt) (fun v x => { v with UpdatedAt := x }) storeInt,
      field "status" (·.Status) (fun v x => { v with Status := x }) storeString,
      field "leverage_level" (·.LeverageLevel) (fun v x => { v with LeverageLevel := x })
        storeInt,
      field "source_exchange" (·.SourceExchange) (fun v x => { v with SourceExchange := x })
        storeString,
      field "product_id" (·.ProductID) (fun v x => { v with ProductID := x }) storeInt,
      field "product_code" (·.ProductCode) (fun v x => { v with ProductCode := x }) storeString,
      field "funding_currency" (·.FundingCurrency)
        (fun v x => { v with FundingCurrency := x }) storeString,
      field "currency_pair_code" (·.CurrencyPairCode)
        (fun v x => { v with CurrencyPairCode := x }) storeString,
      field "order_fee" (·.OrderFee) (fun v x => { v with OrderFee := x }) storeNumber,
      field "executions" (·.Executions) (fun v x => { v with Executions := x })
        (storeSlice orderExecutionShape.zero (storeStruct orderExecutionShape.fields)),
      field "client_order_id" (·.ClientOrderID) (fun v x => { v with ClientOrderID := x })
        storeString ]

/-! ## jwt-go -/

/-- A claim value as `newRequest` stores it in `jwt.MapClaims`: a string or an `int64`. -/
inductive ClaimValue where
  | string (s : GoString)
  | int64 (n : Int)
deriving DecidableEq, Repr

/-- Go's `jwt.MapClaims`, a `map[string]interface{}`, as the entries of its literal. -/
abbrev MapClaims := List (GoString × ClaimValue)

/-- A `*jwt.Token`. -/
structure Token where
  Header : MapClaims
  Claims : MapClaims
  Method : GoString
deriving DecidableEq, Repr

/-- Go's `jwt.NewWithClaims(method, claims)`. -/
def NewWithClaims (method : GoString) (claims : MapClaims) : Token :=
  { Header := [(str "typ", .string (str "JWT")), (str "alg", .string method)]
    Claims := claims
    Method := method }

/-- The alphabet of `base64.URLEncoding`, indexed. -/
def encodeURL (i : UInt8) : UInt8 :=
  (str "ABCDEFGHIJKLMNOPQRSTUVWXYZabcdefghijklmnopqrstuvwxyz0123456789-_").getD i.toNat 0

/-- Go's `jwt.EncodeSegment`: base64 URL encoding with the padding stripped. -/
def EncodeSegment : GoString → GoString
  | [] => []
  | [a] => [encodeURL (a >>> 2), encodeURL ((a &&& 3) <<< 4)]
  | [a, b] =>
    [encodeURL (a >>> 2), encodeURL ((a &&& 3) <<< 4 ||| b >>> 4), encodeURL ((b &&& 15) <<< 2)]
  | a :: b :: c :: rest =>
    [encodeURL (a >>> 2), encodeURL ((a &&& 3) <<< 4 ||| b >>> 4),
     encodeURL ((b &&& 15) <<< 2 ||| c >>> 6), encodeURL (c &&& 63)] ++ EncodeSegment rest

/-! ## What lies outside the package -/

/-- The surroundings of a call: the clock, the Go runtime, the JSON encoder and the MAC that
`jwt-go` uses, and the network behind `(*http.Client).Do`, which returns a response, an
error, or (when a redirect check fails) both. -/
structure Platform where
  now : Int
  goVersion : GoString
  jsonMarshal : MapClaims → GoString
  hmacSHA256 : GoString → GoString → GoString
  Do : Request → Option Response × Option GoError

/-- Go's `(*Token).SigningString`: the encoded header and claims joined by a dot. -/
def Token.SigningString (p : Platform) (t : Token) : GoString :=
  EncodeSegment (p.jsonMarshal t.Header) ++ str "." ++ EncodeSegment (p.jsonMarshal t.Claims)

/-- Go's `(*Token).SignedString(key)` for `SigningMethodHS256` and a `[]byte` key; with such a
key `SigningMethodHMAC.Sign` has no failing branch. -/
def Token.SignedString (p : Platform) (t : Token) (key : GoString) : Except GoError GoString :=
  let sstr := t.SigningString p
  let sig := EncodeSegment (p.hmacSHA256 key sstr)
  .ok (sstr ++ str "." ++ sig)

/-! ## client.go -/

/-- Line 22. -/
def baseUrl : GoString := str "https://api.liquid.com"

/-- Line 23. -/
def version : GoString := str "0.0.1"

/-- Where a `*log.Logger` writes: `ioutil.Discard`, or some other writer. -/
inductive Writer where
  | Discard
  | other (id : Nat)
deriving DecidableEq, Repr

/-- A `*log.Logger`: `log.New(out, pfx, flag)`. -/
structure Logger where
  out : Writer
  pfx : GoString
  flag : Nat
deriving DecidableEq, Repr

/-- Go's `log.LstdFlags = Ldate | Ltime`. -/
def LstdFlags : Nat := 3

/-- An `*http.Client`; `Timeout` is a `time.Duration`, in nanoseconds. -/
structure HTTPClient where
  Timeout : Int
deriving DecidableEq, Repr

/-- Go's `time.Second`. -/
def Second : Int := 1000000000

/-- An `*httptest.Server`, by the parsed form of its address `URL`. -/
structure TestServer where
  URL : URL
deriving DecidableEq, Repr

/-- Lines 26-33. -/
structure Client where
  URL : URL
  ApiTokenID : GoString
  ApiSecret : GoString
  HTTPClient : HTTPClient
  Logger : Logger
  testServer : Option TestServer
deriving DecidableEq, Repr

/-- Go's `url.ParseRequestURI(baseUrl)`: the constant is an absolute URI with scheme `https`,
authority `api.liquid.com`, and neither path nor query. -/
def parsedBaseUrl : Except GoError URL :=
  .ok { Scheme := str "https", Host := str "api.liquid.com", Path := [], RawPath := [],
        RawQuery := [] }

/-- Go's `NewClient`, lines 37-59. A nil `logger` is `none`. -/
def NewClient (apiTokenID apiSecret : GoString) (logger : Option Logger) : Result Client :=
  if apiTokenID.length == 0 then .err (.errorString (str "apiTokenID is not set"))
  else if apiSecret.length == 0 then .err (.errorString (str "apiSecret is not set"))
  else
    match parsedBaseUrl with
    | .error err => .err err
    | .ok url =>
      let discardLogger : Logger := { out := .Discard, pfx := [], flag := LstdFlags }
      let logger := match logger with
        | none => discardLogger
        | some l => l
      let client : HTTPClient := { Timeout := 10 * Second }
      .ok { URL := url, ApiTokenID := apiTokenID, ApiSecret := apiSecret,
            HTTPClient := client, Logger := logger, testServer := none }

/-- The `for k, v := range *queryParam` loop of lines 147-151, over the entries of the map
in the order the iteration visits them. -/
def setQueryParams (q : Values) : List (GoString × GoString) → Values
  | [] => q
  | (k, v) :: rest => setQueryParams (if v ≠ [] then q.Set k v else q) rest

/-- The client after lines 134-137: with a test server attached, `*c.URL` is overwritten
with the server's URL. -/
def switchURL (c : Client) : Client :=
  match c.testServer with
  | some ts => { c with URL := ts.URL }
  | none => c

/-- The local `u` after lines 139-153. -/
def requestURL (c : Client) (spath : GoString) (queryParam : Option (List (GoString × GoString))) :
    URL :=
  let c := switchURL c
  let u := c.URL
  let u := { u with Path := c.URL.Path ++ spath }
  match queryParam with
  | some m =>
    let q := setQueryParams u.Query m
    { u with RawQuery := q.Encode }
  | none => u

/-- The value of `spath` after lines 156-158: the text stored under the claim `path`. -/
def signedPath (c : Client) (spath : GoString)
    (queryParam : Option (List (GoString × GoString))) : GoString :=
  let u := requestURL c spath queryParam
  if u.RawQuery ≠ [] then spath ++ str "?" ++ u.RawQuery else spath

/-- The token of lines 159-163. -/
def requestToken (p : Platform) (c : Client) (spath : GoString)
    (queryParam : Option (List (GoString × GoString))) : Token :=
  NewWithClaims (str "HS256")
    [(str "path", .string (signedPath c spath queryParam)),
     (str "nonce", .int64 p.now),
     (str "token_id", .string (switchURL c).ApiTokenID)]

/-- Go's `(*Client).newRequest`, lines 131-182: the client after the call, and what is returned.
`queryParam` is `none` for a nil pointer, else the entries of the map as the `range` loop
visits them. -/
def newRequest (p : Platform) (c : Client) (method spath : GoString) (body : Option GoString)
    (queryParam : Option (List (GoString × GoString))) : Client × Result Request :=
  let c1 := switchURL c
  let u := requestURL c spath queryParam
  let userAgent := str "GoClient/" ++ version ++ str " (" ++ p.goVersion ++ str ")"
  let token := requestToken p c spath queryParam
  match token.SignedString p c1.ApiSecret with
  | .error err => (c1, .err err)
  | .ok tokenString =>
    match NewRequest method u.String body with
    | .error err => (c1, .err err)
    | .ok req =>
      let h := req.Header.Set (str "Content-Type") (str "application/json")
      let h := h.Set (str "X-Quoine-API-Version") (str "2")
      let h := h.Set (str "User-Agent") userAgent
      let h := h.Set (str "X-Quoine-Auth") tokenString
      (c1, .ok { req with Header := h })

/-- Go's `(*Client).sendRequest`, lines 184-213. The arguments of the two `Printf` calls are
evaluated before the `err` checks that follow them. -/
def sendRequest (p : Platform) (c : Client) (method spath : GoString) (body : Option GoString)
    (queryParam : Option (List (GoString × GoString))) : Client × Result Response :=
  let (c1, r) := newRequest p c method spath body queryParam
  let (req, err) : Option Request × Option GoError :=
    match r with
    | .ok req => (some req, none)
    | .err e => (none, some e)
    | .nilDeref => (none, none)
  match httpRequestLog req with
  | .nilDeref => (c1, .nilDeref)
  | .err e => (c1, .err e)
  | .ok req =>
    match err with
    | some e => (c1, .err e)
    | none =>
      let (res, err) := p.Do req
      match httpResponseLog res with
      | .nilDeref => (c1, .nilDeref)
      | .err e => (c1, .err e)
      | .ok res =>
        match err with
        | some e => (c1, .err e)
        | none =>
          if res.StatusCode ≠ 200 then
            match (ReadAll res.Body).1 with
            | .error err => (c1, .err err)
            | .ok bytes =>
              let b := bytes
              if b = conflictPayload then (c1, .err .LiquidAlreadyExistError)
              else (c1, .err (.errorString b))
          else (c1, .ok res)

/-- Go's `decodeBody`, lines 215-219. -/
def decodeBody {T : Type} (shape : Shape T) (resp : Response) : Except GoError T :=
  Decode shape resp.Body

/-- Go's `strconv.Itoa` and the verb `%d` of `fmt.Sprintf`. -/
def Itoa (n : Int) : GoString := str (toString n)

/-- Go's `(*Client).GetProduct`, lines 116-129. `models.Product` is declared in a file that is
not part of the embedded sources; its decoder shape is the parameter `product`. -/
def GetProduct {P : Type} (product : Shape P) (p : Platform) (c : Client) (productID : Int) :
    Client × Result P :=
  let spath := str "/products/" ++ Itoa productID
  match sendRequest p c (str "GET") spath none none with
  | (c1, .err err) => (c1, .err err)
  | (c1, .nilDeref) => (c1, .nilDeref)
  | (c1, .ok res) =>
    match decodeBody product res with
    | .error err => (c1, .err err)
    | .ok v => (c1, .ok v)

/-! ## order.go -/

/-- Go's `(*Client).GetAnOrder`, lines 11-24. -/
def GetAnOrder (p : Platform) (c : Client) (orderID : Int) : Client × Result Order :=
  let spath := str "/orders/" ++ Itoa orderID
  match sendRequest p c (str "GET") spath none none with
  | (c1, .err err) => (c1, .err err)
  | (c1, .nilDeref) => (c1, .nilDeref)
  | (c1, .ok res) =>
    match decodeBody orderShape res with
    | .error err => (c1, .err err)
    | .ok order => (c1, .ok order)

/-- The `body` of `EditALiveOrder`, lines 108-115: `bodyTemplate` with `quantity` and `price`
written at its two verbs `%s`. -/
def EditALiveOrder.body (quantity price : GoString) : GoString :=
  str "\x7b\n\t\t\t\x22order\x22: \x7b\n\t\t\t\t\x22quantity\x22:\x22" ++ quantity
    ++ str "\x22,\n\t\t\t\t\x22price\x22:\x22" ++ price
    ++ str "\x22,\n\t\t\t\x7d\n\t\t\x7d"

/-- Go's `(*Client).EditALiveOrder`, lines 106-127. -/
def EditALiveOrder (p : Platform) (c : Client) (orderID : Int) (quantity price : GoString) :
    Client × Result Order :=
  let spath := str "/orders/" ++ Itoa orderID
  let body := EditALiveOrder.body quantity price
  match sendRequest p c (str "PUT") spath (some body) none with
  | (c1, .err err) => (c1, .err err)
  | (c1, .nilDeref) => (c1, .nilDeref)
  | (c1, .ok res) =>
    match decodeBody orderShape res with
    | .error err => (c1, .err err)
    | .ok order => (c1, .ok order)

/-! ## Vocabulary of the statements -/

/-- Surroundings in which the network answers every request with `answer`; the clock
stands at 0 and the MAC and the JSON encoder return the empty string. -/
def fixedPlatform (answer : Option Response × Option GoError) : Platform :=
  { now := 0, goVersion := str "go1.21.0", jsonMarshal := fun _ => [],
    hmacSHA256 := fun _ _ => [], Do := fun _ => answer }

/-- A response body that reads `text` and then reports `io.EOF`. -/
def bodyOf (text : String) : Body := { data := str text, fail := none }

/-- The texts joined by `&`. -/
def joinAmp : List GoString → GoString
  | [] => []
  | [x] => x
  | x :: y :: rest => x ++ str "&" ++ joinAmp (y :: rest)

/-- The entries of a query-parameter map that are sent: those with a non-empty value, in
ascending order of their keys. -/
def sentPairs (m : List (GoString × GoString)) : List (GoString × GoString) :=
  (m.filter (fun kv => kv.2 ≠ [])).insertionSort (fun a b => strLe a.1 b.1 = true)

/-- The query string as the specification describes it: the sent entries, each written
`key=value` in escaped form, joined by `&`. -/
def sortedQuery (m : List (GoString × GoString)) : GoString :=
  joinAmp ((sentPairs m).map (fun kv => QueryEscape kv.1 ++ str "=" ++ QueryEscape kv.2))

/-- The path-plus-query of a URL text `scheme://authority...`: what follows the authority,
from the first `/` or `?` after the double slash. -/
def pathAndQuery (url : GoString) : GoString :=
  ((cut url (ch '/')).2.1.drop 1).dropWhile (fun c => c != ch '/' && c != ch '?')

/-- The query string of a URL text: what follows its first `?`. -/
def queryOf (url : GoString) : GoString := (cut url (ch '?')).2.1

/-- The value stored under `name` in a claims map. -/
def claim (claims : MapClaims) (name : String) : Option ClaimValue :=
  (claims.find? (fun kv => kv.1 == str name)).map Prod.snd

/-- The request `newRequest` returns when the method passes `http.NewRequest`. -/
def builtRequest (p : Platform) (c : Client) (method spath : GoString) (body : Option GoString)
    (queryParam : Option (List (GoString × GoString))) : Request :=
  let token := requestToken p c spath queryParam
  let tokenString := token.SigningString p ++ str "." ++
    EncodeSegment (p.hmacSHA256 (switchURL c).ApiSecret (token.SigningString p))
  let h := Header.Set [] (str "Content-Type") (str "application/json")
  let h := Header.Set h (str "X-Quoine-API-Version") (str "2")
  let h := Header.Set h (str "User-Agent")
    (str "GoClient/" ++ version ++ str " (" ++ p.goVersion ++ str ")")
  let h := Header.Set h (str "X-Quoine-Auth") tokenString
  { Method := if method == [] then str "GET" else method
    URL := (requestURL c spath queryParam).String
    Header := h
    Body := body }

/-- The client of the package tests, `NewClient("apiTokenID", "secret", nil)`. -/
def testClient : Client :=
  { URL := { Scheme := str "https", Host := str "api.liquid.com", Path := [], RawPath := [],
             RawQuery := [] }
    ApiTokenID := str "apiTokenID"
    ApiSecret := str "secret"
    HTTPClient := { Timeout := 10 * Second }
    Logger := { out := .Discard, pfx := [], flag := LstdFlags }
    testServer := none }

/-- A test server listening at `http://127.0.0.1:8080`, as `httptest.NewServer` starts one. -/
def localServer : TestServer :=
  { URL := { Scheme := str "http", Host := str "127.0.0.1:8080", Path := [], RawPath := [],
             RawQuery := [] } }

/-- The client of the package tests with the test server `ts` attached to it. -/
def testClientWith (ts : TestServer) : Client := { testClient with testServer := some ts }

/-! ## Helpers of the proofs -/

/-- The entry of `url.Values` that `q.Set(k, v)` makes for an entry of the query map. -/
def toEntry (kv : GoString × GoString) : GoString × List GoString := (kv.1, [kv.2])

/-- One `key=value` of the encoded query. -/
def pair (kv : GoString × GoString) : GoString :=
  QueryEscape kv.1 ++ str "=" ++ QueryEscape kv.2

/-- The buffer of `Values.Encode` after the pieces have been written to it. -/
def writePieces : GoString → List GoString → GoString
  | buf, [] => buf
  | buf, x :: xs => writePieces ((if buf.length > 0 then buf ++ str "&" else buf) ++ x) xs

/-- The encoded query of the request: empty without a map. -/
def rawQueryOf (queryParam : Option (List (GoString × GoString))) : GoString :=
  match queryParam with
  | some m => (setQueryParams [] m).Encode
  | none => []

/-- The path as `(*URL).String` writes it when `RawPath` is empty. -/
def escapedPathOf (spath : GoString) : GoString :=
  if spath == str "*" then str "*" else escape spath .encodePath

/-- The local `u` of `newRequest` for a client whose URL is the parsed `baseUrl`. -/
def baseURLWith (spath rq : GoString) : URL :=
  { Scheme := str "https", Host := str "api.liquid.com", Path := spath, RawPath := [],
    RawQuery := rq }

/-- The text of the URL before its query, for a client whose base is `baseUrl`. -/
def urlBeforeQuery (spath : GoString) : GoString :=
  baseUrl ++ (if spath ≠ [] ∧ spath.head? ≠ some (ch '/') then str "/" else [])
    ++ escapedPathOf spath

/-- A scan result that is not a cut-off and, when it is a value, leaves fewer than `n`
bytes. -/
def Below {α : Type} (n : Nat) (x : Except ScanError (α × GoString)) : Prop :=
  x ≠ .error .fuel ∧ ∀ v r, x = .ok (v, r) → r.length < n

/-- The end of the body of `EditALiveOrder` from the comma after the member `price`. -/
def trailing : GoString := str ",\n\t\t\t\x7d\n\t\t\x7d"

/-- What follows the comma in `trailing`. -/
def trailingTail : GoString := str "\n\t\t\t\x7d\n\t\t\x7d"

/-- A scan result that, when it is a value, leaves a text that ends with `T`. -/
def KeepsTail {α : Type} (T : GoString) (x : Except ScanError (α × GoString)) : Prop :=
  ∀ v rest, x = .ok (v, rest) → ∃ y, rest = y ++ T

/-- The scan result `y` of a text with `w` appended agrees with the scan result `x` of the
text: a value that `x` delimits with bytes left over is delimited by `y` with `w` after
those bytes, and a byte that `x` rejects is rejected by `y`. -/
def Extends {α : Type} (w : GoString) (x y : Except ScanError (α × GoString)) : Prop :=
  (∀ v rest, x = .ok (v, rest) → rest ≠ [] → y = .ok (v, rest ++ w)) ∧
  (x = .error .invalid → y = .error .invalid)

/-- As `Extends`, also for a value that `x` delimits with no byte left over. -/
def ExtendsAll {α : Type} (w : GoString) (x y : Except ScanError (α × GoString)) : Prop :=
  (∀ v rest, x = .ok (v, rest) → y = .ok (v, rest ++ w)) ∧
  (x = .error .invalid → y = .error .invalid)

/-- As `Extends`, for the scan of one value: a value that `x` delimits with no byte left
over is delimited by `y` as well unless it is a number, whose digits may go on in `w`. -/
def ExtendsValue (w : GoString) (x y : Except ScanError (JSON × GoString)) : Prop :=
  (∀ v rest, x = .ok (v, rest) → (rest ≠ [] ∨ ∀ lit, v ≠ .number lit) →
    y = .ok (v, rest ++ w)) ∧
  (x = .error .invalid → y = .error .invalid)

/-! ## Lemmas on the embedding -/

set_option maxRecDepth 100000

theorem signedString_ok (p : Platform) (t : Token) (key : GoString) :
    t.SignedString p key
      = .ok (t.SigningString p ++ str "." ++ EncodeSegment (p.hmacSHA256 key (t.SigningString p))) :=
  rfl

theorem newRequest_valid (p : Platform) (c : Client) (method spath : GoString)
    (body : Option GoString) (queryParam : Option (List (GoString × GoString)))
    (hm : validMethod (if method == [] then str "GET" else method) = true) :
    newRequest p c method spath body queryParam
      = (switchURL c, .ok (builtRequest p c method spath body queryParam)) := by
  simp only [newRequest, signedString_ok, NewRequest, hm, builtRequest]
  rfl

theorem validMethod_GET : validMethod (if str "GET" == [] then str "GET" else str "GET") = true := by
  decide

theorem validMethod_ite (method : GoString) (hm : validMethod method = true) :
    validMethod (if method == [] then str "GET" else method) = true := by
  split
  · decide
  · exact hm

theorem sendRequest_valid (p : Platform) (c : Client) (method spath : GoString)
    (body : Option GoString) (queryParam : Option (List (GoString × GoString)))
    (hm : validMethod (if method == [] then str "GET" else method) = true) :
    sendRequest p c method spath body queryParam
      = (switchURL c,
          match p.Do (builtRequest p c method spath body queryParam) with
          | (none, _) => .nilDeref
          | (some _, some e) => .err e
          | (some r, none) =>
            if r.StatusCode ≠ 200 then
              match r.Body.fail with
              | some e => .err e
              | none =>
                if r.Body.data = conflictPayload then .err .LiquidAlreadyExistError
                else .err (.errorString r.Body.data)
            else .ok { r with Body := drainBody r.Body }) := by
  rcases hd : p.Do (builtRequest p c method spath body queryParam) with ⟨res, err⟩
  simp only [sendRequest, newRequest_valid p c method spath body queryParam hm, httpRequestLog,
    hd]
  cases res with
  | none => simp [httpResponseLog]
  | some r =>
    cases err with
    | some e => simp [httpResponseLog]
    | none =>
      rcases r with ⟨code, ⟨data, fail⟩⟩
      by_cases hs : code = 200
      · simp [httpResponseLog, hs]
      · cases fail with
        | none =>
          simp [httpResponseLog, drainBody, ReadAll, hs]
          split <;> rfl
        | some e => simp [httpResponseLog, drainBody, ReadAll, hs]

theorem strLe_total : ∀ a b : GoString, strLe a b = true ∨ strLe b a = true
  | [], _ => Or.inl rfl
  | _ :: _, [] => Or.inr rfl
  | x :: as, y :: bs => by
    by_cases h1 : x < y
    · left; simp [strLe, h1]
    · by_cases h2 : y < x
      · right; simp [strLe, h2]
      · simp only [strLe, h1, h2, if_false]
        exact strLe_total as bs

theorem strLe_trans : ∀ a b c : GoString, strLe a b = true → strLe b c = true → strLe a c = true
  | [], _, _, _, _ => rfl
  | _ :: _, [], _, h, _ => by simp [strLe] at h
  | _ :: _, _ :: _, [], _, h => by simp [strLe] at h
  | x :: as, y :: bs, z :: cs, hab, hbc => by
    by_cases hxy : x < y
    · by_cases hyz : y < z
      · simp [strLe, UInt8.lt_trans hxy hyz]
      · by_cases hzy : z < y
        · simp [strLe, hyz, hzy] at hbc
        · have : y = z := UInt8.le_antisymm (UInt8.not_lt.mp hzy) (UInt8.not_lt.mp hyz)
          subst this
          simp [strLe, hxy]
    · by_cases hyx : y < x
      · simp [strLe, hxy, hyx] at hab
      · have : x = y := UInt8.le_antisymm (UInt8.not_lt.mp hyx) (UInt8.not_lt.mp hxy)
        subst this
        simp only [strLe, hxy, if_false] at hab
        by_cases hxz : x < z
        · simp [strLe, hxz]
        · by_cases hzx : z < x
          · simp [strLe, hxz, hzx] at hbc
          · simp only [strLe, hxz, hzx, if_false] at hbc ⊢
            exact strLe_trans as bs cs hab hbc

theorem strLe_antisymm : ∀ a b : GoString, strLe a b = true → strLe b a = true → a = b
  | [], [], _, _ => rfl
  | [], _ :: _, _, h => by simp [strLe] at h
  | _ :: _, [], h, _ => by simp [strLe] at h
  | x :: as, y :: bs, hab, hba => by
    by_cases hxy : x < y
    · have hyx : ¬ y < x := UInt8.lt_asymm hxy
      simp [strLe, hxy, hyx] at hba
    · by_cases hyx : y < x
      · simp [strLe, hxy, hyx] at hab
      · have : x = y := UInt8.le_antisymm (UInt8.not_lt.mp hyx) (UInt8.not_lt.mp hxy)
        subst this
        simp only [strLe, hxy, if_false] at hab hba
        rw [strLe_antisymm as bs hab hba]

instance strLe_isTotal : IsTotal GoString (fun a b => strLe a b = true) := ⟨strLe_total⟩

instance strLe_isTrans : IsTrans GoString (fun a b => strLe a b = true) := ⟨strLe_trans⟩

instance strLe_isAntisymm : IsAntisymm GoString (fun a b => strLe a b = true) :=
  ⟨strLe_antisymm⟩

theorem sortStrings_sorted (keys : List GoString) :
    (sortStrings keys).Sorted (fun a b => strLe a b = true) :=
  List.sorted_insertionSort _ keys

theorem sortStrings_perm (keys keys' : List GoString) (h : keys.Perm keys') :
    sortStrings keys = sortStrings keys' :=
  List.eq_of_perm_of_sorted
    (((List.perm_insertionSort _ keys).trans h).trans (List.perm_insertionSort _ keys').symm)
    (sortStrings_sorted keys) (sortStrings_sorted keys')

theorem sentPairs_keys (m : List (GoString × GoString)) :
    (sentPairs m).map Prod.fst = sortStrings ((m.filter (fun kv => kv.2 ≠ [])).map Prod.fst) := by
  unfold sentPairs sortStrings
  exact List.map_insertionSort (fun a b : GoString × GoString => strLe a.1 b.1 = true)
    (fun a b : GoString => strLe a b = true) Prod.fst _ (fun a _ b _ => Iff.rfl)

theorem put_of_not_mem (v : Values) (key : GoString) (vs : List GoString)
    (h : key ∉ v.map Prod.fst) : v.put key vs = v ++ [(key, vs)] := by
  induction v with
  | nil => rfl
  | cons e rest ih =>
    rcases e with ⟨k, old⟩
    simp only [List.map_cons, List.mem_cons, not_or] at h
    have hk : ¬ k = key := fun h' => h.1 h'.symm
    simp [Values.put, hk, ih h.2]

theorem setQueryParams_eq (m : List (GoString × GoString)) :
    ∀ q : Values, (m.map Prod.fst).Nodup → (∀ kv ∈ m, kv.1 ∉ q.map Prod.fst) →
      setQueryParams q m = q ++ (m.filter (fun kv => kv.2 ≠ [])).map toEntry := by
  induction m with
  | nil => intro q _ _; simp [setQueryParams]
  | cons e rest ih =>
    intro q hn hq
    rcases e with ⟨k, v⟩
    simp only [List.map_cons, List.nodup_cons] at hn
    have hrest : ∀ kv ∈ rest, kv.1 ∉ q.map Prod.fst := fun kv hkv =>
      hq kv (List.mem_cons_of_mem _ hkv)
    by_cases hv : v = []
    · subst hv
      simp only [setQueryParams, ne_eq, not_true_eq_false, if_false]
      rw [ih q hn.2 hrest]
      simp
    · have hk : k ∉ q.map Prod.fst := hq (k, v) (List.mem_cons_self _ _)
      simp only [setQueryParams, ne_eq, hv, not_false_eq_true, if_true, Values.Set]
      rw [put_of_not_mem q k [v] hk, ih _ hn.2]
      · simp [List.filter_cons, hv, toEntry]
      · intro kv hkv
        simp only [List.map_append, List.map_cons, List.map_nil, List.mem_append,
          List.mem_singleton, not_or]
        refine ⟨hrest kv hkv, ?_⟩
        intro heq
        exact hn.1 (heq ▸ List.mem_map_of_mem Prod.fst hkv)

theorem index_toEntry (l : List (GoString × GoString)) (hn : (l.map Prod.fst).Nodup)
    (kv : GoString × GoString) (h : kv ∈ l) : Values.index (l.map toEntry) kv.1 = [kv.2] := by
  induction l with
  | nil => cases h
  | cons e rest ih =>
    simp only [List.map_cons, List.nodup_cons] at hn
    rcases List.mem_cons.mp h with heq | hmem
    · subst heq
      simp [Values.index, toEntry]
    · have hne : ¬ e.1 = kv.1 := fun h' => hn.1 (h' ▸ List.mem_map_of_mem Prod.fst hmem)
      simp [Values.index, toEntry, hne]
      exact ih hn.2 hmem

theorem encodeKeys_eq (v : Values) (f : GoString → GoString) :
    ∀ (ks : List GoString) (buf : GoString),
      (∀ k ∈ ks, ∃ x, v.index k = [x] ∧ f k = QueryEscape k ++ str "=" ++ QueryEscape x) →
      encodeKeys v buf ks = writePieces buf (ks.map f) := by
  intro ks
  induction ks with
  | nil => intro buf _; rfl
  | cons k rest ih =>
    intro buf h
    obtain ⟨x, hx, hf⟩ := h k (List.mem_cons_self _ _)
    simp only [encodeKeys, hx, encodeValues, List.map_cons, writePieces, hf]
    rw [ih _ (fun k' hk' => h k' (List.mem_cons_of_mem _ hk'))]
    simp [List.append_assoc]

theorem writePieces_nonempty (xs : List GoString) :
    ∀ buf : GoString, buf ≠ [] →
      writePieces buf xs = buf ++ (xs.map (fun x => str "&" ++ x)).flatten := by
  induction xs with
  | nil => intro buf _; simp [writePieces]
  | cons x rest ih =>
    intro buf hb
    have hlen : buf.length > 0 := List.length_pos.mpr hb
    simp only [writePieces, hlen, if_true]
    rw [ih _ (by simp [hb])]
    simp [List.append_assoc]

theorem joinAmp_cons (x : GoString) (xs : List GoString) :
    joinAmp (x :: xs) = x ++ (xs.map (fun y => str "&" ++ y)).flatten := by
  induction xs generalizing x with
  | nil => simp [joinAmp]
  | cons y rest ih =>
    simp only [joinAmp, ih y, List.map_cons, List.flatten_cons]
    simp [List.append_assoc]

theorem writePieces_nil (xs : List GoString) (h : ∀ x ∈ xs, x ≠ []) :
    writePieces [] xs = joinAmp xs := by
  cases xs with
  | nil => rfl
  | cons x rest =>
    have hx : x ≠ [] := h x (List.mem_cons_self _ _)
    simp only [writePieces, List.length_nil, gt_iff_lt, lt_self_iff_false, if_false,
      List.nil_append]
    rw [writePieces_nonempty rest x hx, joinAmp_cons]

theorem pair_ne_nil (kv : GoString × GoString) : pair kv ≠ [] := by
  have : str "=" ≠ [] := by decide
  simp [pair, this]

theorem filter_keys_nodup (m : List (GoString × GoString)) (hn : (m.map Prod.fst).Nodup) :
    ((m.filter (fun kv => kv.2 ≠ [])).map Prod.fst).Nodup :=
  hn.sublist ((List.filter_sublist _).map Prod.fst)

theorem encode_entries (kept : List (GoString × GoString))
    (hkn : (kept.map Prod.fst).Nodup) :
    Values.Encode (kept.map toEntry)
      = joinAmp ((kept.insertionSort (fun a b => strLe a.1 b.1 = true)).map pair) := by
  have hkeys : (kept.map toEntry).map Prod.fst = kept.map Prod.fst := by
    simp [List.map_map, Function.comp_def, toEntry]
  have hsorted : sortStrings (kept.map Prod.fst)
      = (kept.insertionSort (fun a b => strLe a.1 b.1 = true)).map Prod.fst :=
    (List.map_insertionSort (fun a b : GoString × GoString => strLe a.1 b.1 = true)
      (fun a b : GoString => strLe a b = true) Prod.fst _ (fun a _ b _ => Iff.rfl)).symm
  have hmem : ∀ kv ∈ kept.insertionSort (fun a b => strLe a.1 b.1 = true), kv ∈ kept :=
    fun kv h => (List.mem_insertionSort _).1 h
  unfold Values.Encode
  cases hk : kept with
  | nil => simp [joinAmp]
  | cons a t =>
    rw [← hk]
    have hlen : ((kept.map toEntry).length == 0) = false := by
      rw [hk]; rfl
    simp only [hlen, Bool.false_eq_true, if_false, hkeys, hsorted]
    rw [encodeKeys_eq (kept.map toEntry)
      (fun k => QueryEscape k ++ str "=" ++
        QueryEscape ((Values.index (kept.map toEntry) k).headD []))]
    · rw [List.map_map, writePieces_nil]
      · congr 1
        apply List.map_congr_left
        intro kv hkv
        simp [Function.comp_def, pair, index_toEntry kept hkn kv (hmem kv hkv)]
      · intro x hx
        obtain ⟨kv, _, rfl⟩ := List.mem_map.1 hx
        have : str "=" ≠ [] := by decide
        simp [this]
    · intro k hk'
      obtain ⟨kv, hkv, rfl⟩ := List.mem_map.1 hk'
      exact ⟨kv.2, index_toEntry kept hkn kv (hmem kv hkv),
        by simp [index_toEntry kept hkn kv (hmem kv hkv)]⟩

/-- The encoded query that `newRequest` computes for a map with distinct keys is the query
string of the specification. -/
theorem encode_setQueryParams (m : List (GoString × GoString)) (hn : (m.map Prod.fst).Nodup) :
    (setQueryParams [] m).Encode = sortedQuery m := by
  rw [setQueryParams_eq m [] hn (by simp)]
  exact encode_entries _ (filter_keys_nodup m hn)

theorem NewClient_ok (apiTokenID apiSecret : GoString) (logger : Option Logger) (c : Client)
    (h : NewClient apiTokenID apiSecret logger = .ok c) :
    c.URL = testClient.URL ∧ c.testServer = none ∧ c.ApiTokenID = apiTokenID ∧
      c.ApiSecret = apiSecret := by
  unfold NewClient at h
  split at h
  · cases h
  · split at h
    · cases h
    · simp only [parsedBaseUrl] at h
      cases h
      exact ⟨rfl, rfl, rfl, rfl⟩

theorem requestURL_of_base (c : Client) (hu : c.URL = testClient.URL) (ht : c.testServer = none)
    (spath : GoString) (queryParam : Option (List (GoString × GoString))) :
    requestURL c spath queryParam = baseURLWith spath (rawQueryOf queryParam) := by
  rcases c with ⟨u, a, s, hc, lg, ts⟩
  simp only at hu ht
  subst hu ht
  cases queryParam with
  | none => simp [requestURL, switchURL, testClient, rawQueryOf, baseURLWith]
  | some m =>
    simp [requestURL, switchURL, testClient, rawQueryOf, URL.Query, parseQueryLoop, baseURLWith]

theorem signedPath_of_base (c : Client) (hu : c.URL = testClient.URL) (ht : c.testServer = none)
    (spath : GoString) (queryParam : Option (List (GoString × GoString))) :
    signedPath c spath queryParam
      = if rawQueryOf queryParam ≠ [] then spath ++ str "?" ++ rawQueryOf queryParam
        else spath := by
  simp only [signedPath, requestURL_of_base c hu ht, baseURLWith]

theorem base_String (spath rq : GoString) :
    (baseURLWith spath rq).String
      = baseUrl
        ++ (if escapedPathOf spath ≠ [] ∧ (escapedPathOf spath).head? ≠ some (ch '/')
            then str "/" else [])
        ++ escapedPathOf spath ++ (if rq ≠ [] then str "?" ++ rq else []) := by
  have h1 : str "https" ≠ [] := by decide
  have h2 : str "api.liquid.com" ≠ [] := by decide
  have h3 : escape (str "api.liquid.com") .encodeHost = str "api.liquid.com" := by decide
  have h4 : str "https" ++ str ":" ++ str "//" ++ str "api.liquid.com" = baseUrl := by decide
  have hp : (baseURLWith spath rq).EscapedPath = escapedPathOf spath := by
    simp [URL.EscapedPath, escapedPathOf, baseURLWith]
  have hb : baseUrl ≠ [] := by decide
  unfold URL.String
  simp only [hp]
  simp only [baseURLWith, h3]
  simp only [ne_eq, h1, h2, not_false_eq_true, decide_True, Bool.true_or, if_true, h4]
  by_cases hs : escapedPathOf spath ≠ [] ∧ (escapedPathOf spath).head? ≠ some (ch '/')
  · have hs1 : escapedPathOf spath ≠ [] := hs.1
    have hs2 : ((escapedPathOf spath).head? != some (ch '/')) = true := by
      simpa using hs.2
    have hlen : ((baseUrl ++ str "/").length == 0) = false := by
      simp [hb]
    simp only [hs1, hs2, hs, ne_eq, not_false_eq_true, decide_True, Bool.and_self, if_true,
      hlen, Bool.false_and, Bool.false_eq_true, if_false, and_self]
    by_cases hq : rq = [] <;> simp [hq, List.append_assoc]
  · have hlen : (baseUrl.length == 0) = false := by decide
    have hs' : (decide (escapedPathOf spath ≠ []) &&
        ((escapedPathOf spath).head? != some (ch '/')) && true) = false := by
      by_cases h5 : escapedPathOf spath = []
      · simp [h5]
      · have h6 : (escapedPathOf spath).head? = some (ch '/') := by
          by_contra h7
          exact hs ⟨h5, h7⟩
        simp [h6]
    simp only [ne_eq] at hs'
    simp only [hs', hs, hlen, Bool.false_and, Bool.false_eq_true, if_false]
    by_cases hq : rq = [] <;> simp [hq, List.append_assoc]

theorem upperhex_ne_question (i : UInt8) : upperhex i ≠ ch '?' := by
  unfold upperhex
  generalize i.toNat = n
  by_cases h : n < 16
  · interval_cases n <;> decide
  · rw [List.getD_eq_default _ _ (by
      have : (str "0123456789ABCDEF").length = 16 := by decide
      omega)]
    decide

theorem escape_path_no_question : ∀ s : GoString, ch '?' ∉ escape s .encodePath
  | [] => by simp [escape]
  | c :: s => by
    have ih := escape_path_no_question s
    have hq : shouldEscape (ch '?') .encodePath = true := by decide
    have hp : ch '?' ≠ ch '%' := by decide
    simp only [escape, show (encoding.encodePath == encoding.encodeQueryComponent) = false from rfl,
      Bool.and_false, Bool.false_eq_true, if_false]
    by_cases hc : shouldEscape c .encodePath = true
    · simp only [hc, if_true, List.cons_append, List.nil_append, List.mem_cons, not_or]
      exact ⟨hp, (upperhex_ne_question _).symm, (upperhex_ne_question _).symm, ih⟩
    · simp only [hc, Bool.false_eq_true, if_false, List.cons_append, List.nil_append,
        List.mem_cons, not_or]
      refine ⟨?_, ih⟩
      intro heq
      rw [← heq] at hc
      exact hc hq

theorem escapedPathOf_no_question (spath : GoString) : ch '?' ∉ escapedPathOf spath := by
  unfold escapedPathOf
  split
  · decide
  · exact escape_path_no_question spath

theorem escapedPathOf_slash_iff (spath : GoString) :
    (escapedPathOf spath ≠ [] ∧ (escapedPathOf spath).head? ≠ some (ch '/')) ↔
      (spath ≠ [] ∧ spath.head? ≠ some (ch '/')) := by
  cases spath with
  | nil =>
    have : escapedPathOf [] = [] := by decide
    simp [this]
  | cons c s =>
    by_cases hstar : (c :: s) = str "*"
    · have hs : str "*" = [ch '*'] := by decide
      rw [hs] at hstar
      simp only [List.cons.injEq] at hstar
      obtain ⟨h1, h2⟩ := hstar
      subst h1 h2
      decide
    · have hne : ((c :: s) == str "*") = false := by simpa using hstar
      have hsl : shouldEscape (ch '/') .encodePath = false := by decide
      have hp : ch '%' ≠ ch '/' := by decide
      simp only [escapedPathOf, hne, Bool.false_eq_true, if_false, escape,
        show (encoding.encodePath == encoding.encodeQueryComponent) = false from rfl,
        Bool.and_false]
      by_cases hc : shouldEscape c .encodePath = true
      · have hcs : c ≠ ch '/' := by
          intro h
          rw [h, hsl] at hc
          cases hc
        simp [hc, hp, hcs]
      · simp [hc]

theorem cut_append_of_not_mem (sep : UInt8) :
    ∀ (s t : GoString), sep ∉ s → cut (s ++ sep :: t) sep = (s, t, true)
  | [], t, _ => by simp [cut]
  | c :: s, t, h => by
    simp only [List.mem_cons, not_or] at h
    have hc : (c == sep) = false := by
      simpa using fun h' => h.1 h'.symm
    simp [cut, hc, cut_append_of_not_mem sep s t h.2]

theorem cut_of_not_mem (sep : UInt8) : ∀ s : GoString, sep ∉ s → cut s sep = (s, [], false)
  | [], _ => rfl
  | c :: s, h => by
    simp only [List.mem_cons, not_or] at h
    have hc : (c == sep) = false := by
      simpa using fun h' => h.1 h'.symm
    simp [cut, hc, cut_of_not_mem sep s h.2]

theorem urlBeforeQuery_no_question (spath : GoString) : ch '?' ∉ urlBeforeQuery spath := by
  have h1 : ch '?' ∉ baseUrl := by decide
  have h2 : ch '?' ∉ str "/" := by decide
  unfold urlBeforeQuery
  simp only [List.mem_append, not_or]
  refine ⟨⟨h1, ?_⟩, escapedPathOf_no_question spath⟩
  split
  · exact h2
  · simp

theorem base_String_eq (spath rq : GoString) :
    (baseURLWith spath rq).String
      = urlBeforeQuery spath ++ (if rq ≠ [] then str "?" ++ rq else []) := by
  rw [base_String, urlBeforeQuery]
  simp only [escapedPathOf_slash_iff]

theorem queryOf_base (spath rq : GoString) : queryOf (baseURLWith spath rq).String = rq := by
  rw [base_String_eq, queryOf]
  by_cases hq : rq = []
  · simp [hq, cut_of_not_mem _ _ (urlBeforeQuery_no_question spath)]
  · have : str "?" = [ch '?'] := by decide
    simp only [ne_eq, hq, not_false_eq_true, if_true, this, List.singleton_append]
    rw [cut_append_of_not_mem _ _ _ (urlBeforeQuery_no_question spath)]

theorem setQueryParams_all_empty (m : List (GoString × GoString))
    (h : ∀ kv ∈ m, kv.2 = []) : setQueryParams [] m = [] := by
  induction m with
  | nil => rfl
  | cons e rest ih =>
    rcases e with ⟨k, v⟩
    have hv : v = [] := h (k, v) (List.mem_cons_self _ _)
    subst hv
    simp only [setQueryParams, ne_eq, not_true_eq_false, if_false]
    exact ih (fun kv hkv => h kv (List.mem_cons_of_mem _ hkv))

theorem claim_path (p : Platform) (c : Client) (spath : GoString)
    (queryParam : Option (List (GoString × GoString))) :
    claim (requestToken p c spath queryParam).Claims "path"
      = some (.string (signedPath c spath queryParam)) := by
  have h1 : (str "path" == str "path") = true := by decide
  simp [claim, requestToken, NewWithClaims, List.find?, h1]

theorem eq_of_perm_of_keys_eq : ∀ (l1 l2 : List (GoString × GoString)),
    l1.Perm l2 → (l2.map Prod.fst).Nodup → l1.map Prod.fst = l2.map Prod.fst → l1 = l2
  | [], [], _, _, _ => rfl
  | [], _ :: _, _, _, h => by simp at h
  | _ :: _, [], _, _, h => by simp at h
  | a :: l1, b :: l2, hp, hn, hk => by
    simp only [List.map_cons, List.cons.injEq] at hk
    simp only [List.map_cons, List.nodup_cons] at hn
    have ha : a ∈ b :: l2 := hp.subset (List.mem_cons_self _ _)
    have hab : a = b := by
      rcases List.mem_cons.mp ha with h | h
      · exact h
      · exact absurd (hk.1 ▸ List.mem_map_of_mem Prod.fst h) hn.1
    subst hab
    rw [eq_of_perm_of_keys_eq l1 l2 (List.Perm.cons_inv hp) hn.2 hk.2]

theorem sentPairs_perm (m m' : List (GoString × GoString)) (hp : m'.Perm m)
    (hn : (m.map Prod.fst).Nodup) : sentPairs m' = sentPairs m := by
  have hf : (m'.filter (fun kv => kv.2 ≠ [])).Perm (m.filter (fun kv => kv.2 ≠ [])) :=
    hp.filter _
  apply eq_of_perm_of_keys_eq
  · exact ((List.perm_insertionSort _ _).trans hf).trans (List.perm_insertionSort _ _).symm
  · rw [sentPairs_keys]
    exact (List.perm_insertionSort _ _).nodup_iff.mpr (filter_keys_nodup m hn)
  · rw [sentPairs_keys, sentPairs_keys]
    exact sortStrings_perm _ _ (hf.map Prod.fst)

theorem sentPairs_mem (m : List (GoString × GoString)) (k v : GoString) :
    (k, v) ∈ sentPairs m ↔ ((k, v) ∈ m ∧ v ≠ []) := by
  unfold sentPairs
  rw [List.mem_insertionSort]
  simp [List.mem_filter]

theorem skipSpace_of_all : ∀ s : GoString, s.all isSpace = true → skipSpace s = []
  | [], _ => rfl
  | c :: s, h => by
    simp only [List.all_cons, Bool.and_eq_true] at h
    simp [skipSpace, h.1, skipSpace_of_all s h.2]

theorem readValue_space (b : Body) (hf : b.fail = none) (hs : b.data.all isSpace = true) :
    readValue b = .error .EOF := by
  simp [readValue, scanValue, skipSpace_of_all _ hs, hf, hs]

theorem Decode_error_of_readValue {T : Type} (shape : Shape T) (b : Body) (e : GoError)
    (h : readValue b = .error e) : Decode shape b = .error e := by
  simp [Decode, h]

theorem readValue_array : readValue (bodyOf "[]") = .ok (.array .nil) := by
  rfl

theorem readValue_trailing : readValue (bodyOf "\x7b\x7d trailing") = .ok (.object .nil) := by
  rfl

theorem ne_nil_of_validMethod (method : GoString) (hm : validMethod method = true) :
    (method == []) = false := by
  cases method with
  | nil => simp [validMethod] at hm
  | cons a t => rfl

theorem newRequest_of_NewClient (p : Platform) (apiTokenID apiSecret : GoString)
    (logger : Option Logger) (c : Client) (method spath : GoString) (body : Option GoString)
    (queryParam : Option (List (GoString × GoString)))
    (hc : NewClient apiTokenID apiSecret logger = .ok c) (hm : validMethod method = true) :
    (newRequest p c method spath body queryParam).2
        = .ok (builtRequest p c method spath body queryParam) ∧
      (builtRequest p c method spath body queryParam).Method = method ∧
      (builtRequest p c method spath body queryParam).URL
        = (baseURLWith spath (rawQueryOf queryParam)).String := by
  obtain ⟨hu, ht, _, _⟩ := NewClient_ok apiTokenID apiSecret logger c hc
  refine ⟨?_, ?_, ?_⟩
  · rw [newRequest_valid p c method spath body queryParam (validMethod_ite method hm)]
  · simp [builtRequest, ne_nil_of_validMethod method hm]
  · simp only [builtRequest, requestURL_of_base c hu ht]

theorem rawQueryOf_perm (m m' : List (GoString × GoString)) (hk : (m.map Prod.fst).Nodup)
    (hp : m'.Perm m) : rawQueryOf (some m') = rawQueryOf (some m) := by
  have hk' : (m'.map Prod.fst).Nodup := (hp.map Prod.fst).nodup_iff.mpr hk
  simp only [rawQueryOf, encode_setQueryParams m hk, encode_setQueryParams m' hk', sortedQuery,
    sentPairs_perm m m' hp hk]

/-! ## The step bound of the JSON scanner -/

theorem Below.mono {α : Type} {n m : Nat} {x : Except ScanError (α × GoString)}
    (h : Below n x) (hnm : n ≤ m) : Below m x :=
  ⟨h.1, fun v r hx => Nat.lt_of_lt_of_le (h.2 v r hx) hnm⟩

theorem Below.map {α β : Type} {n : Nat} {x : Except ScanError (α × GoString)} (f : α → β)
    (h : Below n x) : Below n (x.map (fun r => (f r.1, r.2))) := by
  cases x with
  | error e => exact ⟨fun he => h.1 (by simpa [Except.map] using he), fun v r hx => by
      simp [Except.map] at hx⟩
  | ok a =>
    refine ⟨by simp [Except.map], fun v r hx => ?_⟩
    simp only [Except.map, Except.ok.injEq, Prod.mk.injEq] at hx
    exact h.2 a.1 r (by rw [← hx.2])

theorem below_short {α : Type} (n : Nat) : Below n (.error .short : Except ScanError (α × GoString)) :=
  ⟨by simp, fun v r hx => by simp at hx⟩

theorem below_invalid {α : Type} (n : Nat) :
    Below n (.error .invalid : Except ScanError (α × GoString)) :=
  ⟨by simp, fun v r hx => by simp at hx⟩

theorem below_ok {α : Type} {n : Nat} (v : α) (r : GoString) (h : r.length < n) :
    Below n (.ok (v, r) : Except ScanError (α × GoString)) :=
  ⟨by simp, fun v' r' hx => by
    simp only [Except.ok.injEq, Prod.mk.injEq] at hx
    rw [← hx.2]; exact h⟩

theorem skipSpace_length : ∀ s : GoString, (skipSpace s).length ≤ s.length
  | [] => Nat.le_refl _
  | c :: s => by
    unfold skipSpace
    split
    · exact Nat.le_succ_of_le (skipSpace_length s)
    · exact Nat.le_refl _

theorem skipSpace_cons_length {s : GoString} {c : UInt8} {t : GoString}
    (h : skipSpace s = c :: t) : t.length < s.length := by
  have := skipSpace_length s
  rw [h] at this
  simpa using this

theorem scanString_below : ∀ (n : Nat) (s : GoString), s.length ≤ n →
    Below s.length (scanString s)
  | _, [], _ => by unfold scanString; exact below_short _
  | 0, _ :: _, h => by simp at h
  | n + 1, c :: s, h => by
    have hs : s.length ≤ n := by simpa using h
    unfold scanString
    split
    · exact below_ok _ _ (by simp)
    · split
      · cases s with
        | nil => exact below_short _
        | cons e s1 =>
          simp only
          split
          · exact ((scanString_below n s1 (by simp at hs; omega)).mono
              (by simp; omega)).map (fun r => c :: e :: r)
          · split
            · match s1 with
              | h1 :: h2 :: h3 :: h4 :: s2 =>
                simp only
                split
                · exact ((scanString_below n s2 (by simp at hs; omega)).mono
                    (by simp; omega)).map (fun r => c :: e :: h1 :: h2 :: h3 :: h4 :: r)
                · exact below_invalid _
              | [h1, h2, h3] => simp only; split <;> first | exact below_short _ | exact below_invalid _
              | [h1, h2] => simp only; split <;> first | exact below_short _ | exact below_invalid _
              | [h1] => simp only; split <;> first | exact below_short _ | exact below_invalid _
              | [] => exact below_short _
            · exact below_invalid _
      · split
        · exact below_invalid _
        · exact ((scanString_below n s hs).mono (by simp)).map (fun r => c :: r)

theorem scanLiteral_below : ∀ (w t : GoString) (v : JSON),
    Below (t.length + 1) ((scanLiteral w t).map (fun r => (v, r)))
  | [], t, v => by
    unfold scanLiteral
    exact below_ok _ _ (by simp [Except.map])
  | _ :: _, [], v => by
    unfold scanLiteral
    exact below_short _
  | w :: ws, c :: s, v => by
    unfold scanLiteral
    split
    · exact (scanLiteral_below ws s v).mono (by simp)
    · exact below_invalid _

theorem spanDigits_length : ∀ s : GoString, (spanDigits s).2.length ≤ s.length
  | [] => Nat.le_refl _
  | c :: s => by
    unfold spanDigits
    split
    · exact Nat.le_succ_of_le (spanDigits_length s)
    · exact Nat.le_refl _

theorem scanExponent_below (s : GoString) : Below (s.length + 1) (scanExponent s) := by
  unfold scanExponent
  have key : ∀ (sign t : GoString), t.length ≤ s.length →
      Below (s.length + 1)
        (match spanDigits t with
          | ([], []) => (.error .short : Except ScanError (GoString × GoString))
          | ([], _ :: _) => .error .invalid
          | (ds, rest) => .ok (sign ++ ds, rest)) := by
    intro sign t ht
    have hl := spanDigits_length t
    split
    · exact below_short _
    · exact below_invalid _
    · rename_i ds rest _ _ heq
      rw [heq] at hl
      exact below_ok _ _ (by simp at hl; omega)
  cases s with
  | nil => exact key [] [] (Nat.le_refl _)
  | cons c t =>
    by_cases hc : (c == ch '+' || c == ch '-') = true
    · simp only [hc, if_true]
      exact key [c] t (by simp)
    · simp only [hc, if_false]
      exact key [] (c :: t) (Nat.le_refl _)

theorem scanFraction_below (s : GoString) : Below (s.length + 1) (scanFraction s) := by
  unfold scanFraction
  cases s with
  | nil => exact below_ok _ _ (by simp)
  | cons c t =>
    simp only
    split
    · have hl := spanDigits_length t
      split
      · exact below_short _
      · exact below_invalid _
      · rename_i ds rest _ _ heq
        rw [heq] at hl
        simp only at hl
        cases rest with
        | nil => exact below_ok _ _ (by simp)
        | cons e u =>
          simp only
          split
          · exact ((scanExponent_below u).mono (by simp at hl ⊢; omega)).map
              (fun r => c :: ds ++ e :: r)
          · exact below_ok _ _ (by simp at hl ⊢; omega)
    · split
      · exact ((scanExponent_below t).mono (by simp)).map (fun r => c :: r)
      · exact below_ok _ _ (by simp)

theorem scanNumber_below (c : UInt8) (s : GoString) : Below (s.length + 1) (scanNumber c s) := by
  unfold scanNumber
  split
  · exact (scanFraction_below s).map (fun r => c :: r)
  · split
    · have hl := spanDigits_length s
      rcases hsd : spanDigits s with ⟨ds, rest⟩
      rw [hsd] at hl
      simp only at hl ⊢
      exact ((scanFraction_below rest).mono (by omega)).map (fun r => c :: ds ++ r)
    · exact below_invalid _

theorem below_error_of {α β : Type} {n m : Nat} {x : Except ScanError (α × GoString)}
    (h : Below n x) (e : ScanError) (hx : x = .error e) :
    Below m (.error e : Except ScanError (β × GoString)) := by
  refine ⟨?_, fun v r hy => by simp at hy⟩
  intro he
  simp only [Except.error.injEq] at he
  subst he
  exact h.1 hx

/-- With `2 * len(s) + 1` steps the scanner is never cut off, and a value it delimits
leaves fewer bytes than it was given. -/
theorem scan_below : ∀ fuel : Nat,
    (∀ depth s, 2 * s.length + 1 ≤ fuel → Below s.length (scanValue fuel depth s)) ∧
    (∀ depth s, 2 * s.length + 2 ≤ fuel → Below s.length (scanElements fuel depth s)) ∧
    (∀ depth s, 2 * s.length + 2 ≤ fuel → Below s.length (scanMembers fuel depth s))
  | 0 => ⟨fun _ _ h => by omega, fun _ _ h => by omega, fun _ _ h => by omega⟩
  | fuel + 1 => by
    obtain ⟨ihV, ihE, ihM⟩ := scan_below fuel
    refine ⟨?_, ?_, ?_⟩
    · intro depth s hf
      unfold scanValue
      cases hsk : skipSpace s with
      | nil => exact below_short _
      | cons c t =>
        have ht : t.length < s.length := skipSpace_cons_length hsk
        simp only
        split
        · split
          · exact below_invalid _
          · cases hsk2 : skipSpace t with
            | nil => exact below_short _
            | cons d u =>
              have hu : u.length < t.length := skipSpace_cons_length hsk2
              simp only
              split
              · exact below_ok _ _ (by omega)
              · exact ((ihM (depth + 1) (d :: u) (by simp; omega)).mono
                  (by simp; omega)).map JSON.object
        · split
          · split
            · exact below_invalid _
            · cases hsk2 : skipSpace t with
              | nil => exact below_short _
              | cons d u =>
                have hu : u.length < t.length := skipSpace_cons_length hsk2
                simp only
                split
                · exact below_ok _ _ (by omega)
                · exact ((ihE (depth + 1) (d :: u) (by simp; omega)).mono
                    (by simp; omega)).map JSON.array
          · split
            · exact ((scanString_below _ t (Nat.le_refl _)).mono (by omega)).map JSON.string
            · split
              · cases t with
                | nil => exact below_short _
                | cons d u =>
                  simp only
                  exact ((scanNumber_below d u).mono (by simp at ht; omega)).map
                    (fun r => JSON.number (c :: r))
              · split
                · exact ((scanNumber_below c t).mono (by omega)).map JSON.number
                · split
                  · exact (scanLiteral_below _ t _).mono (by omega)
                  · split
                    · exact (scanLiteral_below _ t _).mono (by omega)
                    · split
                      · exact (scanLiteral_below _ t _).mono (by omega)
                      · exact below_invalid _
    · intro depth s hf
      unfold scanElements
      have hv := ihV depth s (by omega)
      cases hsv : scanValue fuel depth s with
      | error e => exact below_error_of hv e hsv
      | ok a =>
        rcases a with ⟨x, rest⟩
        have hr : rest.length < s.length := hv.2 x rest hsv
        simp only
        cases hsk : skipSpace rest with
        | nil => exact below_short _
        | cons c t =>
          have ht : t.length < rest.length := skipSpace_cons_length hsk
          simp only
          split
          · exact ((ihE depth t (by omega)).mono (by omega)).map (fun r => JSONList.cons x r)
          · split
            · exact below_ok _ _ (by omega)
            · exact below_invalid _
    · intro depth s hf
      unfold scanMembers
      cases hsk : skipSpace s with
      | nil => exact below_short _
      | cons q s1 =>
        have h1 : s1.length < s.length := skipSpace_cons_length hsk
        simp only
        split
        · exact below_invalid _
        · have hstr := scanString_below _ s1 (Nat.le_refl _)
          cases hss : scanString s1 with
          | error e => exact below_error_of hstr e hss
          | ok a =>
            rcases a with ⟨key, s2⟩
            have h2 : s2.length < s1.length := hstr.2 key s2 hss
            simp only
            cases hsk2 : skipSpace s2 with
            | nil => exact below_short _
            | cons colon s3 =>
              have h3 : s3.length < s2.length := skipSpace_cons_length hsk2
              simp only
              split
              · exact below_invalid _
              · have hv := ihV depth s3 (by omega)
                cases hsv : scanValue fuel depth s3 with
                | error e => exact below_error_of hv e hsv
                | ok b =>
                  rcases b with ⟨v, s4⟩
                  have h4 : s4.length < s3.length := hv.2 v s4 hsv
                  simp only
                  cases hsk3 : skipSpace s4 with
                  | nil => exact below_short _
                  | cons c t =>
                    have h5 : t.length < s4.length := skipSpace_cons_length hsk3
                    simp only
                    split
                    · exact ((ihM depth t (by omega)).mono (by omega)).map
                        (fun r => JSONMembers.cons key v r)
                    · split
                      · exact below_ok _ _ (by omega)
                      · exact below_invalid _

/-- The step bound of `readValue` is never reached: the scanner reports a value, the end
of the input, or a byte that cannot continue the value. -/
theorem readValue_not_cut_off (b : Body) :
    scanValue (2 * b.data.length + 1) 0 b.data ≠ .error .fuel :=
  ((scan_below _).1 0 b.data (Nat.le_refl _)).1

/-! ## The step bounds of the other loops -/

theorem cut_rest_length (sep : UInt8) : ∀ s : GoString, (cut s sep).2.1.length ≤ s.length - 1
  | [] => by simp [cut]
  | c :: t => by
    unfold cut
    split
    · simp
    · have := cut_rest_length sep t
      simp only [List.length_cons, Nat.add_sub_cancel]
      omega

/-- The rounds of `parseQueryLoop` end before `len(query)` of them are used: more fuel
changes nothing. -/
theorem parseQueryLoop_fuel : ∀ (fuel fuel2 : Nat) (m : Values) (q : GoString),
    q.length ≤ fuel → q.length ≤ fuel2 → parseQueryLoop fuel m q = parseQueryLoop fuel2 m q
  | 0, 0, _, _, _, _ => rfl
  | 0, _ + 1, m, q, h, _ => by
    have hq : q = [] := List.length_eq_zero.mp (Nat.le_zero.mp h)
    subst hq
    simp [parseQueryLoop]
  | _ + 1, 0, m, q, _, h => by
    have hq : q = [] := List.length_eq_zero.mp (Nat.le_zero.mp h)
    subst hq
    simp [parseQueryLoop]
  | fuel + 1, fuel2 + 1, m, q, h, h2 => by
    unfold parseQueryLoop
    by_cases hq : (q == []) = true
    · simp only [hq, if_true]
    · simp only [hq, if_false]
      have hne : q ≠ [] := by simpa using hq
      have hpos : 0 < q.length := List.length_pos.mpr hne
      have hl := cut_rest_length (ch '&') q
      have ih : ∀ m2, parseQueryLoop fuel m2 (cut q (ch '&')).2.1
          = parseQueryLoop fuel2 m2 (cut q (ch '&')).2.1 :=
        fun m2 => parseQueryLoop_fuel fuel fuel2 m2 _ (by omega) (by omega)
      simp only [ih]

/-- The bound `fuel = len(query)` of `(*URL).Query` is enough for every query. -/
theorem Query_fuel (u : URL) (fuel : Nat) (h : u.RawQuery.length ≤ fuel) :
    parseQueryLoop fuel [] u.RawQuery = u.Query :=
  parseQueryLoop_fuel fuel _ [] _ h (Nat.le_refl _)

/-- The rounds of `unquoteLoop` end before `len(s)` of them are used: more fuel changes
nothing. -/
theorem unquoteLoop_fuel : ∀ (fuel fuel2 : Nat) (s : GoString),
    s.length ≤ fuel → s.length ≤ fuel2 → unquoteLoop fuel s = unquoteLoop fuel2 s
  | 0, 0, _, _, _ => rfl
  | 0, _ + 1, s, h, _ => by
    have hs : s = [] := List.length_eq_zero.mp (Nat.le_zero.mp h)
    subst hs
    simp [unquoteLoop]
  | _ + 1, 0, s, _, h => by
    have hs : s = [] := List.length_eq_zero.mp (Nat.le_zero.mp h)
    subst hs
    simp [unquoteLoop]
  | _ + 1, _ + 1, [], _, _ => by simp [unquoteLoop]
  | fuel + 1, fuel2 + 1, c :: s, h, h2 => by
    have hl : s.length ≤ fuel := by simpa using h
    have hl2 : s.length ≤ fuel2 := by simpa using h2
    have ih : ∀ t : GoString, t.length ≤ s.length →
        unquoteLoop fuel t = unquoteLoop fuel2 t :=
      fun t ht => unquoteLoop_fuel fuel fuel2 t (by omega) (by omega)
    have ihs := ih s (Nat.le_refl _)
    unfold unquoteLoop
    split
    · cases s with
      | nil => rfl
      | cons e s1 =>
        have i1 := ih s1 (by simp)
        have i2 := ih (s1.drop 4) (by simp; omega)
        have i3 := ih ((s1.drop 4).drop 6) (by simp; omega)
        simp only [i1, i2, i3]
    · split
      · rw [ihs]
      · cases hn : multiByteLen (c :: s) with
        | zero => simp only [ihs]
        | succ n =>
          have i4 := ih ((c :: s).drop (n + 1)) (by simp)
          simp only [i4]

/-- The bound `fuel = len(raw)` of `unquote` is enough for every literal. -/
theorem unquote_fuel (raw : GoString) (fuel : Nat) (h : raw.length ≤ fuel) :
    unquoteLoop fuel raw = unquote raw :=
  unquoteLoop_fuel fuel _ raw h (Nat.le_refl _)

/-! ## The request that is built -/

theorem NewClient_eq (apiTokenID apiSecret : GoString) (logger : Option Logger)
    (ht : apiTokenID ≠ []) (hs : apiSecret ≠ []) :
    NewClient apiTokenID apiSecret logger
      = .ok { URL := testClient.URL, ApiTokenID := apiTokenID, ApiSecret := apiSecret,
              HTTPClient := { Timeout := 10 * Second },
              Logger := (match logger with
                | none => { out := .Discard, pfx := [], flag := LstdFlags }
                | some l => l),
              testServer := none } := by
  have h1 : (apiTokenID.length == 0) = false := by
    cases apiTokenID with
    | nil => exact absurd rfl ht
    | cons a t => rfl
  have h2 : (apiSecret.length == 0) = false := by
    cases apiSecret with
    | nil => exact absurd rfl hs
    | cons a t => rfl
  simp only [NewClient, h1, h2, parsedBaseUrl, testClient]
  rfl

theorem newRequest_fst (p : Platform) (c : Client) (method spath : GoString)
    (body : Option GoString) (queryParam : Option (List (GoString × GoString))) :
    (newRequest p c method spath body queryParam).1 = switchURL c := by
  simp only [newRequest, signedString_ok]
  split <;> rfl

theorem switchURL_idem (c : Client) : switchURL (switchURL c) = switchURL c := by
  rcases c with ⟨u, a, s, hc, lg, ts⟩
  cases ts <;> rfl

theorem requestURL_switchURL (c : Client) (spath : GoString)
    (queryParam : Option (List (GoString × GoString))) :
    requestURL (switchURL c) spath queryParam = requestURL c spath queryParam := by
  simp only [requestURL, switchURL_idem]

theorem newRequest_switchURL (p : Platform) (c : Client) (method spath : GoString)
    (body : Option GoString) (queryParam : Option (List (GoString × GoString))) :
    newRequest p (switchURL c) method spath body queryParam
      = newRequest p c method spath body queryParam := by
  simp only [newRequest, requestToken, signedPath, requestURL_switchURL, switchURL_idem]

theorem switchURL_fields (c : Client) :
    (switchURL c).ApiTokenID = c.ApiTokenID ∧ (switchURL c).ApiSecret = c.ApiSecret ∧
      (switchURL c).HTTPClient = c.HTTPClient ∧ (switchURL c).Logger = c.Logger ∧
      (switchURL c).testServer = c.testServer := by
  rcases c with ⟨u, a, s, hc, lg, ts⟩
  cases ts <;> exact ⟨rfl, rfl, rfl, rfl, rfl⟩

theorem canonical_keys :
    CanonicalMIMEHeaderKey (str "Content-Type") = str "Content-Type" ∧
    CanonicalMIMEHeaderKey (str "X-Quoine-API-Version") = str "X-Quoine-Api-Version" ∧
    CanonicalMIMEHeaderKey (str "User-Agent") = str "User-Agent" ∧
    CanonicalMIMEHeaderKey (str "X-Quoine-Auth") = str "X-Quoine-Auth" := by
  decide

theorem builtRequest_headers (p : Platform) (c : Client) (method spath : GoString)
    (body : Option GoString) (queryParam : Option (List (GoString × GoString))) :
    (builtRequest p c method spath body queryParam).Header.Get (str "Content-Type")
        = str "application/json" ∧
    (builtRequest p c method spath body queryParam).Header.Get (str "X-Quoine-API-Version")
        = str "2" ∧
    (builtRequest p c method spath body queryParam).Header.Get (str "User-Agent")
        = str "GoClient/" ++ version ++ str " (" ++ p.goVersion ++ str ")" ∧
    (builtRequest p c method spath body queryParam).Header.Get (str "X-Quoine-Auth")
        = (requestToken p c spath queryParam).SigningString p ++ str "." ++
            EncodeSegment (p.hmacSHA256 (switchURL c).ApiSecret
              ((requestToken p c spath queryParam).SigningString p)) := by
  obtain ⟨k1, k2, k3, k4⟩ := canonical_keys
  have d12 : str "Content-Type" ≠ str "X-Quoine-Api-Version" := by decide
  have d13 : str "Content-Type" ≠ str "User-Agent" := by decide
  have d14 : str "Content-Type" ≠ str "X-Quoine-Auth" := by decide
  have d23 : str "X-Quoine-Api-Version" ≠ str "User-Agent" := by decide
  have d24 : str "X-Quoine-Api-Version" ≠ str "X-Quoine-Auth" := by decide
  have d34 : str "User-Agent" ≠ str "X-Quoine-Auth" := by decide
  simp only [builtRequest, Header.Set, Header.Get, k1, k2, k3, k4, Values.put, Values.index,
    d12, d13, d14, d23, d24, d34, if_true, if_false, List.headD]
  simp

theorem newRequest_ok_eq (p : Platform) (c : Client) (method spath : GoString)
    (body : Option GoString) (queryParam : Option (List (GoString × GoString))) (req : Request)
    (h : (newRequest p c method spath body queryParam).2 = .ok req) :
    req = builtRequest p c method spath body queryParam := by
  by_cases hm : validMethod (if method == [] then str "GET" else method) = true
  · rw [newRequest_valid p c method spath body queryParam hm] at h
    simp only [Result.ok.injEq] at h
    exact h.symm
  · simp only [Bool.not_eq_true] at hm
    simp only [newRequest, signedString_ok, NewRequest, hm] at h
    simp at h

theorem getD_ne (x d : UInt8) (hd : d ≠ x) :
    ∀ (l : List UInt8) (n : Nat), x ∉ l → l.getD n d ≠ x
  | [], n, _ => by simpa using hd
  | a :: l, 0, h => by
    simp only [List.getD_cons_zero]
    exact fun e => h (e ▸ List.mem_cons_self _ _)
  | a :: l, n + 1, h => by
    simp only [List.getD_cons_succ]
    exact getD_ne x d hd l n (fun hm => h (List.mem_cons_of_mem _ hm))

theorem encodeURL_ne_dot (i : UInt8) : encodeURL i ≠ ch '.' :=
  getD_ne (ch '.') 0 (by decide) _ _ (by decide)

theorem EncodeSegment_no_dot : ∀ s : GoString, ch '.' ∉ EncodeSegment s
  | [] => by simp [EncodeSegment]
  | [a] => by
    simp only [EncodeSegment, List.mem_cons, List.mem_singleton, List.not_mem_nil, or_false,
      not_or]
    exact ⟨(encodeURL_ne_dot _).symm, (encodeURL_ne_dot _).symm⟩
  | [a, b] => by
    simp only [EncodeSegment, List.mem_cons, List.mem_singleton, List.not_mem_nil, or_false,
      not_or]
    exact ⟨(encodeURL_ne_dot _).symm, (encodeURL_ne_dot _).symm, (encodeURL_ne_dot _).symm⟩
  | a :: b :: c :: rest => by
    have ih := EncodeSegment_no_dot rest
    simp only [EncodeSegment, List.mem_append, List.mem_cons, List.mem_singleton,
      List.not_mem_nil, or_false, not_or]
    exact ⟨⟨(encodeURL_ne_dot _).symm, (encodeURL_ne_dot _).symm, (encodeURL_ne_dot _).symm,
      (encodeURL_ne_dot _).symm⟩, ih⟩

theorem userAgent_eq (v : GoString) :
    str "GoClient/" ++ version ++ str " (" ++ v ++ str ")"
      = str "GoClient/0.0.1 (" ++ v ++ str ")" := by
  have h : str "GoClient/" ++ version ++ str " (" = str "GoClient/0.0.1 (" := by decide
  rw [h]

/-! ## The trailing comma of the edit body -/

theorem KeepsTail.map_kept {α β : Type} {T : GoString} {x : Except ScanError (α × GoString)}
    (f : α → β) (h : KeepsTail T x) : KeepsTail T (x.map (fun r => (f r.1, r.2))) := by
  intro v rest hx
  cases x with
  | error e => simp [Except.map] at hx
  | ok a =>
    simp only [Except.map, Except.ok.injEq, Prod.mk.injEq] at hx
    exact h a.1 rest (by rw [← hx.2])

theorem keepsTail_error {α : Type} (T : GoString) (e : ScanError) :
    KeepsTail T (.error e : Except ScanError (α × GoString)) :=
  fun v rest hx => by simp at hx

theorem keepsTail_ok {α : Type} {T : GoString} (v : α) (r y : GoString) (h : r = y ++ T) :
    KeepsTail T (.ok (v, r) : Except ScanError (α × GoString)) := by
  intro v2 r2 hx
  simp only [Except.ok.injEq, Prod.mk.injEq] at hx
  exact ⟨y, by rw [← hx.2, h]⟩

/-- A text that ends with `T` and is cut after a byte that does not occur in `T` is cut
before `T`. -/
theorem tail_kept_of_last (T : GoString) (c : UInt8) (hc : c ∉ T) :
    ∀ (pre x rest : GoString), x ++ T = pre ++ c :: rest → ∃ y, rest = y ++ T
  | [], [], rest, h => by
    simp only [List.nil_append] at h
    exact absurd (h ▸ List.mem_cons_self c rest) hc
  | [], a :: x, rest, h => by
    simp only [List.nil_append, List.cons_append, List.cons.injEq] at h
    exact ⟨x, h.2.symm⟩
  | b :: pre, [], rest, h => by
    simp only [List.nil_append] at h
    exact absurd (h ▸ (List.mem_cons_of_mem b (List.mem_append_right pre
      (List.mem_cons_self c rest)))) hc
  | b :: pre, a :: x, rest, h => by
    simp only [List.cons_append, List.cons.injEq] at h
    exact tail_kept_of_last T c hc pre x rest h.2

/-- A text that ends with `T` and is cut after bytes that do not occur in `T` is cut
before `T`. -/
theorem tail_kept_of_all (T : GoString) :
    ∀ (pre x rest : GoString), (∀ k ∈ pre, k ∉ T) → x ++ T = pre ++ rest → ∃ y, rest = y ++ T
  | [], x, rest, _, h => ⟨x, by simpa using h.symm⟩
  | b :: pre, [], rest, hp, h => by
    simp only [List.nil_append] at h
    exact absurd (h ▸ List.mem_cons_self b (pre ++ rest)) (hp b (List.mem_cons_self _ _))
  | b :: pre, a :: x, rest, hp, h => by
    simp only [List.cons_append, List.cons.injEq] at h
    exact tail_kept_of_all T pre x rest (fun k hk => hp k (List.mem_cons_of_mem _ hk)) h.2

theorem trailing_eq : trailing = ch ',' :: trailingTail := by decide

theorem skipSpace_append_trailing : ∀ x : GoString,
    skipSpace (x ++ trailing) = skipSpace x ++ trailing
  | [] => by decide
  | c :: x => by
    simp only [List.cons_append, skipSpace]
    split
    · exact skipSpace_append_trailing x
    · rfl

theorem tail_of_cons_eq {c : UInt8} {t w : GoString} (h : c :: t = w ++ trailing)
    (hc : c ≠ ch ',') : ∃ y, t = y ++ trailing := by
  cases w with
  | nil =>
    rw [trailing_eq] at h
    simp only [List.nil_append, List.cons.injEq] at h
    exact absurd h.1 hc
  | cons a w =>
    simp only [List.cons_append, List.cons.injEq] at h
    exact ⟨w, h.2⟩

theorem tail_of_cons_eq_comma {c : UInt8} {t w : GoString} (h : c :: t = w ++ trailing) :
    t = trailingTail ∨ ∃ y, t = y ++ trailing := by
  cases w with
  | nil =>
    rw [trailing_eq] at h
    simp only [List.nil_append, List.cons.injEq] at h
    exact Or.inl h.2
  | cons a w =>
    simp only [List.cons_append, List.cons.injEq] at h
    exact Or.inr ⟨w, h.2⟩

/-- The closing quote is the last byte that `scanString` takes. -/
theorem scanString_last : ∀ (n : Nat) (s raw rest : GoString), s.length ≤ n →
    scanString s = .ok (raw, rest) → ∃ pre, s = pre ++ ch '\x22' :: rest
  | _, [], _, _, _, h => by simp [scanString] at h
  | 0, _ :: _, _, _, hn, _ => by simp at hn
  | n + 1, c :: s, raw, rest, hn, h => by
    have hs : s.length ≤ n := by simpa using hn
    have step : ∀ (f : GoString → GoString) (t pre0 : GoString), t.length ≤ n →
        c :: s = pre0 ++ t →
        (scanString t).map (fun r => (f r.1, r.2)) = .ok (raw, rest) →
        ∃ pre, c :: s = pre ++ ch '\x22' :: rest := by
      intro f t pre0 ht hcs hm
      cases hx : scanString t with
      | error e => rw [hx] at hm; simp [Except.map] at hm
      | ok a =>
        rw [hx] at hm
        simp only [Except.map, Except.ok.injEq, Prod.mk.injEq] at hm
        obtain ⟨pre, hp⟩ := scanString_last n t a.1 rest ht (by rw [hx, ← hm.2])
        exact ⟨pre0 ++ pre, by rw [hcs, hp, List.append_assoc]⟩
    unfold scanString at h
    split at h
    · rename_i hq
      simp only [Except.ok.injEq, Prod.mk.injEq] at h
      have hc : c = ch '\x22' := by simpa using hq
      exact ⟨[], by rw [hc, h.2]; rfl⟩
    · split at h
      · cases s with
        | nil => simp at h
        | cons e s1 =>
          simp only at h
          split at h
          · exact step (fun r => c :: e :: r) s1 [c, e] (by simp at hs; omega) rfl h
          · split at h
            · rcases s1 with _ | ⟨h1, _ | ⟨h2, _ | ⟨h3, _ | ⟨h4, s2⟩⟩⟩⟩
              · simp at h
              · simp only at h; split at h <;> simp at h
              · simp only at h; split at h <;> simp at h
              · simp only at h; split at h <;> simp at h
              · simp only at h
                split at h
                · exact step (fun r => c :: e :: h1 :: h2 :: h3 :: h4 :: r) s2
                    [c, e, h1, h2, h3, h4] (by simp at hs; omega) rfl h
                · simp at h
            · simp at h
      · split at h
        · simp at h
        · exact step (fun r => c :: r) s [c] hs rfl h

theorem not_mem_trailing (k : UInt8) (h1 : k ≠ ch ',') (h2 : k ≠ 10) (h3 : k ≠ 9)
    (h4 : k ≠ ch '\x7d') : k ∉ trailing := by
  have e : trailing = [ch ',', 10, 9, 9, 9, ch '\x7d', 10, 9, 9, ch '\x7d'] := by decide
  rw [e]
  simp only [List.mem_cons, List.mem_singleton, List.not_mem_nil, or_false, not_or]
  exact ⟨h1, h2, h3, h3, h3, h4, h2, h3, h3, h4⟩

theorem digit_not_trailing (k : UInt8) (h : (ch '0' ≤ k && k ≤ ch '9') = true) :
    k ∉ trailing := by
  apply not_mem_trailing <;> (intro e; subst e; revert h; decide)

theorem spanDigits_clean : ∀ s : GoString,
    s = (spanDigits s).1 ++ (spanDigits s).2 ∧ ∀ k ∈ (spanDigits s).1, k ∉ trailing
  | [] => ⟨rfl, fun k hk => by simp [spanDigits] at hk⟩
  | c :: s => by
    unfold spanDigits
    split
    · rename_i hd
      obtain ⟨h1, h2⟩ := spanDigits_clean s
      refine ⟨by simp only [List.cons_append, ← h1], ?_⟩
      intro k hk
      simp only [List.mem_cons] at hk
      rcases hk with rfl | hk
      · exact digit_not_trailing k hd
      · exact h2 k hk
    · exact ⟨rfl, fun k hk => by simp at hk⟩

theorem spanDigits_match_clean (sign t v rest : GoString) (hsign : ∀ k ∈ sign, k ∉ trailing)
    (h : (match spanDigits t with
          | ([], []) => (.error .short : Except ScanError (GoString × GoString))
          | ([], _ :: _) => .error .invalid
          | (ds, rest) => .ok (sign ++ ds, rest)) = .ok (v, rest)) :
    sign ++ t = v ++ rest ∧ ∀ k ∈ v, k ∉ trailing := by
  obtain ⟨h1, h2⟩ := spanDigits_clean t
  split at h
  · simp at h
  · simp at h
  · rename_i ds r _ _ heq
    rw [heq] at h1 h2
    simp only [Except.ok.injEq, Prod.mk.injEq] at h
    obtain ⟨hv, hr⟩ := h
    subst hv hr
    refine ⟨by rw [h1, List.append_assoc], ?_⟩
    intro k hk
    rcases List.mem_append.mp hk with hk | hk
    · exact hsign k hk
    · exact h2 k hk

theorem scanExponent_clean (s v rest : GoString) (h : scanExponent s = .ok (v, rest)) :
    s = v ++ rest ∧ ∀ k ∈ v, k ∉ trailing := by
  unfold scanExponent at h
  cases s with
  | nil =>
    have := spanDigits_match_clean [] [] v rest (fun k hk => by simp at hk) h
    simpa using this
  | cons c t =>
    by_cases hc : (c == ch '+' || c == ch '-') = true
    · simp only [hc, if_true] at h
      have hsign : ∀ k ∈ [c], k ∉ trailing := by
        intro k hk
        simp only [List.mem_singleton] at hk
        subst hk
        apply not_mem_trailing <;> (intro e; subst e; revert hc; decide)
      exact spanDigits_match_clean [c] t v rest hsign h
    · simp only [hc, if_false] at h
      have := spanDigits_match_clean [] (c :: t) v rest (fun k hk => by simp at hk) h
      simpa using this

theorem map_ok_inv (f : GoString → GoString) {x : Except ScanError (GoString × GoString)}
    {v rest : GoString} (h : x.map (fun r => (f r.1, r.2)) = .ok (v, rest)) :
    ∃ w, x = .ok (w, rest) ∧ v = f w := by
  cases x with
  | error e => simp [Except.map] at h
  | ok a =>
    simp only [Except.map, Except.ok.injEq, Prod.mk.injEq] at h
    exact ⟨a.1, by rw [← h.2], h.1.symm⟩

theorem scanFraction_clean (s v rest : GoString) (h : scanFraction s = .ok (v, rest)) :
    s = v ++ rest ∧ ∀ k ∈ v, k ∉ trailing := by
  unfold scanFraction at h
  cases s with
  | nil =>
    simp only [Except.ok.injEq, Prod.mk.injEq] at h
    obtain ⟨hv, hr⟩ := h
    subst hv hr
    exact ⟨rfl, fun k hk => by simp at hk⟩
  | cons c t =>
    simp only at h
    split at h
    · rename_i hdot
      have hcdot : c ∉ trailing := by
        apply not_mem_trailing <;> (intro e; subst e; revert hdot; decide)
      obtain ⟨h1, h2⟩ := spanDigits_clean t
      split at h
      · simp at h
      · simp at h
      · rename_i ds r _ _ heq
        rw [heq] at h1 h2
        simp only at h1 h2
        cases r with
        | nil =>
          simp only [Except.ok.injEq, Prod.mk.injEq] at h
          obtain ⟨hv, hr⟩ := h
          subst hv hr
          refine ⟨by rw [h1]; simp, ?_⟩
          intro k hk
          simp only [List.mem_cons] at hk
          rcases hk with rfl | hk
          · exact hcdot
          · exact h2 k hk
        | cons e u =>
          simp only at h
          split at h
          · rename_i he
            have hce : e ∉ trailing := by
              apply not_mem_trailing <;> (intro e1; subst e1; revert he; decide)
            obtain ⟨w, hw, hv⟩ := map_ok_inv (fun r => c :: ds ++ e :: r) h
            obtain ⟨g1, g2⟩ := scanExponent_clean u w rest hw
            subst hv
            refine ⟨by rw [h1, g1]; simp, ?_⟩
            intro k hk
            simp only [List.mem_cons, List.mem_append] at hk
            rcases hk with (rfl | hk) | rfl | hk
            · exact hcdot
            · exact h2 k hk
            · exact hce
            · exact g2 k hk
          · simp only [Except.ok.injEq, Prod.mk.injEq] at h
            obtain ⟨hv, hr⟩ := h
            subst hv hr
            refine ⟨by rw [h1]; simp, ?_⟩
            intro k hk
            simp only [List.mem_cons] at hk
            rcases hk with rfl | hk
            · exact hcdot
            · exact h2 k hk
    · split at h
      · rename_i he
        have hce : c ∉ trailing := by
          apply not_mem_trailing <;> (intro e1; subst e1; revert he; decide)
        obtain ⟨w, hw, hv⟩ := map_ok_inv (fun r => c :: r) h
        obtain ⟨g1, g2⟩ := scanExponent_clean t w rest hw
        subst hv
        refine ⟨by rw [g1]; simp, ?_⟩
        intro k hk
        simp only [List.mem_cons] at hk
        rcases hk with rfl | hk
        · exact hce
        · exact g2 k hk
      · simp only [Except.ok.injEq, Prod.mk.injEq] at h
        obtain ⟨hv, hr⟩ := h
        subst hv hr
        exact ⟨rfl, fun k hk => by simp at hk⟩

theorem scanNumber_clean (c : UInt8) (s v rest : GoString)
    (h : scanNumber c s = .ok (v, rest)) :
    c :: s = v ++ rest ∧ ∀ k ∈ v, k ∉ trailing := by
  unfold scanNumber at h
  split at h
  · rename_i h0
    have hc : c ∉ trailing := by
      apply not_mem_trailing <;> (intro e1; subst e1; revert h0; decide)
    obtain ⟨w, hw, hv⟩ := map_ok_inv (fun r => c :: r) h
    obtain ⟨g1, g2⟩ := scanFraction_clean s w rest hw
    subst hv
    refine ⟨by rw [g1]; simp, ?_⟩
    intro k hk
    simp only [List.mem_cons] at hk
    rcases hk with rfl | hk
    · exact hc
    · exact g2 k hk
  · split at h
    · rename_i hd
      have hc : c ∉ trailing := by
        apply not_mem_trailing <;> (intro e1; subst e1; revert hd; decide)
      obtain ⟨h1, h2⟩ := spanDigits_clean s
      rcases hsd : spanDigits s with ⟨ds, r⟩
      rw [hsd] at h h1 h2
      simp only at h h1 h2
      obtain ⟨w, hw, hv⟩ := map_ok_inv (fun r => c :: ds ++ r) h
      obtain ⟨g1, g2⟩ := scanFraction_clean r w rest hw
      subst hv
      refine ⟨by rw [h1, g1]; simp, ?_⟩
      intro k hk
      simp only [List.mem_cons, List.mem_append] at hk
      rcases hk with (rfl | hk) | hk
      · exact hc
      · exact h2 k hk
      · exact g2 k hk
    · simp at h

theorem scanLiteral_eq : ∀ (w t rest : GoString), scanLiteral w t = .ok rest → t = w ++ rest
  | [], t, rest, h => by
    unfold scanLiteral at h
    simp only [Except.ok.injEq] at h
    simp [h]
  | _ :: _, [], rest, h => by
    unfold scanLiteral at h
    simp at h
  | w :: ws, c :: s, rest, h => by
    unfold scanLiteral at h
    split at h
    · rename_i hc
      have e : c = w := by simpa using hc
      rw [e, scanLiteral_eq ws s rest h]
      rfl
    · simp at h

theorem quote_not_trailing : ch '\x22' ∉ trailing := by decide

theorem skipSpace_keeps {s : GoString} (hs : ∃ x, s = x ++ trailing) :
    ∃ y, skipSpace s = y ++ trailing := by
  obtain ⟨x, rfl⟩ := hs
  exact ⟨skipSpace x, skipSpace_append_trailing x⟩

theorem scanString_keeps (t : GoString) (ht : ∃ y, t = y ++ trailing) :
    KeepsTail trailing (scanString t) := by
  intro raw rest h
  obtain ⟨y, hy⟩ := ht
  obtain ⟨pre, hp⟩ := scanString_last t.length t raw rest (Nat.le_refl _) h
  exact tail_kept_of_last trailing _ quote_not_trailing pre y rest (by rw [← hy, hp])

theorem scanNumber_keeps (c : UInt8) (t : GoString) (ht : ∃ y, c :: t = y ++ trailing) :
    KeepsTail trailing (scanNumber c t) := by
  intro v rest h
  obtain ⟨y, hy⟩ := ht
  obtain ⟨h1, h2⟩ := scanNumber_clean c t v rest h
  exact tail_kept_of_all trailing v y rest h2 (by rw [← hy, h1])

theorem scanLiteral_keeps (w t : GoString) (v : JSON) (hw : ∀ k ∈ w, k ∉ trailing)
    (ht : ∃ y, t = y ++ trailing) :
    KeepsTail trailing ((scanLiteral w t).map (fun r => (v, r))) := by
  intro v2 rest h
  cases hx : scanLiteral w t with
  | error e => rw [hx] at h; simp [Except.map] at h
  | ok r =>
    rw [hx] at h
    simp only [Except.map, Except.ok.injEq, Prod.mk.injEq] at h
    obtain ⟨y, hy⟩ := ht
    have := scanLiteral_eq w t r hx
    exact tail_kept_of_all trailing w y rest hw (by rw [← hy, this, h.2])

theorem skipSpace_trailingTail : skipSpace trailingTail = ch '\x7d' :: str "\n\t\t\x7d" := by
  decide

theorem scanValue_trailingTail (fuel depth : Nat) :
    ∃ e, scanValue fuel depth trailingTail = .error e := by
  cases fuel with
  | zero => exact ⟨.fuel, by unfold scanValue; rfl⟩
  | succ n =>
    refine ⟨.invalid, ?_⟩
    unfold scanValue
    rw [skipSpace_trailingTail]
    rfl

theorem scanElements_trailingTail (fuel depth : Nat) :
    ∃ e, scanElements fuel depth trailingTail = .error e := by
  cases fuel with
  | zero => exact ⟨.fuel, by unfold scanElements; rfl⟩
  | succ n =>
    obtain ⟨e, he⟩ := scanValue_trailingTail n depth
    refine ⟨e, ?_⟩
    unfold scanElements
    rw [he]

theorem scanMembers_trailingTail (fuel depth : Nat) :
    ∃ e, scanMembers fuel depth trailingTail = .error e := by
  cases fuel with
  | zero => exact ⟨.fuel, by unfold scanMembers; rfl⟩
  | succ n =>
    refine ⟨.invalid, ?_⟩
    unfold scanMembers
    rw [skipSpace_trailingTail]
    rfl

/-- Scanning a text that ends with `trailing` never takes a byte of that end: what a scan
leaves still ends with `trailing`. -/
theorem scan_keeps_trailing : ∀ fuel : Nat,
    (∀ depth s, (∃ x, s = x ++ trailing) → KeepsTail trailing (scanValue fuel depth s)) ∧
    (∀ depth s, (∃ x, s = x ++ trailing) → KeepsTail trailing (scanElements fuel depth s)) ∧
    (∀ depth s, (∃ x, s = x ++ trailing) → KeepsTail trailing (scanMembers fuel depth s))
  | 0 =>
    ⟨fun _ _ _ => by unfold scanValue; exact keepsTail_error _ _,
     fun _ _ _ => by unfold scanElements; exact keepsTail_error _ _,
     fun _ _ _ => by unfold scanMembers; exact keepsTail_error _ _⟩
  | fuel + 1 => by
    obtain ⟨ihV, ihE, ihM⟩ := scan_keeps_trailing fuel
    refine ⟨?_, ?_, ?_⟩
    · intro depth s hs
      unfold scanValue
      have hsp := skipSpace_keeps hs
      cases hsk : skipSpace s with
      | nil => exact keepsTail_error _ _
      | cons c t =>
        rw [hsk] at hsp
        obtain ⟨w, hw⟩ := hsp
        simp only
        split
        · rename_i hc
          have ht : ∃ y, t = y ++ trailing :=
            tail_of_cons_eq hw (by intro e; subst e; revert hc; decide)
          split
          · exact keepsTail_error _ _
          · have hsp2 := skipSpace_keeps ht
            cases hsk2 : skipSpace t with
            | nil => exact keepsTail_error _ _
            | cons d u =>
              rw [hsk2] at hsp2
              obtain ⟨w2, hw2⟩ := hsp2
              simp only
              split
              · rename_i hd
                obtain ⟨y, hy⟩ := tail_of_cons_eq hw2
                  (by intro e; subst e; revert hd; decide)
                exact keepsTail_ok _ _ y hy
              · exact (ihM (depth + 1) (d :: u) ⟨w2, hw2⟩).map_kept JSON.object
        · split
          · rename_i hc
            have ht : ∃ y, t = y ++ trailing :=
              tail_of_cons_eq hw (by intro e; subst e; revert hc; decide)
            split
            · exact keepsTail_error _ _
            · have hsp2 := skipSpace_keeps ht
              cases hsk2 : skipSpace t with
              | nil => exact keepsTail_error _ _
              | cons d u =>
                rw [hsk2] at hsp2
                obtain ⟨w2, hw2⟩ := hsp2
                simp only
                split
                · rename_i hd
                  obtain ⟨y, hy⟩ := tail_of_cons_eq hw2
                    (by intro e; subst e; revert hd; decide)
                  exact keepsTail_ok _ _ y hy
                · exact (ihE (depth + 1) (d :: u) ⟨w2, hw2⟩).map_kept JSON.array
          · split
            · rename_i hc
              have ht : ∃ y, t = y ++ trailing :=
                tail_of_cons_eq hw (by intro e; subst e; revert hc; decide)
              exact (scanString_keeps t ht).map_kept JSON.string
            · split
              · rename_i hc
                have ht : ∃ y, t = y ++ trailing :=
                  tail_of_cons_eq hw (by intro e; subst e; revert hc; decide)
                cases t with
                | nil => exact keepsTail_error _ _
                | cons d u =>
                  simp only
                  exact (scanNumber_keeps d u ht).map_kept (fun r => JSON.number (c :: r))
              · split
                · exact (scanNumber_keeps c t ⟨w, hw⟩).map_kept JSON.number
                · split
                  · rename_i hc
                    exact scanLiteral_keeps _ t _ (by decide)
                      (tail_of_cons_eq hw (by intro e; subst e; revert hc; decide))
                  · split
                    · rename_i hc
                      exact scanLiteral_keeps _ t _ (by decide)
                        (tail_of_cons_eq hw (by intro e; subst e; revert hc; decide))
                    · split
                      · rename_i hc
                        exact scanLiteral_keeps _ t _ (by decide)
                          (tail_of_cons_eq hw (by intro e; subst e; revert hc; decide))
                      · exact keepsTail_error _ _
    · intro depth s hs
      unfold scanElements
      have hv := ihV depth s hs
      cases hsv : scanValue fuel depth s with
      | error e => exact keepsTail_error _ _
      | ok a =>
        rcases a with ⟨x, rest⟩
        have hsp := skipSpace_keeps (hv x rest hsv)
        simp only
        cases hsk : skipSpace rest with
        | nil => exact keepsTail_error _ _
        | cons c t =>
          rw [hsk] at hsp
          obtain ⟨w, hw⟩ := hsp
          simp only
          split
          · have hk : KeepsTail trailing (scanElements fuel depth t) := by
              rcases tail_of_cons_eq_comma hw with ht | ht
              · obtain ⟨e, he⟩ := scanElements_trailingTail fuel depth
                rw [ht, he]
                exact keepsTail_error _ _
              · exact ihE depth t ht
            exact hk.map_kept (fun r => JSONList.cons x r)
          · split
            · rename_i hc1 hc
              obtain ⟨y, hy⟩ := tail_of_cons_eq hw
                (by intro e; subst e; revert hc; decide)
              exact keepsTail_ok _ _ y hy
            · exact keepsTail_error _ _
    · intro depth s hs
      unfold scanMembers
      have hsp := skipSpace_keeps hs
      cases hsk : skipSpace s with
      | nil => exact keepsTail_error _ _
      | cons q s1 =>
        rw [hsk] at hsp
        obtain ⟨w, hw⟩ := hsp
        simp only
        split
        · exact keepsTail_error _ _
        · rename_i hq
          have h1 : ∃ y, s1 = y ++ trailing :=
            tail_of_cons_eq hw (by intro e; subst e; revert hq; decide)
          cases hss : scanString s1 with
          | error e => exact keepsTail_error _ _
          | ok a =>
            rcases a with ⟨key, s2⟩
            have hsp2 := skipSpace_keeps (scanString_keeps s1 h1 key s2 hss)
            simp only
            cases hsk2 : skipSpace s2 with
            | nil => exact keepsTail_error _ _
            | cons colon s3 =>
              rw [hsk2] at hsp2
              obtain ⟨w2, hw2⟩ := hsp2
              simp only
              split
              · exact keepsTail_error _ _
              · rename_i hcolon
                have h3 : ∃ y, s3 = y ++ trailing :=
                  tail_of_cons_eq hw2 (by intro e; subst e; revert hcolon; decide)
                cases hsv : scanValue fuel depth s3 with
                | error e => exact keepsTail_error _ _
                | ok b =>
                  rcases b with ⟨v, s4⟩
                  have hsp3 := skipSpace_keeps (ihV depth s3 h3 v s4 hsv)
                  simp only
                  cases hsk3 : skipSpace s4 with
                  | nil => exact keepsTail_error _ _
                  | cons c t =>
                    rw [hsk3] at hsp3
                    obtain ⟨w3, hw3⟩ := hsp3
                    simp only
                    split
                    · have hk : KeepsTail trailing (scanMembers fuel depth t) := by
                        rcases tail_of_cons_eq_comma hw3 with ht | ht
                        · obtain ⟨e, he⟩ := scanMembers_trailingTail fuel depth
                          rw [ht, he]
                          exact keepsTail_error _ _
                        · exact ihM depth t ht
                      exact hk.map_kept (fun r => JSONMembers.cons key v r)
                    · split
                      · rename_i hc1 hc
                        obtain ⟨y, hy⟩ := tail_of_cons_eq hw3
                          (by intro e; subst e; revert hc; decide)
                        exact keepsTail_ok _ _ y hy
                      · exact keepsTail_error _ _

/-- The body of `EditALiveOrder` ends with the comma after `price` and what follows it. -/
theorem body_ends (quantity price : GoString) :
    ∃ x, EditALiveOrder.body quantity price = x ++ trailing := by
  have e : str "\x22,\n\t\t\t\x7d\n\t\t\x7d" = [ch '\x22'] ++ trailing := by decide
  refine ⟨str "\x7b\n\t\t\t\x22order\x22: \x7b\n\t\t\t\t\x22quantity\x22:\x22" ++ quantity
    ++ str "\x22,\n\t\t\t\t\x22price\x22:\x22" ++ price ++ [ch '\x22'], ?_⟩
  unfold EditALiveOrder.body
  rw [e]
  simp only [List.append_assoc]

theorem not_space_of_ends (rest : GoString) (h : ∃ y, rest = y ++ trailing) :
    skipSpace rest ≠ [] := by
  obtain ⟨y, hy⟩ := skipSpace_keeps h
  rw [hy, trailing_eq]
  simp

theorem Valid_of_ends (s : GoString) (hs : ∃ x, s = x ++ trailing) : Valid s = false := by
  unfold Valid
  cases h : scanValue (2 * s.length + 1) 0 s with
  | error e => rfl
  | ok a =>
    rcases a with ⟨v, rest⟩
    have hne := not_space_of_ends rest ((scan_keeps_trailing _).1 0 s hs v rest h)
    simp only
    cases hr : skipSpace rest with
    | nil => exact absurd hr hne
    | cons c t => rfl

/-! ## The request of `EditALiveOrder` -/

theorem toDigitsCore_digits : ∀ (fuel n : Nat) (ds : List Char),
    (∀ c ∈ ds, ∃ m, m < 10 ∧ c = Nat.digitChar m) →
    ∀ c ∈ Nat.toDigitsCore 10 fuel n ds, ∃ m, m < 10 ∧ c = Nat.digitChar m
  | 0, _, ds, h => by simpa [Nat.toDigitsCore] using h
  | fuel + 1, n, ds, h => by
    have h2 : ∀ c ∈ Nat.digitChar (n % 10) :: ds, ∃ m, m < 10 ∧ c = Nat.digitChar m := by
      intro c hc
      rcases List.mem_cons.mp hc with rfl | hc
      · exact ⟨n % 10, Nat.mod_lt _ (by decide), rfl⟩
      · exact h c hc
    unfold Nat.toDigitsCore
    simp only
    split
    · exact h2
    · exact toDigitsCore_digits fuel (n / 10) _ h2

theorem digit_bytes_plain (m : Nat) (hm : m < 10) :
    ∀ k ∈ String.utf8EncodeChar (Nat.digitChar m), shouldEscape k .encodePath = false := by
  interval_cases m <;> decide

theorem repr_bytes_plain (n : Nat) :
    ∀ k ∈ str (Nat.repr n), shouldEscape k .encodePath = false := by
  intro k hk
  have e : str (Nat.repr n) = (Nat.toDigits 10 n).flatMap String.utf8EncodeChar := rfl
  rw [e, List.mem_flatMap] at hk
  obtain ⟨c, hc, hkc⟩ := hk
  obtain ⟨m, hm, rfl⟩ := toDigitsCore_digits _ _ [] (by simp) c hc
  exact digit_bytes_plain m hm k hkc

theorem Itoa_plain (n : Int) : ∀ k ∈ Itoa n, shouldEscape k .encodePath = false := by
  cases n with
  | ofNat m => exact repr_bytes_plain m
  | negSucc m =>
    have e : Itoa (Int.negSucc m) = ch '-' :: str (Nat.repr (m + 1)) := rfl
    have hm : shouldEscape (ch '-') .encodePath = false := by decide
    intro k hk
    rw [e] at hk
    rcases List.mem_cons.mp hk with rfl | hk
    · exact hm
    · exact repr_bytes_plain _ k hk

theorem escape_path_plain : ∀ s : GoString,
    (∀ k ∈ s, shouldEscape k .encodePath = false) → escape s .encodePath = s
  | [], _ => rfl
  | c :: s, h => by
    have hc := h c (List.mem_cons_self _ _)
    have ih := escape_path_plain s (fun k hk => h k (List.mem_cons_of_mem _ hk))
    simp [escape, hc, ih,
      show (encoding.encodePath == encoding.encodeQueryComponent) = false from rfl]

/-- For a client whose URL is the parsed `baseUrl`, the URL of a request for an order is
`baseUrl` followed by `/orders/` and the number. -/
theorem orders_URL (c : Client) (hu : c.URL = testClient.URL) (ht : c.testServer = none)
    (orderID : Int) :
    (requestURL c (str "/orders/" ++ Itoa orderID) none).String
      = baseUrl ++ str "/orders/" ++ Itoa orderID := by
  have hs : str "/orders/" = ch '/' :: str "orders/" := by decide
  have hstar : str "*" = [ch '*'] := by decide
  have hne : ch '/' ≠ ch '*' := by decide
  have hp : ∀ k ∈ str "/orders/", shouldEscape k .encodePath = false := by decide
  have hall : ∀ k ∈ str "/orders/" ++ Itoa orderID, shouldEscape k .encodePath = false := by
    intro k hk
    rcases List.mem_append.mp hk with h | h
    · exact hp k h
    · exact Itoa_plain orderID k h
  have hesc : escapedPathOf (str "/orders/" ++ Itoa orderID) = str "/orders/" ++ Itoa orderID := by
    unfold escapedPathOf
    rw [escape_path_plain _ hall]
    simp [hs, hstar, hne]
  rw [requestURL_of_base c hu ht, base_String_eq, urlBeforeQuery, hesc]
  simp [rawQueryOf, hs]

/-- What `EditALiveOrder` returns is read off the answer of the transport to the request
built with the method `PUT`, the path of the order and the body. -/
theorem EditALiveOrder_eq (p : Platform) (c : Client) (orderID : Int)
    (quantity price : GoString) :
    EditALiveOrder p c orderID quantity price
      = (switchURL c,
          match p.Do (builtRequest p c (str "PUT") (str "/orders/" ++ Itoa orderID)
              (some (EditALiveOrder.body quantity price)) none) with
          | (none, _) => .nilDeref
          | (some _, some e) => .err e
          | (some r, none) =>
            if r.StatusCode ≠ 200 then
              match r.Body.fail with
              | some e => .err e
              | none =>
                if r.Body.data = conflictPayload then .err .LiquidAlreadyExistError
                else .err (.errorString r.Body.data)
            else
              match Decode orderShape (drainBody r.Body) with
              | .error e => .err e
              | .ok order => .ok order) := by
  unfold EditALiveOrder
  simp only [sendRequest_valid p c (str "PUT") _ _ none (by decide)]
  generalize p.Do (builtRequest p c (str "PUT") (str "/orders/" ++ Itoa orderID)
    (some (EditALiveOrder.body quantity price)) none) = d
  rcases d with ⟨_ | r, _ | e⟩
  · rfl
  · rfl
  · rcases r with ⟨code, ⟨data, fail⟩⟩
    by_cases hs : code = 200
    · subst hs
      simp only [ne_eq, not_true_eq_false, if_false, decodeBody]
      cases Decode orderShape (drainBody { data := data, fail := fail }) <;> rfl
    · cases fail with
      | some e => simp [hs]
      | none =>
        by_cases hb : data = conflictPayload
        · simp [hs, hb]
        · simp [hs, hb]
  · rfl

/-! ## Text after a value, and a text cut inside a value -/

theorem ExtendsAll.weaken {α : Type} {w : GoString} {x y : Except ScanError (α × GoString)}
    (h : ExtendsAll w x y) : Extends w x y :=
  ⟨fun v rest hx _ => h.1 v rest hx, h.2⟩

theorem extends_short {α : Type} (w : GoString) (y : Except ScanError (α × GoString)) :
    ExtendsAll w (.error .short) y :=
  ⟨fun v rest h => by simp at h, fun h => by simp at h⟩

theorem extends_fuel {α : Type} (w : GoString) (y : Except ScanError (α × GoString)) :
    ExtendsAll w (.error .fuel) y :=
  ⟨fun v rest h => by simp at h, fun h => by simp at h⟩

theorem extends_invalid {α : Type} (w : GoString) :
    ExtendsAll w (.error .invalid : Except ScanError (α × GoString)) (.error .invalid) :=
  ⟨fun v rest h => by simp at h, fun _ => rfl⟩

theorem extends_ok {α : Type} (w : GoString) (v : α) (r : GoString) :
    ExtendsAll w (.ok (v, r) : Except ScanError (α × GoString)) (.ok (v, r ++ w)) := by
  refine ⟨fun v2 rest h => ?_, fun h => by simp at h⟩
  simp only [Except.ok.injEq, Prod.mk.injEq] at h
  rw [h.1, h.2]

theorem extends_ok_nil {α : Type} (w : GoString) (v : α)
    (y : Except ScanError (α × GoString)) :
    Extends w (.ok (v, [])) y := by
  refine ⟨fun v2 rest h hr => ?_, fun h => by simp at h⟩
  simp only [Except.ok.injEq, Prod.mk.injEq] at h
  exact absurd h.2.symm hr

theorem ExtendsAll.map_value {α β : Type} {w : GoString}
    {x y : Except ScanError (α × GoString)} (f : α → β) (h : ExtendsAll w x y) :
    ExtendsAll w (x.map (fun r => (f r.1, r.2))) (y.map (fun r => (f r.1, r.2))) := by
  cases x with
  | error e =>
    cases e with
    | short => exact extends_short _ _
    | fuel => exact extends_fuel _ _
    | invalid =>
      rw [h.2 rfl]
      exact extends_invalid _
  | ok a =>
    rw [h.1 a.1 a.2 rfl]
    exact extends_ok _ _ _

theorem Extends.map_result {α β : Type} {w : GoString}
    {x y : Except ScanError (α × GoString)} (f : α → β) (h : Extends w x y) :
    Extends w (x.map (fun r => (f r.1, r.2))) (y.map (fun r => (f r.1, r.2))) := by
  cases x with
  | error e =>
    cases e with
    | short => exact (extends_short _ _).weaken
    | fuel => exact (extends_fuel _ _).weaken
    | invalid =>
      rw [h.2 rfl]
      exact (extends_invalid _).weaken
  | ok a =>
    rcases a with ⟨v, r⟩
    cases r with
    | nil => exact extends_ok_nil _ _ _
    | cons c t =>
      rw [h.1 v (c :: t) rfl (by simp)]
      exact (extends_ok _ _ _).weaken

theorem skipSpace_append_cons {s t : GoString} {c : UInt8} (w : GoString)
    (h : skipSpace s = c :: t) : skipSpace (s ++ w) = c :: (t ++ w) := by
  induction s with
  | nil => simp [skipSpace] at h
  | cons a s ih =>
    simp only [skipSpace, List.cons_append] at h ⊢
    split
    · rename_i ha
      rw [if_pos ha] at h
      exact ih h
    · rename_i ha
      rw [if_neg ha] at h
      simp only [List.cons.injEq] at h
      rw [h.1, h.2]
      rfl

theorem scanLiteral_append (w : GoString) (v : JSON) : ∀ (lit t : GoString),
    ExtendsAll w ((scanLiteral lit t).map (fun r => (v, r)))
      ((scanLiteral lit (t ++ w)).map (fun r => (v, r)))
  | [], t => by
    simp only [scanLiteral]
    exact extends_ok _ _ _
  | _ :: _, [] => by
    simp only [scanLiteral]
    exact extends_short _ _
  | l :: ls, c :: s => by
    simp only [scanLiteral, List.cons_append]
    split
    · exact scanLiteral_append w v ls s
    · exact extends_invalid _

theorem scanString_append (w : GoString) : ∀ (n : Nat) (s : GoString), s.length ≤ n →
    ExtendsAll w (scanString s) (scanString (s ++ w))
  | _, [], _ => by
    rw [scanString]
    exact extends_short _ _
  | 0, _ :: _, hn => by simp at hn
  | n + 1, c :: s, hn => by
    have hs : s.length ≤ n := by simpa using hn
    rw [List.cons_append]
    unfold scanString
    split
    · exact extends_ok _ _ _
    · split
      · cases s with
        | nil => exact extends_short _ _
        | cons e s1 =>
          simp only [List.cons_append]
          split
          · exact (scanString_append w n s1 (by simp at hs; omega)).map_value
              (fun r => c :: e :: r)
          · split
            · rcases s1 with _ | ⟨h1, _ | ⟨h2, _ | ⟨h3, _ | ⟨h4, s2⟩⟩⟩⟩
              · exact extends_short _ _
              · simp only
                split
                · exact extends_short _ _
                · rename_i hx
                  rcases w with _ | ⟨a, _ | ⟨b, _ | ⟨d, w2⟩⟩⟩ <;>
                    simp only [List.cons_append, List.nil_append, hx, Bool.false_and,
                      Bool.false_eq_true, if_false] <;>
                    exact extends_invalid _
              · simp only
                split
                · exact extends_short _ _
                · rename_i hx
                  have hx2 : (ishex h1 && ishex h2) = false := by simpa using hx
                  rcases w with _ | ⟨a, _ | ⟨b, w2⟩⟩ <;>
                    simp only [List.cons_append, List.nil_append, hx2, Bool.false_and,
                      Bool.false_eq_true, if_false] <;>
                    exact extends_invalid _
              · simp only
                split
                · exact extends_short _ _
                · rename_i hx
                  have hx2 : (ishex h1 && ishex h2 && ishex h3) = false := by simpa using hx
                  rcases w with _ | ⟨a, w2⟩ <;>
                    simp only [List.cons_append, List.nil_append, hx2, Bool.false_and,
                      Bool.false_eq_true, if_false] <;>
                    exact extends_invalid _
              · simp only [List.cons_append]
                split
                · exact (scanString_append w n s2 (by simp at hs; omega)).map_value
                    (fun r => c :: e :: h1 :: h2 :: h3 :: h4 :: r)
                · exact extends_invalid _
            · exact extends_invalid _
      · split
        · exact extends_invalid _
        · exact (scanString_append w n s hs).map_value (fun r => c :: r)

theorem spanDigits_append : ∀ (s w : GoString), (spanDigits s).2 ≠ [] →
    spanDigits (s ++ w) = ((spanDigits s).1, (spanDigits s).2 ++ w)
  | [], w, h => by simp [spanDigits] at h
  | c :: s, w, h => by
    rw [List.cons_append]
    unfold spanDigits at h ⊢
    split
    · rename_i hd
      rw [if_pos hd] at h
      rw [spanDigits_append s w h]
    · rfl

theorem exponent_match_append (sign t w : GoString) :
    Extends w
      (match spanDigits t with
        | ([], []) => (.error .short : Except ScanError (GoString × GoString))
        | ([], _ :: _) => .error .invalid
        | (ds, rest) => .ok (sign ++ ds, rest))
      (match spanDigits (t ++ w) with
        | ([], []) => (.error .short : Except ScanError (GoString × GoString))
        | ([], _ :: _) => .error .invalid
        | (ds, rest) => .ok (sign ++ ds, rest)) := by
  rcases h : spanDigits t with ⟨ds, r⟩
  cases r with
  | nil =>
    cases ds with
    | nil => exact (extends_short _ _).weaken
    | cons d ds => exact extends_ok_nil _ _ _
  | cons a r =>
    have h2 := spanDigits_append t w (by rw [h]; simp)
    rw [h] at h2
    rw [h2]
    cases ds with
    | nil => exact (extends_invalid _).weaken
    | cons d ds => exact (extends_ok _ _ _).weaken

theorem scanExponent_append (w : GoString) (s : GoString) :
    Extends w (scanExponent s) (scanExponent (s ++ w)) := by
  cases s with
  | nil =>
    have h : scanExponent [] = .error .short := rfl
    rw [h]
    exact (extends_short _ _).weaken
  | cons c t =>
    rw [List.cons_append]
    unfold scanExponent
    by_cases hc : (c == ch '+' || c == ch '-') = true
    · simp only [hc, if_true]
      exact exponent_match_append [c] t w
    · simp only [hc, if_false]
      exact exponent_match_append [] (c :: t) w

theorem scanFraction_append (w : GoString) (s : GoString) :
    Extends w (scanFraction s) (scanFraction (s ++ w)) := by
  cases s with
  | nil =>
    have h : scanFraction [] = .ok ([], []) := rfl
    rw [h]
    exact extends_ok_nil _ _ _
  | cons c t =>
    rw [List.cons_append]
    unfold scanFraction
    simp only
    split
    · rcases h : spanDigits t with ⟨ds, r⟩
      cases r with
      | nil =>
        cases ds with
        | nil => exact (extends_short _ _).weaken
        | cons d ds => exact extends_ok_nil _ _ _
      | cons e u =>
        have h2 := spanDigits_append t w (by rw [h]; simp)
        rw [h] at h2
        rw [h2]
        cases ds with
        | nil => exact (extends_invalid _).weaken
        | cons d ds =>
          simp only [List.cons_append]
          split
          · exact (scanExponent_append w u).map_result (fun r => c :: (d :: ds) ++ e :: r)
          · exact (extends_ok _ _ _).weaken
    · split
      · exact (scanExponent_append w t).map_result (fun r => c :: r)
      · exact (extends_ok _ _ _).weaken

theorem scanNumber_append (w : GoString) (c : UInt8) (s : GoString) :
    Extends w (scanNumber c s) (scanNumber c (s ++ w)) := by
  unfold scanNumber
  split
  · exact (scanFraction_append w s).map_result (fun r => c :: r)
  · split
    · rcases h : spanDigits s with ⟨ds, r⟩
      cases r with
      | nil =>
        have h0 : scanFraction [] = .ok ([], []) := rfl
        simp only [h0, Except.map]
        exact extends_ok_nil _ _ _
      | cons a r =>
        have h2 := spanDigits_append s w (by rw [h]; simp)
        rw [h] at h2
        rw [h2]
        exact (scanFraction_append w (a :: r)).map_result (fun r => c :: ds ++ r)
    · exact (extends_invalid _).weaken

theorem ExtendsAll.toValue {w : GoString} {x y : Except ScanError (JSON × GoString)}
    (h : ExtendsAll w x y) : ExtendsValue w x y :=
  ⟨fun v rest hx _ => h.1 v rest hx, h.2⟩

theorem Extends.toValue_number {w : GoString} {x y : Except ScanError (GoString × GoString)}
    (f : GoString → GoString) (h : Extends w x y) :
    ExtendsValue w (x.map (fun r => (JSON.number (f r.1), r.2)))
      (y.map (fun r => (JSON.number (f r.1), r.2))) := by
  have hm := h.map_result (fun r => JSON.number (f r))
  refine ⟨fun v rest hx hor => ?_, hm.2⟩
  rcases hor with hr | hn
  · exact hm.1 v rest hx hr
  · cases x with
    | error e => simp [Except.map] at hx
    | ok a =>
      simp only [Except.map, Except.ok.injEq, Prod.mk.injEq] at hx
      exact absurd hx.1.symm (hn _)

theorem skipSpace_ne_nil {s t : GoString} {c : UInt8} (h : skipSpace s = c :: t) : s ≠ [] := by
  intro e
  rw [e] at h
  simp [skipSpace] at h

/-- Text appended to a text does not change what the scanner made of the text, whatever
the step bound, as long as that is not smaller. -/
theorem scan_append (w : GoString) : ∀ fuel : Nat,
    (∀ depth s fuel2, fuel ≤ fuel2 →
      ExtendsValue w (scanValue fuel depth s) (scanValue fuel2 depth (s ++ w))) ∧
    (∀ depth s fuel2, fuel ≤ fuel2 →
      ExtendsAll w (scanElements fuel depth s) (scanElements fuel2 depth (s ++ w))) ∧
    (∀ depth s fuel2, fuel ≤ fuel2 →
      ExtendsAll w (scanMembers fuel depth s) (scanMembers fuel2 depth (s ++ w)))
  | 0 =>
    ⟨fun _ _ _ _ => by unfold scanValue; exact (extends_fuel _ _).toValue,
     fun _ _ _ _ => by unfold scanElements; exact extends_fuel _ _,
     fun _ _ _ _ => by unfold scanMembers; exact extends_fuel _ _⟩
  | fuel + 1 => by
    obtain ⟨ihV, ihE, ihM⟩ := scan_append w fuel
    refine ⟨?_, ?_, ?_⟩
    · intro depth s fuel2 hle
      cases fuel2 with
      | zero => omega
      | succ f2 =>
        have hf : fuel ≤ f2 := by omega
        unfold scanValue
        cases hsk : skipSpace s with
        | nil => exact (extends_short _ _).toValue
        | cons c t =>
          rw [skipSpace_append_cons w hsk]
          simp only
          split
          · split
            · exact (extends_invalid _).toValue
            · cases hsk2 : skipSpace t with
              | nil => exact (extends_short _ _).toValue
              | cons d u =>
                rw [skipSpace_append_cons w hsk2]
                simp only
                split
                · exact (extends_ok _ _ _).toValue
                · exact ((ihM (depth + 1) (d :: u) f2 hf).map_value JSON.object).toValue
          · split
            · split
              · exact (extends_invalid _).toValue
              · cases hsk2 : skipSpace t with
                | nil => exact (extends_short _ _).toValue
                | cons d u =>
                  rw [skipSpace_append_cons w hsk2]
                  simp only
                  split
                  · exact (extends_ok _ _ _).toValue
                  · exact ((ihE (depth + 1) (d :: u) f2 hf).map_value JSON.array).toValue
            · split
              · exact ((scanString_append w _ t (Nat.le_refl _)).map_value
                  JSON.string).toValue
              · split
                · cases t with
                  | nil => exact (extends_short _ _).toValue
                  | cons d u =>
                    simp only [List.cons_append]
                    exact (scanNumber_append w d u).toValue_number (fun r => c :: r)
                · split
                  · exact (scanNumber_append w c t).toValue_number (fun r => r)
                  · split
                    · exact (scanLiteral_append w _ _ t).toValue
                    · split
                      · exact (scanLiteral_append w _ _ t).toValue
                      · split
                        · exact (scanLiteral_append w _ _ t).toValue
                        · exact (extends_invalid _).toValue
    · intro depth s fuel2 hle
      cases fuel2 with
      | zero => omega
      | succ f2 =>
        have hf : fuel ≤ f2 := by omega
        unfold scanElements
        have hv := ihV depth s f2 hf
        cases hsv : scanValue fuel depth s with
        | error e =>
          rw [hsv] at hv
          cases e with
          | short => exact extends_short _ _
          | fuel => exact extends_fuel _ _
          | invalid =>
            rw [hv.2 rfl]
            exact extends_invalid _
        | ok a =>
          rcases a with ⟨x, rest⟩
          rw [hsv] at hv
          simp only
          cases hsk : skipSpace rest with
          | nil => exact extends_short _ _
          | cons c t =>
            rw [hv.1 x rest rfl (Or.inl (skipSpace_ne_nil hsk))]
            simp only
            rw [skipSpace_append_cons w hsk]
            simp only
            split
            · exact (ihE depth t f2 hf).map_value (fun r => JSONList.cons x r)
            · split
              · exact extends_ok _ _ _
              · exact extends_invalid _
    · intro depth s fuel2 hle
      cases fuel2 with
      | zero => omega
      | succ f2 =>
        have hf : fuel ≤ f2 := by omega
        unfold scanMembers
        cases hsk : skipSpace s with
        | nil => exact extends_short _ _
        | cons q s1 =>
          rw [skipSpace_append_cons w hsk]
          simp only
          split
          · exact extends_invalid _
          · have hstr := scanString_append w _ s1 (Nat.le_refl _)
            cases hss : scanString s1 with
            | error e =>
              rw [hss] at hstr
              cases e with
              | short => exact extends_short _ _
              | fuel => exact extends_fuel _ _
              | invalid =>
                rw [hstr.2 rfl]
                exact extends_invalid _
            | ok a =>
              rcases a with ⟨key, s2⟩
              rw [hss] at hstr
              rw [hstr.1 key s2 rfl]
              simp only
              cases hsk2 : skipSpace s2 with
              | nil => exact extends_short _ _
              | cons colon s3 =>
                rw [skipSpace_append_cons w hsk2]
                simp only
                split
                · exact extends_invalid _
                · have hv := ihV depth s3 f2 hf
                  cases hsv : scanValue fuel depth s3 with
                  | error e =>
                    rw [hsv] at hv
                    cases e with
                    | short => exact extends_short _ _
                    | fuel => exact extends_fuel _ _
                    | invalid =>
                      rw [hv.2 rfl]
                      exact extends_invalid _
                  | ok b =>
                    rcases b with ⟨v, s4⟩
                    rw [hsv] at hv
                    simp only
                    cases hsk3 : skipSpace s4 with
                    | nil => exact extends_short _ _
                    | cons c t =>
                      rw [hv.1 v s4 rfl (Or.inl (skipSpace_ne_nil hsk3))]
                      simp only
                      rw [skipSpace_append_cons w hsk3]
                      simp only
                      split
                      · exact (ihM depth t f2 hf).map_value
                          (fun r => JSONMembers.cons key v r)
                      · split
                        · exact extends_ok _ _ _
                        · exact extends_invalid _

theorem map_ok_value {α β : Type} (f : α → β) {x : Except ScanError (α × GoString)}
    {v : β} {rest : GoString} (h : x.map (fun r => (f r.1, r.2)) = .ok (v, rest)) :
    ∃ a, v = f a := by
  cases x with
  | error e => simp [Except.map] at h
  | ok a =>
    simp only [Except.map, Except.ok.injEq, Prod.mk.injEq] at h
    exact ⟨a.1, h.1.symm⟩

theorem map_ok_const {β : Type} (b : β) {x : Except ScanError GoString}
    {v : β} {rest : GoString} (h : x.map (fun r => (b, r)) = .ok (v, rest)) : v = b := by
  cases x with
  | error e => simp [Except.map] at h
  | ok a =>
    simp only [Except.map, Except.ok.injEq, Prod.mk.injEq] at h
    exact h.1.symm

/-- The first byte of a value says whether it is a number. -/
theorem scanValue_kind (fuel depth : Nat) (s : GoString) (v : JSON) (r : GoString)
    (h : scanValue fuel depth s = .ok (v, r)) :
    ∃ c t, skipSpace s = c :: t ∧
      ((c == ch '-' || (ch '0' ≤ c && c ≤ ch '9')) = true ↔ ∃ lit, v = .number lit) := by
  cases fuel with
  | zero =>
    unfold scanValue at h
    simp at h
  | succ n =>
    unfold scanValue at h
    cases hsk : skipSpace s with
    | nil =>
      rw [hsk] at h
      simp at h
    | cons c t =>
      rw [hsk] at h
      simp only at h
      refine ⟨c, t, rfl, ?_⟩
      split at h
      · rename_i hc
        have hcc : (c == ch '-' || (ch '0' ≤ c && c ≤ ch '9')) = false := by
          have e : c = ch '\x7b' := by simpa using hc
          subst e
          decide
        have hv : ∃ m, v = .object m := by
          split at h
          · simp at h
          · split at h
            · simp at h
            · split at h
              · simp only [Except.ok.injEq, Prod.mk.injEq] at h
                exact ⟨_, h.1.symm⟩
              · exact map_ok_value JSON.object h
        obtain ⟨m, rfl⟩ := hv
        simp [hcc]
      · split at h
        · rename_i hc
          have hcc : (c == ch '-' || (ch '0' ≤ c && c ≤ ch '9')) = false := by
            have e : c = ch '[' := by simpa using hc
            subst e
            decide
          have hv : ∃ m, v = .array m := by
            split at h
            · simp at h
            · split at h
              · simp at h
              · split at h
                · simp only [Except.ok.injEq, Prod.mk.injEq] at h
                  exact ⟨_, h.1.symm⟩
                · exact map_ok_value JSON.array h
          obtain ⟨m, rfl⟩ := hv
          simp [hcc]
        · split at h
          · rename_i hc
            have hcc : (c == ch '-' || (ch '0' ≤ c && c ≤ ch '9')) = false := by
              have e : c = ch '\x22' := by simpa using hc
              subst e
              decide
            obtain ⟨m, rfl⟩ := map_ok_value JSON.string h
            simp [hcc]
          · split at h
            · rename_i hc
              have hv : ∃ lit, v = .number lit := by
                cases t with
                | nil => simp at h
                | cons d u =>
                  simp only at h
                  obtain ⟨a, ha⟩ := map_ok_value (fun r => JSON.number (c :: r)) h
                  exact ⟨_, ha⟩
              simp [hc, hv]
            · split at h
              · rename_i hc1 hc
                obtain ⟨a, ha⟩ := map_ok_value JSON.number h
                have hv : ∃ lit, v = .number lit := ⟨a, ha⟩
                simp only [hc, Bool.or_true, true_iff]
                exact hv
              · rename_i hm hd
                have hcc : (c == ch '-' || (ch '0' ≤ c && c ≤ ch '9')) = false := by
                  simp only [Bool.not_eq_true] at hm hd
                  simp [hm, hd]
                split at h
                · have hv := map_ok_const _ h
                  subst hv
                  simp [hcc]
                · split at h
                  · have hv := map_ok_const _ h
                    subst hv
                    simp [hcc]
                  · split at h
                    · have hv := map_ok_const _ h
                      subst hv
                      simp [hcc]
                    · simp at h

/-- A text that holds a complete value, and bytes after it unless the value is a number,
is read as that value whatever is appended to it. -/
theorem readValue_append (s w : GoString) (f : Option GoError) (v : JSON) (rest : GoString)
    (h : scanValue (2 * s.length + 1) 0 s = .ok (v, rest))
    (hst : rest ≠ [] ∨ ∀ lit, v ≠ .number lit) :
    readValue { data := s ++ w, fail := f } = .ok v := by
  have h2 := ((scan_append w _).1 0 s (2 * (s ++ w).length + 1)
    (by simp only [List.length_append]; omega)).1 v rest h hst
  simp only [readValue, h2]

/-- A text that is cut inside its first value, which is not a number, ends inside that
value for the scanner. -/
theorem scanValue_cut (s w : GoString) (v : JSON) (rest : GoString)
    (h : scanValue (2 * (s ++ w).length + 1) 0 (s ++ w) = .ok (v, rest))
    (hn : ∀ lit, v ≠ .number lit) (hcut : rest.length < w.length) :
    scanValue (2 * s.length + 1) 0 s = .error .short := by
  have hle : 2 * s.length + 1 ≤ 2 * (s ++ w).length + 1 := by
    simp only [List.length_append]
    omega
  have hx := (scan_append w (2 * s.length + 1)).1 0 s _ hle
  have hb := (scan_below (2 * s.length + 1)).1 0 s (Nat.le_refl _)
  cases hsv : scanValue (2 * s.length + 1) 0 s with
  | error e =>
    cases e with
    | short => rfl
    | fuel => exact absurd hsv hb.1
    | invalid =>
      rw [hsv] at hx
      rw [hx.2 rfl] at h
      simp at h
  | ok a =>
    rcases a with ⟨v2, r2⟩
    rw [hsv] at hx
    by_cases hst : r2 ≠ [] ∨ ∀ lit, v2 ≠ .number lit
    · rw [hx.1 v2 r2 rfl hst] at h
      simp only [Except.ok.injEq, Prod.mk.injEq] at h
      rw [← h.2] at hcut
      simp only [List.length_append] at hcut
      omega
    · simp only [not_or, not_forall, not_not] at hst
      obtain ⟨_, lit, hlit⟩ := hst
      obtain ⟨c, t, hsk, hiff⟩ := scanValue_kind _ _ _ _ _ hsv
      obtain ⟨c2, t2, hsk2, hiff2⟩ := scanValue_kind _ _ _ _ _ h
      rw [skipSpace_append_cons w hsk] at hsk2
      simp only [List.cons.injEq] at hsk2
      rw [← hsk2.1] at hiff2
      obtain ⟨lit2, hl2⟩ := hiff2.mp (hiff.mpr ⟨lit, hlit⟩)
      exact absurd hl2 (hn lit2)

theorem readValue_cut (s w : GoString) (v : JSON) (rest : GoString)
    (h : scanValue (2 * (s ++ w).length + 1) 0 (s ++ w) = .ok (v, rest))
    (hn : ∀ lit, v ≠ .number lit) (hcut : rest.length < w.length)
    (hs : s.all isSpace = false) :
    readValue { data := s, fail := none } = .error .ErrUnexpectedEOF := by
  simp only [readValue, scanValue_cut s w v rest h hn hcut, hs]
  rfl

/-- The text `{"id":7}` cut after its colon ends inside its value. -/
theorem readValue_cut_id :
    readValue { data := str "\x7b\x22id\x22:", fail := none } = .error .ErrUnexpectedEOF :=
  readValue_cut (str "\x7b\x22id\x22:") (str "7\x7d")
    (.object (.cons (str "id") (.number (str "7")) .nil)) [] rfl (by simp) (by decide)
    (by decide)

/-- The text `{}` is read as the empty object with any text after it. -/
theorem readValue_append_empty_object (w : GoString) (f : Option GoError) :
    readValue { data := str "\x7b\x7d" ++ w, fail := f } = .ok (.object .nil) :=
  readValue_append (str "\x7b\x7d") w f (.object .nil) [] rfl (Or.inr (by simp))

/-! ## Construction -/

/-- C1: when `apiTokenID` or `apiSecret` is empty, `NewClient` returns no client and an
error, whose message is "apiTokenID is not set" when `apiTokenID` is empty (whatever
`apiSecret` is) and "apiSecret is not set" when only `apiSecret` is empty. -/
theorem NewClient_empty_credential (apiTokenID apiSecret : GoString) (logger : Option Logger)
    (h : apiTokenID = [] ∨ apiSecret = []) :
    ∃ e, NewClient apiTokenID apiSecret logger = .err e ∧
      (apiTokenID = [] → e.Error = some (str "apiTokenID is not set")) ∧
      (apiTokenID ≠ [] → e.Error = some (str "apiSecret is not set")) := by
  by_cases ht : apiTokenID = []
  · subst ht
    exact ⟨_, rfl, fun _ => rfl, fun hne => absurd rfl hne⟩
  · have hs : apiSecret = [] := h.resolve_left ht
    subst hs
    have hlen : (apiTokenID.length == 0) = false := by
      cases apiTokenID with
      | nil => exact absurd rfl ht
      | cons a t => rfl
    refine ⟨.errorString (str "apiSecret is not set"), ?_, fun h0 => absurd h0 ht, fun _ => rfl⟩
    simp [NewClient, hlen]

theorem NewClient_empty_credential_witness :
    ∃ e, NewClient [] (str "secret") none = .err e ∧
      (([] : GoString) = [] → e.Error = some (str "apiTokenID is not set")) ∧
      (([] : GoString) ≠ [] → e.Error = some (str "apiSecret is not set")) :=
  NewClient_empty_credential [] (str "secret") none (Or.inl rfl)

/-! ## The signed path, the query string and the URL -/

/-- C2 (the code at the failing inputs): for the path `product/1` of the package test the
request is sent to `/product/1` while the claim `path` of its token is `product/1`; for the
path `/ir_ladders/U SD`, which `GetInterestRates(ctx, "U SD")` builds, the request is sent
to `/ir_ladders/U%20SD` while the claim `path` is `/ir_ladders/U SD`. -/
theorem newRequest_path_claim_differs (p : Platform) :
    (newRequest p testClient (str "GET") (str "product/1") none none).2
      = .ok (builtRequest p testClient (str "GET") (str "product/1") none none) ∧
    pathAndQuery (builtRequest p testClient (str "GET") (str "product/1") none none).URL
      = str "/product/1" ∧
    claim (requestToken p testClient (str "product/1") none).Claims "path"
      = some (.string (str "product/1")) ∧
    (newRequest p testClient (str "GET") (str "/ir_ladders/U SD") none none).2
      = .ok (builtRequest p testClient (str "GET") (str "/ir_ladders/U SD") none none) ∧
    pathAndQuery (builtRequest p testClient (str "GET") (str "/ir_ladders/U SD") none none).URL
      = str "/ir_ladders/U%20SD" ∧
    claim (requestToken p testClient (str "/ir_ladders/U SD") none).Claims "path"
      = some (.string (str "/ir_ladders/U SD")) := by
  refine ⟨?_, ?_, ?_, ?_, ?_, ?_⟩
  · rw [newRequest_valid p testClient (str "GET") _ none none (by decide)]
  · show pathAndQuery (requestURL testClient (str "product/1") none).String = _
    decide
  · show claim [(str "path", ClaimValue.string (signedPath testClient (str "product/1") none)),
      (str "nonce", ClaimValue.int64 p.now),
      (str "token_id", ClaimValue.string (switchURL testClient).ApiTokenID)] "path" = _
    have h1 : (str "path" == str "path") = true := by decide
    have h2 : signedPath testClient (str "product/1") none = str "product/1" := by decide
    simp [claim, List.find?, h1, h2]
  · rw [newRequest_valid p testClient (str "GET") _ none none (by decide)]
  · show pathAndQuery (requestURL testClient (str "/ir_ladders/U SD") none).String = _
    decide
  · show claim [(str "path",
        ClaimValue.string (signedPath testClient (str "/ir_ladders/U SD") none)),
      (str "nonce", ClaimValue.int64 p.now),
      (str "token_id", ClaimValue.string (switchURL testClient).ApiTokenID)] "path" = _
    have h1 : (str "path" == str "path") = true := by decide
    have h2 : signedPath testClient (str "/ir_ladders/U SD") none = str "/ir_ladders/U SD" := by
      decide
    simp [claim, List.find?, h1, h2]

/-- C3: for a client made by `NewClient` and a query-parameter map (its entries `m` in any
iteration order, keys distinct), the query string of the request `newRequest` builds is the
entries with a non-empty value in ascending order of their keys, each written `key=value`
in escaped form, joined by `&`; another iteration order `m'` gives the same result; and for
the map of the package test on path `product/1` it is `limit=1&page=1&product_id=1`. -/
theorem newRequest_query_sorted (p : Platform) (apiTokenID apiSecret : GoString)
    (logger : Option Logger) (c : Client) (method spath : GoString) (body : Option GoString)
    (m m' : List (GoString × GoString))
    (hc : NewClient apiTokenID apiSecret logger = .ok c) (hm : validMethod method = true)
    (hk : (m.map Prod.fst).Nodup) (hp : m'.Perm m) :
    (∃ req, (newRequest p c method spath body (some m)).2 = .ok req ∧
      queryOf req.URL = sortedQuery m) ∧
    ((sentPairs m).map Prod.fst).Sorted (fun a b => strLe a b = true) ∧
    (sentPairs m).Perm (m.filter (fun kv => kv.2 ≠ [])) ∧
    newRequest p c method spath body (some m') = newRequest p c method spath body (some m) ∧
    (∃ req, (newRequest p c (str "GET") (str "product/1") none
        (some [(str "product_id", str "1"), (str "limit", str "1"), (str "page", str "1")])).2
          = .ok req ∧
      queryOf req.URL = str "limit=1&page=1&product_id=1") := by
  obtain ⟨hu, ht, _, _⟩ := NewClient_ok apiTokenID apiSecret logger c hc
  refine ⟨?_, ?_, ?_, ?_, ?_⟩
  · obtain ⟨h1, _, h3⟩ :=
      newRequest_of_NewClient p apiTokenID apiSecret logger c method spath body (some m) hc hm
    refine ⟨_, h1, ?_⟩
    rw [h3, queryOf_base]
    exact encode_setQueryParams m hk
  · rw [sentPairs_keys]
    exact sortStrings_sorted _
  · exact List.perm_insertionSort _ _
  · have hq : requestURL c spath (some m') = requestURL c spath (some m) := by
      rw [requestURL_of_base c hu ht, requestURL_of_base c hu ht, rawQueryOf_perm m m' hk hp]
    rw [newRequest_valid p c method spath body _ (validMethod_ite method hm),
      newRequest_valid p c method spath body _ (validMethod_ite method hm)]
    simp only [builtRequest, requestToken, signedPath, hq]
  · obtain ⟨h1, _, h3⟩ :=
      newRequest_of_NewClient p apiTokenID apiSecret logger c (str "GET") (str "product/1") none
        (some [(str "product_id", str "1"), (str "limit", str "1"), (str "page", str "1")])
        hc (by decide)
    refine ⟨_, h1, ?_⟩
    rw [h3, queryOf_base]
    decide

theorem newRequest_query_sorted_witness :
    (NewClient (str "apiTokenID") (str "secret") none = .ok testClient ∧
      validMethod (str "GET") = true ∧
      ([(str "status", str "live"), (str "product_id", str "1")].map Prod.fst).Nodup ∧
      [(str "product_id", str "1"), (str "status", str "live")].Perm
        [(str "status", str "live"), (str "product_id", str "1")]) ∧
    ((∃ req, (newRequest (fixedPlatform (none, none)) testClient (str "GET") (str "/orders")
          none (some [(str "status", str "live"), (str "product_id", str "1")])).2 = .ok req ∧
        queryOf req.URL = sortedQuery [(str "status", str "live"), (str "product_id", str "1")]) ∧
      ((sentPairs [(str "status", str "live"), (str "product_id", str "1")]).map Prod.fst).Sorted
        (fun a b => strLe a b = true) ∧
      (sentPairs [(str "status", str "live"), (str "product_id", str "1")]).Perm
        ([(str "status", str "live"), (str "product_id", str "1")].filter
          (fun kv => kv.2 ≠ [])) ∧
      newRequest (fixedPlatform (none, none)) testClient (str "GET") (str "/orders") none
          (some [(str "product_id", str "1"), (str "status", str "live")])
        = newRequest (fixedPlatform (none, none)) testClient (str "GET") (str "/orders") none
          (some [(str "status", str "live"), (str "product_id", str "1")]) ∧
      (∃ req, (newRequest (fixedPlatform (none, none)) testClient (str "GET") (str "product/1")
          none (some [(str "product_id", str "1"), (str "limit", str "1"),
            (str "page", str "1")])).2 = .ok req ∧
        queryOf req.URL = str "limit=1&page=1&product_id=1")) :=
  ⟨⟨by decide, by decide, by decide, List.Perm.swap _ _ _⟩,
    newRequest_query_sorted (fixedPlatform (none, none)) (str "apiTokenID") (str "secret") none
      testClient (str "GET") (str "/orders") none
      [(str "status", str "live"), (str "product_id", str "1")]
      [(str "product_id", str "1"), (str "status", str "live")]
      (by decide) (by decide) (by decide) (List.Perm.swap _ _ _)⟩

/-- C4: for a client made by `NewClient`, a key of the query-parameter map (keys distinct)
is among the pairs written into the query string of the request exactly when its value in
the map is non-empty, and then it is written once, with that value; without a map, or when
every value is empty, the URL of the request has no `?` and no query string, and the claim
`path` of the token is the path as given. -/
theorem newRequest_query_nonempty_values (p : Platform) (apiTokenID apiSecret : GoString)
    (logger : Option Logger) (c : Client) (method spath : GoString) (body : Option GoString)
    (queryParam : Option (List (GoString × GoString)))
    (hc : NewClient apiTokenID apiSecret logger = .ok c) (hm : validMethod method = true) :
    (∀ m, queryParam = some m → (m.map Prod.fst).Nodup →
      ∃ req, (newRequest p c method spath body queryParam).2 = .ok req ∧
        queryOf req.URL = sortedQuery m ∧
        ((sentPairs m).map Prod.fst).Nodup ∧
        ∀ k v, (k, v) ∈ sentPairs m ↔ ((k, v) ∈ m ∧ v ≠ [])) ∧
    ((queryParam = none ∨ ∃ m, queryParam = some m ∧ ∀ kv ∈ m, kv.2 = []) →
      ∃ req, (newRequest p c method spath body queryParam).2 = .ok req ∧
        ch '?' ∉ req.URL ∧ queryOf req.URL = [] ∧
        claim (requestToken p c spath queryParam).Claims "path" = some (.string spath)) := by
  obtain ⟨hu, ht, _, _⟩ := NewClient_ok apiTokenID apiSecret logger c hc
  obtain ⟨h1, _, h3⟩ :=
    newRequest_of_NewClient p apiTokenID apiSecret logger c method spath body queryParam hc hm
  refine ⟨?_, ?_⟩
  · intro m hq hk
    subst hq
    refine ⟨_, h1, ?_, ?_, sentPairs_mem m⟩
    · rw [h3, queryOf_base]
      exact encode_setQueryParams m hk
    · rw [sentPairs_keys]
      exact (List.perm_insertionSort _ _).nodup_iff.mpr (filter_keys_nodup m hk)
  · intro hq
    have hrq : rawQueryOf queryParam = [] := by
      rcases hq with hq | ⟨m, hq, hall⟩
      · subst hq; rfl
      · subst hq
        simp only [rawQueryOf, setQueryParams_all_empty m hall]
        rfl
    refine ⟨_, h1, ?_, ?_, ?_⟩
    · rw [h3, base_String_eq, hrq]
      simpa using urlBeforeQuery_no_question spath
    · rw [h3, queryOf_base, hrq]
    · rw [claim_path, signedPath_of_base c hu ht, hrq]
      simp

theorem newRequest_query_nonempty_values_witness :
    (NewClient (str "apiTokenID") (str "secret") none = .ok testClient ∧
      validMethod (str "GET") = true) ∧
    ((∀ m, some [(str "funding_currency", ([] : GoString)), (str "status", str "live")] = some m →
        (m.map Prod.fst).Nodup →
        ∃ req, (newRequest (fixedPlatform (none, none)) testClient (str "GET") (str "/orders")
            none (some [(str "funding_currency", []), (str "status", str "live")])).2 = .ok req ∧
          queryOf req.URL = sortedQuery m ∧
          ((sentPairs m).map Prod.fst).Nodup ∧
          ∀ k v, (k, v) ∈ sentPairs m ↔ ((k, v) ∈ m ∧ v ≠ [])) ∧
      ((some [(str "funding_currency", ([] : GoString)), (str "status", str "live")] = none ∨
          ∃ m, some [(str "funding_currency", ([] : GoString)), (str "status", str "live")]
            = some m ∧ ∀ kv ∈ m, kv.2 = []) →
        ∃ req, (newRequest (fixedPlatform (none, none)) testClient (str "GET") (str "/orders")
            none (some [(str "funding_currency", []), (str "status", str "live")])).2 = .ok req ∧
          ch '?' ∉ req.URL ∧ queryOf req.URL = [] ∧
          claim (requestToken (fixedPlatform (none, none)) testClient (str "/orders")
            (some [(str "funding_currency", []), (str "status", str "live")])).Claims "path"
              = some (.string (str "/orders")))) :=
  ⟨⟨by decide, by decide⟩,
    newRequest_query_nonempty_values (fixedPlatform (none, none)) (str "apiTokenID")
      (str "secret") none testClient (str "GET") (str "/orders") none
      (some [(str "funding_currency", []), (str "status", str "live")]) (by decide) (by decide)⟩

/-- The URL of a request on a client made by `NewClient`: the constant `baseUrl`, then a
`/` when the path is not empty and does not begin with one, then the path in escaped form,
then `?` and the encoded query when that is not empty; for `GET` and `product/1` it is
`baseUrl` followed by `/product/1`, and with the query parameters of the package test by
`/product/1?limit=1&page=1&product_id=1`. -/
theorem newRequest_url_of_base (p : Platform) (apiTokenID apiSecret : GoString)
    (logger : Option Logger) (c : Client) (method spath : GoString) (body : Option GoString)
    (queryParam : Option (List (GoString × GoString)))
    (hc : NewClient apiTokenID apiSecret logger = .ok c) (hm : validMethod method = true) :
    (∃ req, (newRequest p c method spath body queryParam).2 = .ok req ∧ req.Method = method ∧
      req.URL = baseUrl
        ++ (if spath ≠ [] ∧ spath.head? ≠ some (ch '/') then str "/" else [])
        ++ escapedPathOf spath
        ++ (if rawQueryOf queryParam ≠ [] then str "?" ++ rawQueryOf queryParam else [])) ∧
    (∃ req, (newRequest p c (str "GET") (str "product/1") none none).2 = .ok req ∧
      req.Method = str "GET" ∧ req.URL = baseUrl ++ str "/product/1") ∧
    (∃ req, (newRequest p c (str "GET") (str "product/1") none
        (some [(str "product_id", str "1"), (str "limit", str "1"), (str "page", str "1")])).2
          = .ok req ∧
      req.Method = str "GET" ∧
      req.URL = baseUrl ++ str "/product/1?limit=1&page=1&product_id=1") := by
  refine ⟨?_, ?_, ?_⟩
  · obtain ⟨h1, h2, h3⟩ :=
      newRequest_of_NewClient p apiTokenID apiSecret logger c method spath body queryParam hc hm
    refine ⟨_, h1, h2, ?_⟩
    rw [h3, base_String_eq, urlBeforeQuery]
  · obtain ⟨h1, h2, h3⟩ :=
      newRequest_of_NewClient p apiTokenID apiSecret logger c (str "GET") (str "product/1") none
        none hc (by decide)
    refine ⟨_, h1, h2, ?_⟩
    rw [h3]
    decide
  · obtain ⟨h1, h2, h3⟩ :=
      newRequest_of_NewClient p apiTokenID apiSecret logger c (str "GET") (str "product/1") none
        (some [(str "product_id", str "1"), (str "limit", str "1"), (str "page", str "1")])
        hc (by decide)
    refine ⟨_, h1, h2, ?_⟩
    rw [h3]
    decide

/-- C5 (the code at the failing input): for the client `NewClient("apiTokenID", "secret", nil)`
and the two calls of the package test `TestNewRequest`, whatever the surroundings,
`newRequest` returns a request with the method `GET` whose URL is
`https://api.liquid.com/product/1`, and with the query parameters of the test
`https://api.liquid.com/product/1?limit=1&page=1&product_id=1`: the host is that of the
constant `baseUrl`, not the host `api.quoine.com` of the URLs that the test expects. -/
theorem newRequest_url_host_differs (p : Platform) :
    NewClient (str "apiTokenID") (str "secret") none = .ok testClient ∧
    baseUrl = str "https://api.liquid.com" ∧
    (∃ req, (newRequest p testClient (str "GET") (str "product/1") none none).2 = .ok req ∧
      req.Method = str "GET" ∧
      req.URL = str "https://api.liquid.com/product/1" ∧
      req.URL ≠ str "https://api.quoine.com/product/1") ∧
    (∃ req, (newRequest p testClient (str "GET") (str "product/1") none
        (some [(str "product_id", str "1"), (str "limit", str "1"), (str "page", str "1")])).2
          = .ok req ∧
      req.Method = str "GET" ∧
      req.URL = str "https://api.liquid.com/product/1?limit=1&page=1&product_id=1" ∧
      req.URL ≠ str "https://api.quoine.com/product/1?limit=1&page=1&product_id=1") := by
  have hc : NewClient (str "apiTokenID") (str "secret") none = .ok testClient := by decide
  have hm : validMethod (str "GET") = true := by decide
  have e1 : baseUrl ++ str "/product/1" = str "https://api.liquid.com/product/1" := by decide
  have e2 : baseUrl ++ str "/product/1?limit=1&page=1&product_id=1"
      = str "https://api.liquid.com/product/1?limit=1&page=1&product_id=1" := by decide
  have n1 : str "https://api.liquid.com/product/1" ≠ str "https://api.quoine.com/product/1" := by
    decide
  have n2 : str "https://api.liquid.com/product/1?limit=1&page=1&product_id=1"
      ≠ str "https://api.quoine.com/product/1?limit=1&page=1&product_id=1" := by decide
  obtain ⟨_, ⟨r1, h1, m1, u1⟩, ⟨r2, h2, m2, u2⟩⟩ :=
    newRequest_url_of_base p (str "apiTokenID") (str "secret") none testClient (str "GET")
      (str "product/1") none none hc hm
  rw [e1] at u1
  rw [e2] at u2
  exact ⟨hc, by decide, ⟨r1, h1, m1, u1, by rw [u1]; exact n1⟩,
    ⟨r2, h2, m2, u2, by rw [u2]; exact n2⟩⟩

/-! ## Dispatch -/

/-- C6: for a response that the transport returns without error, `sendRequest` returns a
response and a nil error exactly when the status code is 200, and the response returned is
that one (with its body as the log call left it, which is the body itself when it reads
to EOF); for every other status code it returns no response and an error. -/
theorem sendRequest_ok_iff_200 (p : Platform) (c : Client) (method spath : GoString)
    (body : Option GoString) (queryParam : Option (List (GoString × GoString))) (r : Response)
    (hm : validMethod method = true)
    (hdo : p.Do (builtRequest p c method spath body queryParam) = (some r, none)) :
    ((∃ res, (sendRequest p c method spath body queryParam).2 = .ok res) ↔ r.StatusCode = 200) ∧
    (r.StatusCode = 200 →
      (sendRequest p c method spath body queryParam).2
        = .ok { r with Body := drainBody r.Body }) ∧
    (r.Body.fail = none → ({ r with Body := drainBody r.Body } : Response) = r) ∧
    (r.StatusCode ≠ 200 → ∃ e, (sendRequest p c method spath body queryParam).2 = .err e) := by
  rw [sendRequest_valid p c method spath body queryParam (validMethod_ite method hm), hdo]
  rcases r with ⟨code, ⟨data, fail⟩⟩
  refine ⟨?_, ?_, ?_, ?_⟩
  · by_cases hs : code = 200
    · simp [hs]
    · cases fail <;> simp [hs]
      split <;> simp
  · intro hs
    simp at hs
    simp [hs]
  · intro hf
    simp at hf
    simp [hf, drainBody]
  · intro hs
    simp at hs
    cases fail with
    | none =>
      by_cases hb : data = conflictPayload
      · exact ⟨.LiquidAlreadyExistError, by simp [hs, hb]⟩
      · exact ⟨.errorString data, by simp [hs, hb]⟩
    | some e => exact ⟨e, by simp [hs]⟩

theorem sendRequest_ok_iff_200_witness :
    ((∃ res, (sendRequest (fixedPlatform (some ⟨204, bodyOf ""⟩, none)) testClient (str "GET")
        (str "/products") none none).2 = .ok res) ↔ (204 : Int) = 200) ∧
    ((204 : Int) = 200 →
      (sendRequest (fixedPlatform (some ⟨204, bodyOf ""⟩, none)) testClient (str "GET")
        (str "/products") none none).2 = .ok ⟨204, drainBody (bodyOf "")⟩) ∧
    ((bodyOf "").fail = none → (⟨204, drainBody (bodyOf "")⟩ : Response) = ⟨204, bodyOf ""⟩) ∧
    ((204 : Int) ≠ 200 →
      ∃ e, (sendRequest (fixedPlatform (some ⟨204, bodyOf ""⟩, none)) testClient (str "GET")
        (str "/products") none none).2 = .err e) :=
  sendRequest_ok_iff_200 (fixedPlatform (some ⟨204, bodyOf ""⟩, none)) testClient (str "GET")
    (str "/products") none none ⟨204, bodyOf ""⟩ (by decide) rfl

/-- C7: for a response with a status code other than 200 whose body reads to EOF, the error
`sendRequest` returns is the value `LiquidAlreadyExistError` exactly when the body is equal,
byte for byte, to the conflict payload; for any other body it is a different error value. -/
theorem sendRequest_conflict_iff (p : Platform) (c : Client) (method spath : GoString)
    (body : Option GoString) (queryParam : Option (List (GoString × GoString))) (r : Response)
    (hm : validMethod method = true)
    (hdo : p.Do (builtRequest p c method spath body queryParam) = (some r, none))
    (hs : r.StatusCode ≠ 200) (hb : r.Body.fail = none) :
    ∃ e, (sendRequest p c method spath body queryParam).2 = .err e ∧
      (e = .LiquidAlreadyExistError ↔ r.Body.data = conflictPayload) := by
  rw [sendRequest_valid p c method spath body queryParam (validMethod_ite method hm), hdo]
  rcases r with ⟨code, ⟨data, fail⟩⟩
  simp at hs hb
  subst hb
  by_cases hd : data = conflictPayload
  · exact ⟨.LiquidAlreadyExistError, by simp [hs, hd], by simp [hd]⟩
  · exact ⟨.errorString data, by simp [hs, hd], by simp [hd]⟩

theorem sendRequest_conflict_iff_witness :
    ∃ e, (sendRequest
        (fixedPlatform (some ⟨422, { data := conflictPayload ++ str "\n", fail := none }⟩, none))
        testClient (str "POST") (str "/orders/") (some (str "{}")) none).2 = .err e ∧
      (e = .LiquidAlreadyExistError ↔ conflictPayload ++ str "\n" = conflictPayload) :=
  sendRequest_conflict_iff
    (fixedPlatform (some ⟨422, { data := conflictPayload ++ str "\n", fail := none }⟩, none))
    testClient (str "POST") (str "/orders/") (some (str "{}")) none
    ⟨422, { data := conflictPayload ++ str "\n", fail := none }⟩ (by decide) rfl (by decide) rfl

/-- C8: for a response with a status code other than 200 whose body reads to EOF and is not
the conflict payload, `sendRequest` returns `errors.New(b)` for the body text `b`: the
message is the body, byte for byte, and is empty for an empty body. -/
theorem sendRequest_opaque_failure (p : Platform) (c : Client) (method spath : GoString)
    (body : Option GoString) (queryParam : Option (List (GoString × GoString))) (r : Response)
    (hm : validMethod method = true)
    (hdo : p.Do (builtRequest p c method spath body queryParam) = (some r, none))
    (hs : r.StatusCode ≠ 200) (hb : r.Body.fail = none) (hne : r.Body.data ≠ conflictPayload) :
    (sendRequest p c method spath body queryParam).2 = .err (.errorString r.Body.data) ∧
    (GoError.errorString r.Body.data).Error = some r.Body.data ∧
    (r.Body.data = [] → (GoError.errorString r.Body.data).Error = some []) := by
  rw [sendRequest_valid p c method spath body queryParam (validMethod_ite method hm), hdo]
  rcases r with ⟨code, ⟨data, fail⟩⟩
  simp at hs hb hne
  subst hb
  refine ⟨by simp [hs, hne], rfl, ?_⟩
  intro h0
  simp at h0
  subst h0
  rfl

theorem sendRequest_opaque_failure_witness :
    (sendRequest (fixedPlatform (some ⟨500, bodyOf ""⟩, none)) testClient (str "PUT")
        (str "/orders/7/cancel") none none).2 = .err (.errorString (bodyOf "").data) ∧
    (GoError.errorString (bodyOf "").data).Error = some (bodyOf "").data ∧
    ((bodyOf "").data = [] → (GoError.errorString (bodyOf "").data).Error = some []) :=
  sendRequest_opaque_failure (fixedPlatform (some ⟨500, bodyOf ""⟩, none)) testClient (str "PUT")
    (str "/orders/7/cancel") none none ⟨500, bodyOf ""⟩ (by decide) rfl (by decide) rfl
    (by decide)

/-- C9 (the code at the failing input): when the transport returns an error and no
response, `sendRequest` does not return: evaluating `httpResponseLog(res)` for the log line
193 dereferences the nil response before the `err` check of line 194 is reached. This holds
for every error, client, path, body and query parameters. -/
theorem sendRequest_transport_error_nilDeref (e : GoError) (c : Client) (spath : GoString)
    (body : Option GoString) (queryParam : Option (List (GoString × GoString))) :
    (sendRequest (fixedPlatform (none, some e)) c (str "GET") spath body queryParam).2
      = .nilDeref := by
  rw [sendRequest_valid _ c (str "GET") spath body queryParam (by decide)]
  rfl

/-! ## Decoding -/

/-- C10 (counterexample): a response with status 200 whose body is the JSON value
`{}` followed by text that is not JSON makes `GetAnOrder` return a zero-valued order and
a nil error, and with `{"id":7}` before the text the order with that id; a body that is
the JSON value `null`, which is not an object, gives a zero-valued order and a nil error
as well. -/
theorem GetAnOrder_trailing_text_counterexample :
    (sendRequest (fixedPlatform (some ⟨200, bodyOf "\x7b\x7d not json"⟩, none)) testClient
        (str "GET") (str "/orders/7") none none).2 = .ok ⟨200, bodyOf "\x7b\x7d not json"⟩ ∧
    (GetAnOrder (fixedPlatform (some ⟨200, bodyOf "\x7b\x7d not json"⟩, none)) testClient 7).2
      = .ok orderShape.zero ∧
    (GetAnOrder (fixedPlatform (some ⟨200, bodyOf "\x7b\x22id\x22:7\x7d]]"⟩, none))
        testClient 7).2 = .ok { orderShape.zero with ID := 7 } ∧
    (GetAnOrder (fixedPlatform (some ⟨200, bodyOf "null"⟩, none)) testClient 7).2
      = .ok orderShape.zero := by
  refine ⟨by decide, by decide, by decide, by decide⟩

/-- C10 (amended): with a response of status 200 an endpoint method returns what the decoder
makes of the body: the decoder's error and no value when it reports one, else the decoded
value. The decoder reads the first JSON value of the body and nothing after it. It reports
`io.EOF` for every body that is empty or white space only; `io.ErrUnexpectedEOF` for every
body that is a text cut inside its first JSON value, when that value is not a number and
the cut comes after a byte that is not white space; an `UnmarshalTypeError` that names the
kind for every body whose first JSON value is an array, a string, a number or a boolean.
For a first value `null` it reports no error and the result is the zero value. Text after a
complete first value is not read: the body with the text decodes as the body without it
(for a number, when the number is followed by a byte in the body without the text), and
`{}` followed by any text decodes to the zero value. -/
theorem endpoint_returns_decode_error {P : Type} (product : Shape P) (p : Platform)
    (c : Client) (orderID productID : Int) (resO resP : Response)
    (hO : (sendRequest p c (str "GET") (str "/orders/" ++ Itoa orderID) none none).2 = .ok resO)
    (hP : (sendRequest p c (str "GET") (str "/products/" ++ Itoa productID) none none).2
      = .ok resP) :
    ((GetAnOrder p c orderID).2
      = match Decode orderShape resO.Body with
        | .error e => .err e
        | .ok order => .ok order) ∧
    ((GetProduct product p c productID).2
      = match Decode product resP.Body with
        | .error e => .err e
        | .ok v => .ok v) ∧
    (∀ b : Body, b.fail = none → b.data.all isSpace = true → Decode product b = .error .EOF) ∧
    (∀ (s w : GoString) (v : JSON) (rest : GoString),
      scanValue (2 * (s ++ w).length + 1) 0 (s ++ w) = .ok (v, rest) →
      (∀ lit, v ≠ .number lit) → rest.length < w.length → s.all isSpace = false →
        Decode product { data := s, fail := none } = .error .ErrUnexpectedEOF) ∧
    (∀ (b : Body) (j : JSON), readValue b = .ok j → j ≠ .null → (∀ m, j ≠ .object m) →
      Decode product b = .error (.UnmarshalTypeError (describe j))) ∧
    (∀ b : Body, readValue b = .ok .null → Decode product b = .ok product.zero) ∧
    (∀ (s w : GoString) (f : Option GoError) (v : JSON) (rest : GoString),
      scanValue (2 * s.length + 1) 0 s = .ok (v, rest) →
      (rest ≠ [] ∨ ∀ lit, v ≠ .number lit) →
        Decode product { data := s ++ w, fail := f }
          = Decode product { data := s, fail := f }) ∧
    (∀ (w : GoString) (f : Option GoError),
      Decode product { data := str "\x7b\x7d" ++ w, fail := f } = .ok product.zero) ∧
    Decode product (bodyOf "\x7b\x22id\x22:") = .error .ErrUnexpectedEOF ∧
    Decode product (bodyOf "[]") = .error (.UnmarshalTypeError (str "array")) ∧
    Decode product (bodyOf "\x227\x22") = .error (.UnmarshalTypeError (str "string")) ∧
    Decode product (bodyOf "7") = .error (.UnmarshalTypeError (str "number")) ∧
    Decode product (bodyOf "true") = .error (.UnmarshalTypeError (str "bool")) ∧
    Decode product (bodyOf "null") = .ok product.zero ∧
    Decode product (bodyOf "\x7b\x7d trailing") = .ok product.zero := by
  have hwrong : ∀ (b : Body) (j : JSON), readValue b = .ok j → j ≠ .null →
      (∀ m, j ≠ .object m) →
      Decode product b = .error (.UnmarshalTypeError (describe j)) := by
    intro b j hj hnull hobj
    cases j with
    | null => exact absurd rfl hnull
    | object m => exact absurd rfl (hobj m)
    | bool x => simp [Decode, hj, storeStruct, saveError]
    | number x => simp [Decode, hj, storeStruct, saveError]
    | string x => simp [Decode, hj, storeStruct, saveError]
    | array x => simp [Decode, hj, storeStruct, saveError]
  have hnull : ∀ b : Body, readValue b = .ok .null → Decode product b = .ok product.zero := by
    intro b hb
    simp [Decode, hb, storeStruct]
  have r1 : readValue (bodyOf "\x227\x22") = .ok (.string (str "7")) := rfl
  have r2 : readValue (bodyOf "7") = .ok (.number (str "7")) := rfl
  have r3 : readValue (bodyOf "true") = .ok (.bool true) := rfl
  have r4 : readValue (bodyOf "null") = .ok .null := rfl
  refine ⟨?_, ?_, ?_, ?_, hwrong, hnull, ?_, ?_, ?_, ?_, ?_, ?_, ?_, hnull _ r4, ?_⟩
  · rcases h : sendRequest p c (str "GET") (str "/orders/" ++ Itoa orderID) none none
      with ⟨c1, r⟩
    rw [h] at hO
    simp only at hO
    subst hO
    simp only [GetAnOrder, h, decodeBody]
    cases Decode orderShape resO.Body <;> rfl
  · rcases h : sendRequest p c (str "GET") (str "/products/" ++ Itoa productID) none none
      with ⟨c1, r⟩
    rw [h] at hP
    simp only at hP
    subst hP
    simp only [GetProduct, h, decodeBody]
    cases Decode product resP.Body <;> rfl
  · intro b hf hs
    exact Decode_error_of_readValue product b _ (readValue_space b hf hs)
  · intro s w v rest h hn hcut hs
    exact Decode_error_of_readValue product _ _ (readValue_cut s w v rest h hn hcut hs)
  · intro s w f v rest h hst
    have h1 := readValue_append s w f v rest h hst
    have h2 : readValue { data := s, fail := f } = .ok v := by simp only [readValue, h]
    simp only [Decode, h1, h2]
  · intro w f
    simp [Decode, readValue_append_empty_object w f, storeStruct, storeMembers]
  · exact Decode_error_of_readValue product _ _ readValue_cut_id
  · simp [Decode, readValue_array, storeStruct, saveError, describe]
  · exact hwrong _ _ r1 (by simp) (by simp)
  · exact hwrong _ _ r2 (by simp) (by simp)
  · exact hwrong _ _ r3 (by simp) (by simp)
  · simp [Decode, readValue_trailing, storeStruct, storeMembers]

theorem endpoint_returns_decode_error_witness :
    ((sendRequest (fixedPlatform (some ⟨200, bodyOf "null"⟩, none)) testClient (str "GET")
        (str "/orders/" ++ Itoa 7) none none).2 = .ok ⟨200, bodyOf "null"⟩ ∧
      (sendRequest (fixedPlatform (some ⟨200, bodyOf "null"⟩, none)) testClient (str "GET")
        (str "/products/" ++ Itoa 5) none none).2 = .ok ⟨200, bodyOf "null"⟩) ∧
    (((GetAnOrder (fixedPlatform (some ⟨200, bodyOf "null"⟩, none)) testClient 7).2
        = match Decode orderShape (bodyOf "null") with
          | .error e => .err e
          | .ok order => .ok order) ∧
      ((GetProduct orderShape (fixedPlatform (some ⟨200, bodyOf "null"⟩, none)) testClient 5).2
        = match Decode orderShape (bodyOf "null") with
          | .error e => .err e
          | .ok v => .ok v) ∧
      (∀ b : Body, b.fail = none → b.data.all isSpace = true →
        Decode orderShape b = .error .EOF) ∧
      (∀ (s w : GoString) (v : JSON) (rest : GoString),
        scanValue (2 * (s ++ w).length + 1) 0 (s ++ w) = .ok (v, rest) →
        (∀ lit, v ≠ .number lit) → rest.length < w.length → s.all isSpace = false →
          Decode orderShape { data := s, fail := none } = .error .ErrUnexpectedEOF) ∧
      (∀ (b : Body) (j : JSON), readValue b = .ok j → j ≠ .null → (∀ m, j ≠ .object m) →
        Decode orderShape b = .error (.UnmarshalTypeError (describe j))) ∧
      (∀ b : Body, readValue b = .ok .null → Decode orderShape b = .ok orderShape.zero) ∧
      (∀ (s w : GoString) (f : Option GoError) (v : JSON) (rest : GoString),
        scanValue (2 * s.length + 1) 0 s = .ok (v, rest) →
        (rest ≠ [] ∨ ∀ lit, v ≠ .number lit) →
          Decode orderShape { data := s ++ w, fail := f }
            = Decode orderShape { data := s, fail := f }) ∧
      (∀ (w : GoString) (f : Option GoError),
        Decode orderShape { data := str "\x7b\x7d" ++ w, fail := f } = .ok orderShape.zero) ∧
      Decode orderShape (bodyOf "\x7b\x22id\x22:") = .error .ErrUnexpectedEOF ∧
      Decode orderShape (bodyOf "[]") = .error (.UnmarshalTypeError (str "array")) ∧
      Decode orderShape (bodyOf "\x227\x22") = .error (.UnmarshalTypeError (str "string")) ∧
      Decode orderShape (bodyOf "7") = .error (.UnmarshalTypeError (str "number")) ∧
      Decode orderShape (bodyOf "true") = .error (.UnmarshalTypeError (str "bool")) ∧
      Decode orderShape (bodyOf "null") = .ok orderShape.zero ∧
      Decode orderShape (bodyOf "\x7b\x7d trailing") = .ok orderShape.zero) :=
  ⟨⟨by decide, by decide⟩,
    endpoint_returns_decode_error orderShape (fixedPlatform (some ⟨200, bodyOf "null"⟩, none))
      testClient 7 5 ⟨200, bodyOf "null"⟩ ⟨200, bodyOf "null"⟩ (by decide) (by decide)⟩

/-! ## The token, the client and the headers -/

/-- C11: for non-empty `apiTokenID` and `apiSecret`, the token of every request that
`newRequest` builds on the client `NewClient` returned has exactly the three claims `path`,
`nonce` and `token_id`, in which `token_id` is `apiTokenID`, `nonce` is the clock in seconds
and `path` is the signed path; its method is HS256, and the header `X-Quoine-Auth` of the
request is its signing string followed by a dot and the encoded MAC of the signing string
under the key `apiSecret`. The secret enters as that key only: the claims, and with them
the signing string, are the same for every other secret the client could have been made
with. A request is built for every method that is a token. -/
theorem newRequest_token_claims (p : Platform) (apiTokenID apiSecret : GoString)
    (logger : Option Logger) (method spath : GoString) (body : Option GoString)
    (queryParam : Option (List (GoString × GoString)))
    (ht : apiTokenID ≠ []) (hs : apiSecret ≠ []) :
    ∃ c, NewClient apiTokenID apiSecret logger = .ok c ∧
      (validMethod method = true →
        ∃ req, (newRequest p c method spath body queryParam).2 = .ok req) ∧
      ∀ req, (newRequest p c method spath body queryParam).2 = .ok req →
        (requestToken p c spath queryParam).Claims
          = [(str "path", .string (signedPath c spath queryParam)),
             (str "nonce", .int64 p.now),
             (str "token_id", .string apiTokenID)] ∧
        (requestToken p c spath queryParam).Method = str "HS256" ∧
        claim (requestToken p c spath queryParam).Header "alg" = some (.string (str "HS256")) ∧
        (requestToken p c spath queryParam).SignedString p apiSecret
          = .ok (req.Header.Get (str "X-Quoine-Auth")) ∧
        req.Header.Get (str "X-Quoine-Auth")
          = (requestToken p c spath queryParam).SigningString p ++ str "." ++
              EncodeSegment (p.hmacSHA256 apiSecret
                ((requestToken p c spath queryParam).SigningString p)) ∧
        ∀ (secret2 : GoString) (logger2 : Option Logger) (c2 : Client),
          NewClient apiTokenID secret2 logger2 = .ok c2 →
            (requestToken p c2 spath queryParam).Claims
              = (requestToken p c spath queryParam).Claims := by
  obtain ⟨c, hc⟩ : ∃ c, NewClient apiTokenID apiSecret logger = .ok c :=
    ⟨_, NewClient_eq apiTokenID apiSecret logger ht hs⟩
  obtain ⟨hu, hts, hid, hsec⟩ := NewClient_ok apiTokenID apiSecret logger c hc
  have hsw : switchURL c = c := by simp only [switchURL, hts]
  refine ⟨c, hc, ?_, ?_⟩
  · intro hm
    exact ⟨_, by rw [newRequest_valid p _ method spath body queryParam
      (validMethod_ite method hm)]⟩
  · intro req hreq
    have hb := newRequest_ok_eq p c method spath body queryParam req hreq
    have hh := (builtRequest_headers p c method spath body queryParam).2.2.2
    rw [← hb, hsw, hsec] at hh
    have halg : (str "typ" == str "alg") = false := by decide
    have halg2 : (str "alg" == str "alg") = true := by decide
    refine ⟨?_, rfl, ?_, ?_, hh, ?_⟩
    · simp only [requestToken, NewWithClaims, hsw, hid]
    · simp [claim, requestToken, NewWithClaims, List.find?, halg, halg2]
    · rw [signedString_ok, hh]
    · intro secret2 logger2 c2 h2
      obtain ⟨hu2, hts2, hid2, _⟩ := NewClient_ok apiTokenID secret2 logger2 c2 h2
      have hsw2 : switchURL c2 = c2 := by simp only [switchURL, hts2]
      simp only [requestToken, NewWithClaims, hsw, hsw2, hid, hid2,
        signedPath_of_base c2 hu2 hts2, signedPath_of_base c hu hts]

theorem newRequest_token_claims_witness :
    ∃ c, NewClient (str "apiTokenID") (str "secret") none = .ok c ∧
      (validMethod (str "GET") = true →
        ∃ req, (newRequest (fixedPlatform (none, none)) c (str "GET") (str "/products") none
          none).2 = .ok req) ∧
      ∀ req, (newRequest (fixedPlatform (none, none)) c (str "GET") (str "/products") none
          none).2 = .ok req →
        (requestToken (fixedPlatform (none, none)) c (str "/products") none).Claims
          = [(str "path", .string (signedPath c (str "/products") none)),
             (str "nonce", .int64 (fixedPlatform (none, none)).now),
             (str "token_id", .string (str "apiTokenID"))] ∧
        (requestToken (fixedPlatform (none, none)) c (str "/products") none).Method
          = str "HS256" ∧
        claim (requestToken (fixedPlatform (none, none)) c (str "/products") none).Header "alg"
          = some (.string (str "HS256")) ∧
        (requestToken (fixedPlatform (none, none)) c (str "/products") none).SignedString
            (fixedPlatform (none, none)) (str "secret")
          = .ok (req.Header.Get (str "X-Quoine-Auth")) ∧
        req.Header.Get (str "X-Quoine-Auth")
          = (requestToken (fixedPlatform (none, none)) c (str "/products") none).SigningString
                (fixedPlatform (none, none)) ++ str "." ++
              EncodeSegment ((fixedPlatform (none, none)).hmacSHA256 (str "secret")
                ((requestToken (fixedPlatform (none, none)) c (str "/products")
                  none).SigningString (fixedPlatform (none, none)))) ∧
        ∀ (secret2 : GoString) (logger2 : Option Logger) (c2 : Client),
          NewClient (str "apiTokenID") secret2 logger2 = .ok c2 →
            (requestToken (fixedPlatform (none, none)) c2 (str "/products") none).Claims
              = (requestToken (fixedPlatform (none, none)) c (str "/products") none).Claims :=
  newRequest_token_claims (fixedPlatform (none, none)) (str "apiTokenID") (str "secret") none
    (str "GET") (str "/products") none none (by decide) (by decide)

/-- C12: for non-empty `apiTokenID` and `apiSecret` and every logger, also none, `NewClient`
returns a nil error and a client whose `ApiTokenID` and `ApiSecret` are the strings passed
in, whose HTTP client has a timeout of ten seconds, whose URL is the parsed constant
`baseUrl` (it is written back as that text), with no test server attached, and whose logger
is the supplied one or, when none was supplied, a logger that writes to `ioutil.Discard`. -/
theorem NewClient_fields (apiTokenID apiSecret : GoString) (logger : Option Logger)
    (ht : apiTokenID ≠ []) (hs : apiSecret ≠ []) :
    ∃ c, NewClient apiTokenID apiSecret logger = .ok c ∧
      c.ApiTokenID = apiTokenID ∧ c.ApiSecret = apiSecret ∧
      c.HTTPClient.Timeout = 10 * Second ∧ c.HTTPClient.Timeout = 10000000000 ∧
      c.URL.String = baseUrl ∧ c.URL.Host = str "api.liquid.com" ∧ c.testServer = none ∧
      (∀ l, logger = some l → c.Logger = l) ∧
      (logger = none → c.Logger = { out := .Discard, pfx := [], flag := LstdFlags }) := by
  have t1 : (10 * Second : Int) = 10000000000 := by decide
  have t2 : testClient.URL.String = baseUrl := by decide
  have t3 : testClient.URL.Host = str "api.liquid.com" := by decide
  refine ⟨_, NewClient_eq apiTokenID apiSecret logger ht hs, rfl, rfl, rfl, t1, t2, t3, rfl,
    ?_, ?_⟩
  · intro l hl
    subst hl
    rfl
  · intro hl
    subst hl
    rfl

theorem NewClient_fields_witness :
    ∃ c, NewClient (str "apiToken") (str "apiSecret") none = .ok c ∧
      c.ApiTokenID = str "apiToken" ∧ c.ApiSecret = str "apiSecret" ∧
      c.HTTPClient.Timeout = 10 * Second ∧ c.HTTPClient.Timeout = 10000000000 ∧
      c.URL.String = baseUrl ∧ c.URL.Host = str "api.liquid.com" ∧ c.testServer = none ∧
      (∀ l, (none : Option Logger) = some l → c.Logger = l) ∧
      ((none : Option Logger) = none →
        c.Logger = { out := .Discard, pfx := [], flag := LstdFlags }) :=
  NewClient_fields (str "apiToken") (str "apiSecret") none (by decide) (by decide)

/-- C13 (counterexample): given the empty method, `newRequest` returns a request without
error, and the method of that request is `GET`, not the empty method it was given. -/
theorem newRequest_empty_method_counterexample :
    (newRequest (fixedPlatform (none, none)) testClient [] (str "/products") none none).2
      = .ok (builtRequest (fixedPlatform (none, none)) testClient [] (str "/products") none
          none) ∧
    (builtRequest (fixedPlatform (none, none)) testClient [] (str "/products") none
        none).Method = str "GET" ∧
    (builtRequest (fixedPlatform (none, none)) testClient [] (str "/products") none
        none).Method ≠ [] := by
  refine ⟨by decide, by decide, by decide⟩

/-- C13 (amended): a request that `newRequest` returns without error has the method it was
given, or `GET` when the method given is empty, and carries the four headers: `Content-Type`
is `application/json`, `X-Quoine-API-Version` is `2`, `User-Agent` is `GoClient/0.0.1 (`,
the version of the Go runtime, `)`, and `X-Quoine-Auth` is the signed string of the token
under the client's secret, which is not empty and is three parts without a dot, separated
by two dots. -/
theorem newRequest_method_and_headers (p : Platform) (c : Client) (method spath : GoString)
    (body : Option GoString) (queryParam : Option (List (GoString × GoString))) (req : Request)
    (h : (newRequest p c method spath body queryParam).2 = .ok req) :
    req.Method = (if method = [] then str "GET" else method) ∧
    (method ≠ [] → req.Method = method) ∧
    req.Header.Get (str "Content-Type") = str "application/json" ∧
    req.Header.Get (str "X-Quoine-API-Version") = str "2" ∧
    req.Header.Get (str "User-Agent") = str "GoClient/0.0.1 (" ++ p.goVersion ++ str ")" ∧
    (requestToken p c spath queryParam).SignedString p c.ApiSecret
      = .ok (req.Header.Get (str "X-Quoine-Auth")) ∧
    req.Header.Get (str "X-Quoine-Auth") ≠ [] ∧
    ∃ a b s, req.Header.Get (str "X-Quoine-Auth") = a ++ str "." ++ b ++ str "." ++ s ∧
      ch '.' ∉ a ∧ ch '.' ∉ b ∧ ch '.' ∉ s := by
  have hb := newRequest_ok_eq p c method spath body queryParam req h
  obtain ⟨h1, h2, h3, h4⟩ := builtRequest_headers p c method spath body queryParam
  rw [← hb] at h1 h2 h3 h4
  rw [(switchURL_fields c).2.1] at h4
  have hmeth : req.Method = (if method = [] then str "GET" else method) := by
    rw [hb]
    simp [builtRequest]
  refine ⟨hmeth, ?_, h1, h2, ?_, ?_, ?_, ?_⟩
  · intro hne
    rw [hmeth, if_neg hne]
  · rw [h3, userAgent_eq]
  · rw [signedString_ok, h4]
  · have hdot : str "." = [ch '.'] := by decide
    rw [h4, hdot]
    simp
  · refine ⟨EncodeSegment (p.jsonMarshal (requestToken p c spath queryParam).Header),
      EncodeSegment (p.jsonMarshal (requestToken p c spath queryParam).Claims),
      EncodeSegment (p.hmacSHA256 c.ApiSecret
        ((requestToken p c spath queryParam).SigningString p)), ?_,
      EncodeSegment_no_dot _, EncodeSegment_no_dot _, EncodeSegment_no_dot _⟩
    rw [h4]
    rfl

theorem newRequest_method_and_headers_witness :
    (newRequest (fixedPlatform (none, none)) testClient (str "PUT") (str "/orders/7/cancel")
        none none).2
      = .ok (builtRequest (fixedPlatform (none, none)) testClient (str "PUT")
          (str "/orders/7/cancel") none none) ∧
    ((builtRequest (fixedPlatform (none, none)) testClient (str "PUT")
          (str "/orders/7/cancel") none none).Method
        = (if str "PUT" = [] then str "GET" else str "PUT") ∧
      (str "PUT" ≠ [] →
        (builtRequest (fixedPlatform (none, none)) testClient (str "PUT")
          (str "/orders/7/cancel") none none).Method = str "PUT") ∧
      (builtRequest (fixedPlatform (none, none)) testClient (str "PUT")
          (str "/orders/7/cancel") none none).Header.Get (str "Content-Type")
        = str "application/json" ∧
      (builtRequest (fixedPlatform (none, none)) testClient (str "PUT")
          (str "/orders/7/cancel") none none).Header.Get (str "X-Quoine-API-Version")
        = str "2" ∧
      (builtRequest (fixedPlatform (none, none)) testClient (str "PUT")
          (str "/orders/7/cancel") none none).Header.Get (str "User-Agent")
        = str "GoClient/0.0.1 (" ++ (fixedPlatform (none, none)).goVersion ++ str ")" ∧
      (requestToken (fixedPlatform (none, none)) testClient (str "/orders/7/cancel")
          none).SignedString (fixedPlatform (none, none)) testClient.ApiSecret
        = .ok ((builtRequest (fixedPlatform (none, none)) testClient (str "PUT")
            (str "/orders/7/cancel") none none).Header.Get (str "X-Quoine-Auth")) ∧
      (builtRequest (fixedPlatform (none, none)) testClient (str "PUT")
          (str "/orders/7/cancel") none none).Header.Get (str "X-Quoine-Auth") ≠ [] ∧
      ∃ a b s, (builtRequest (fixedPlatform (none, none)) testClient (str "PUT")
          (str "/orders/7/cancel") none none).Header.Get (str "X-Quoine-Auth")
            = a ++ str "." ++ b ++ str "." ++ s ∧
        ch '.' ∉ a ∧ ch '.' ∉ b ∧ ch '.' ∉ s) :=
  ⟨by decide,
    newRequest_method_and_headers (fixedPlatform (none, none)) testClient (str "PUT")
      (str "/orders/7/cancel") none none _ (by decide)⟩

/-- C14 (counterexample): for a client made from the constant `baseUrl` to which a test
server at `http://127.0.0.1:8080` is attached, the client's URL after `newRequest` is the
URL of the test server and not the URL it had before the call. -/
theorem newRequest_switches_URL_counterexample :
    (newRequest (fixedPlatform (none, none)) (testClientWith localServer) (str "GET")
        (str "/products") none none).1.URL = localServer.URL ∧
    (newRequest (fixedPlatform (none, none)) (testClientWith localServer) (str "GET")
        (str "/products") none none).1.URL ≠ (testClientWith localServer).URL ∧
    (testClientWith localServer).URL.String = str "https://api.liquid.com" ∧
    (newRequest (fixedPlatform (none, none)) (testClientWith localServer) (str "GET")
        (str "/products") none none).1.URL.String = str "http://127.0.0.1:8080" := by
  refine ⟨by decide, by decide, by decide, by decide⟩

/-- C14 (amended): `newRequest` leaves `ApiTokenID`, `ApiSecret`, the HTTP client, the logger
and the attached test server of the client as they were; with no test server attached it
leaves the whole client as it was; with a test server attached the client's URL after the
call is the URL of the test server. In every state of the client a later call of
`newRequest` returns what it would have returned without the earlier call. -/
theorem newRequest_client_after (p : Platform) (c : Client) (method spath : GoString)
    (body : Option GoString) (queryParam : Option (List (GoString × GoString))) :
    (newRequest p c method spath body queryParam).1.ApiTokenID = c.ApiTokenID ∧
    (newRequest p c method spath body queryParam).1.ApiSecret = c.ApiSecret ∧
    (newRequest p c method spath body queryParam).1.HTTPClient = c.HTTPClient ∧
    (newRequest p c method spath body queryParam).1.Logger = c.Logger ∧
    (newRequest p c method spath body queryParam).1.testServer = c.testServer ∧
    (c.testServer = none → (newRequest p c method spath body queryParam).1 = c) ∧
    (∀ ts, c.testServer = some ts →
      (newRequest p c method spath body queryParam).1.URL = ts.URL) ∧
    (∀ (method2 spath2 : GoString) (body2 : Option GoString)
        (queryParam2 : Option (List (GoString × GoString))),
      newRequest p (newRequest p c method spath body queryParam).1 method2 spath2 body2
          queryParam2
        = newRequest p c method2 spath2 body2 queryParam2) := by
  rw [newRequest_fst]
  obtain ⟨f1, f2, f3, f4, f5⟩ := switchURL_fields c
  refine ⟨f1, f2, f3, f4, f5, ?_, ?_, ?_⟩
  · intro hn
    simp only [switchURL, hn]
  · intro ts hts
    simp only [switchURL, hts]
  · intro method2 spath2 body2 queryParam2
    exact newRequest_switchURL p c method2 spath2 body2 queryParam2

theorem newRequest_client_after_witness :
    (newRequest (fixedPlatform (none, none)) (testClientWith localServer) (str "GET")
        (str "/products") none none).1.ApiTokenID = (testClientWith localServer).ApiTokenID ∧
    (newRequest (fixedPlatform (none, none)) (testClientWith localServer) (str "GET")
        (str "/products") none none).1.ApiSecret = (testClientWith localServer).ApiSecret ∧
    (newRequest (fixedPlatform (none, none)) (testClientWith localServer) (str "GET")
        (str "/products") none none).1.HTTPClient = (testClientWith localServer).HTTPClient ∧
    (newRequest (fixedPlatform (none, none)) (testClientWith localServer) (str "GET")
        (str "/products") none none).1.Logger = (testClientWith localServer).Logger ∧
    (newRequest (fixedPlatform (none, none)) (testClientWith localServer) (str "GET")
        (str "/products") none none).1.testServer = (testClientWith localServer).testServer ∧
    ((testClientWith localServer).testServer = none →
      (newRequest (fixedPlatform (none, none)) (testClientWith localServer) (str "GET")
        (str "/products") none none).1 = testClientWith localServer) ∧
    (∀ ts, (testClientWith localServer).testServer = some ts →
      (newRequest (fixedPlatform (none, none)) (testClientWith localServer) (str "GET")
        (str "/products") none none).1.URL = ts.URL) ∧
    (∀ (method2 spath2 : GoString) (body2 : Option GoString)
        (queryParam2 : Option (List (GoString × GoString))),
      newRequest (fixedPlatform (none, none))
          (newRequest (fixedPlatform (none, none)) (testClientWith localServer) (str "GET")
            (str "/products") none none).1 method2 spath2 body2 queryParam2
        = newRequest (fixedPlatform (none, none)) (testClientWith localServer) method2 spath2
            body2 queryParam2) :=
  newRequest_client_after (fixedPlatform (none, none)) (testClientWith localServer) (str "GET")
    (str "/products") none none

/-! ## The edit of a live order -/

/-- C15: the body that `EditALiveOrder` sends is the template with `quantity` and `price`
written at its two verbs: after the member `price` come a comma, white space only, and the
closing brace of the object `order`. For every `quantity` and `price` that body is not valid
JSON: the scan of it is not cut off by its step bound, and no scan of it, at any step bound,
leaves only white space. `EditALiveOrder` builds its request with the method `PUT`, for the
path `/orders/` followed by `orderID` in decimal (42 gives `/orders/42`), with that body,
and what it returns is read off the answer of the transport to this one request; on a
client that `NewClient` returned, the URL of the request is `baseUrl` followed by that
path, and that path is the claim `path` of the token. -/
theorem EditALiveOrder_body_not_valid (p : Platform) (c : Client) (orderID : Int)
    (quantity price : GoString) :
    EditALiveOrder.body quantity price
      = str "\x7b\n\t\t\t\x22order\x22: \x7b\n\t\t\t\t\x22quantity\x22:\x22" ++ quantity
          ++ str "\x22,\n\t\t\t\t\x22price\x22:\x22" ++ price ++ str "\x22"
          ++ str "," ++ str "\n\t\t\t" ++ str "\x7d" ++ str "\n\t\t\x7d" ∧
    (str "\n\t\t\t").all isSpace = true ∧
    Valid (EditALiveOrder.body quantity price) = false ∧
    scanValue (2 * (EditALiveOrder.body quantity price).length + 1) 0
        (EditALiveOrder.body quantity price) ≠ .error .fuel ∧
    (∀ fuel depth v rest,
      scanValue fuel depth (EditALiveOrder.body quantity price) = .ok (v, rest) →
        skipSpace rest ≠ []) ∧
    Itoa 42 = str "42" ∧ Itoa (-42) = str "-42" ∧ Itoa 0 = str "0" ∧
    (∃ req,
      (newRequest p c (str "PUT") (str "/orders/" ++ Itoa orderID)
          (some (EditALiveOrder.body quantity price)) none).2 = .ok req ∧
      req.Method = str "PUT" ∧
      req.Body = some (EditALiveOrder.body quantity price) ∧
      req.URL = (requestURL c (str "/orders/" ++ Itoa orderID) none).String ∧
      EditALiveOrder p c orderID quantity price
        = (switchURL c,
            match p.Do req with
            | (none, _) => .nilDeref
            | (some _, some e) => .err e
            | (some r, none) =>
              if r.StatusCode ≠ 200 then
                match r.Body.fail with
                | some e => .err e
                | none =>
                  if r.Body.data = conflictPayload then .err .LiquidAlreadyExistError
                  else .err (.errorString r.Body.data)
              else
                match Decode orderShape (drainBody r.Body) with
                | .error e => .err e
                | .ok order => .ok order)) ∧
    (∀ (apiTokenID apiSecret : GoString) (logger : Option Logger) (c0 : Client) (req : Request),
      NewClient apiTokenID apiSecret logger = .ok c0 →
      (newRequest p c0 (str "PUT") (str "/orders/" ++ Itoa orderID)
          (some (EditALiveOrder.body quantity price)) none).2 = .ok req →
        req.URL = baseUrl ++ str "/orders/" ++ Itoa orderID ∧
        claim (requestToken p c0 (str "/orders/" ++ Itoa orderID) none).Claims "path"
          = some (.string (str "/orders/" ++ Itoa orderID))) := by
  have hv : validMethod (if str "PUT" == [] then str "GET" else str "PUT") = true := by decide
  have hput : (if str "PUT" == [] then str "GET" else str "PUT") = str "PUT" := by decide
  have h1 : str "\x22,\n\t\t\t\x7d\n\t\t\x7d"
      = str "\x22" ++ str "," ++ str "\n\t\t\t" ++ str "\x7d" ++ str "\n\t\t\x7d" := by decide
  have h2 : (str "\n\t\t\t").all isSpace = true := by decide
  have h3 : Itoa 42 = str "42" := by decide
  have h4 : Itoa (-42) = str "-42" := by decide
  have h5 : Itoa 0 = str "0" := by decide
  refine ⟨?_, h2, Valid_of_ends _ (body_ends quantity price),
    ((scan_below _).1 0 _ (Nat.le_refl _)).1, ?_, h3, h4, h5, ?_, ?_⟩
  · unfold EditALiveOrder.body
    rw [h1]
    simp only [List.append_assoc]
  · intro fuel depth v rest h
    exact not_space_of_ends rest
      ((scan_keeps_trailing fuel).1 depth _ (body_ends quantity price) v rest h)
  · refine ⟨builtRequest p c (str "PUT") (str "/orders/" ++ Itoa orderID)
      (some (EditALiveOrder.body quantity price)) none, ?_, hput, rfl, rfl,
      EditALiveOrder_eq p c orderID quantity price⟩
    rw [newRequest_valid p c _ _ _ _ hv]
  · intro apiTokenID apiSecret logger c0 req hc hreq
    obtain ⟨hu, hts, _, _⟩ := NewClient_ok apiTokenID apiSecret logger c0 hc
    rw [newRequest_valid p c0 _ _ _ _ hv] at hreq
    simp only [Result.ok.injEq] at hreq
    rw [← hreq]
    refine ⟨orders_URL c0 hu hts orderID, ?_⟩
    rw [claim_path, signedPath_of_base c0 hu hts]
    simp [rawQueryOf]

theorem EditALiveOrder_body_not_valid_witness :
    EditALiveOrder.body (str "0.5") (str "100")
      = str "\x7b\n\t\t\t\x22order\x22: \x7b\n\t\t\t\t\x22quantity\x22:\x22" ++ str "0.5"
          ++ str "\x22,\n\t\t\t\t\x22price\x22:\x22" ++ str "100" ++ str "\x22"
          ++ str "," ++ str "\n\t\t\t" ++ str "\x7d" ++ str "\n\t\t\x7d" ∧
    (str "\n\t\t\t").all isSpace = true ∧
    Valid (EditALiveOrder.body (str "0.5") (str "100")) = false ∧
    scanValue (2 * (EditALiveOrder.body (str "0.5") (str "100")).length + 1) 0
        (EditALiveOrder.body (str "0.5") (str "100")) ≠ .error .fuel ∧
    (∀ fuel depth v rest,
      scanValue fuel depth (EditALiveOrder.body (str "0.5") (str "100")) = .ok (v, rest) →
        skipSpace rest ≠ []) ∧
    Itoa 42 = str "42" ∧ Itoa (-42) = str "-42" ∧ Itoa 0 = str "0" ∧
    (∃ req,
      (newRequest (fixedPlatform (none, none)) testClient (str "PUT")
          (str "/orders/" ++ Itoa 42) (some (EditALiveOrder.body (str "0.5") (str "100")))
          none).2 = .ok req ∧
      req.Method = str "PUT" ∧
      req.Body = some (EditALiveOrder.body (str "0.5") (str "100")) ∧
      req.URL = (requestURL testClient (str "/orders/" ++ Itoa 42) none).String ∧
      EditALiveOrder (fixedPlatform (none, none)) testClient 42 (str "0.5") (str "100")
        = (switchURL testClient,
            match (fixedPlatform (none, none)).Do req with
            | (none, _) => .nilDeref
            | (some _, some e) => .err e
            | (some r, none) =>
              if r.StatusCode ≠ 200 then
                match r.Body.fail with
                | some e => .err e
                | none =>
                  if r.Body.data = conflictPayload then .err .LiquidAlreadyExistError
                  else .err (.errorString r.Body.data)
              else
                match Decode orderShape (drainBody r.Body) with
                | .error e => .err e
                | .ok order => .ok order)) ∧
    (∀ (apiTokenID apiSecret : GoString) (logger : Option Logger) (c0 : Client) (req : Request),
      NewClient apiTokenID apiSecret logger = .ok c0 →
      (newRequest (fixedPlatform (none, none)) c0 (str "PUT") (str "/orders/" ++ Itoa 42)
          (some (EditALiveOrder.body (str "0.5") (str "100"))) none).2 = .ok req →
        req.URL = baseUrl ++ str "/orders/" ++ Itoa 42 ∧
        claim (requestToken (fixedPlatform (none, none)) c0 (str "/orders/" ++ Itoa 42)
            none).Claims "path" = some (.string (str "/orders/" ++ Itoa 42))) :=
  EditALiveOrder_body_not_valid (fixedPlatform (none, none)) testClient 42
    (str "0.5") (str "100")

end Quoinex
